import Mathlib

/-!
Pattern-defeating quicksort driver of `pdqsort2.go`: a shallow embedding of `PdqSort2`,
`doPdqPivot`, `breakPatterns` and `pdqSort`, and what they guarantee.

* A Go `[]int` is a `List Int`; an in-place update returns the new list.
* Go `int` indices and budgets are `Int`, so that every subtraction of the source keeps its
  sign; an index expression outside `0 <= i < len(nums)` is the run-time panic
  `Err.outOfRange`. The one place where the source relies on machine arithmetic, the midpoint
  `int(uint(lo+hi) >> 1)`, is reduced modulo `2 ^ 64`; the theorems about it assume
  `len(nums) < 2 ^ 63`, which holds of every Go slice.
* Loops are recursive functions over a step budget; running out of it is `Err.fuel`, and the
  theorems below show that the budgets handed out by the embedding are never exhausted.
* `medianOfThree`, `heapSort`, `insertionSort`, `maxDepth` and the floating point
  `math.Log2` are not part of `pdqsort2.go`; they are the fields of `Leaves`, constrained by
  `Contracts` only.
-/

namespace PdqSort

/-- The two ways a run of the embedding can fail. -/
inductive Err where
  | outOfRange
  | fuel
  deriving DecidableEq

/-- The index expression `nums[i]`. -/
def idx (nums : List Int) (i : Int) : Except Err Int :=
  if 0 ≤ i ∧ i < nums.length then .ok (nums.getD i.toNat 0) else .error .outOfRange

/-- The exchange `nums[i], nums[j] = nums[j], nums[i]`: both operands are read, then
`nums[i]` and `nums[j]` are assigned in this order. -/
def swap (nums : List Int) (i j : Int) : Except Err (List Int) := do
  let x ← idx nums i
  let y ← idx nums j
  pure ((nums.set i.toNat y).set j.toNat x)

/-- The routines `pdqsort2.go` calls but does not define. `log2 x` stands for
`int(math.Log2(float64(x)))`. -/
structure Leaves where
  medianOfThree : List Int → Int → Int → Int → Except Err (List Int)
  heapSort : List Int → Int → Int → Except Err (List Int)
  insertionSort : List Int → Int → Int → Except Err (List Int)
  maxDepth : Int → Int
  log2 : Int → Int

/-- Source `allowedBadPartitions(a, b)`, line 8. -/
def allowedBadPartitions (L : Leaves) (a b : Int) : Int :=
  L.log2 (b - a)

/-- The loop shape `for ; i < c && cond(nums[i], nums[pivot]); i++ {}` of lines 38, 42, 90. -/
def scanUp (cond : Int → Int → Bool) (nums : List Int) (pivot c : Int) :
    Nat → Int → Except Err Int
  | 0, _ => .error .fuel
  | fuel + 1, i =>
    if i < c then do
      let x ← idx nums i
      let p ← idx nums pivot
      if cond x p then scanUp cond nums pivot c fuel (i + 1) else pure i
    else pure i

/-- The loop shape `for ; a < i && cond(nums[i-1], nums[pivot]); i-- {}` of lines 44, 88. -/
def scanDown (cond : Int → Int → Bool) (nums : List Int) (pivot a : Int) :
    Nat → Int → Except Err Int
  | 0, _ => .error .fuel
  | fuel + 1, i =>
    if a < i then do
      let x ← idx nums (i - 1)
      let p ← idx nums pivot
      if cond x p then scanDown cond nums pivot a fuel (i - 1) else pure i
    else pure i

/-- Pivot choice, lines 19-26; `m` is the midpoint of line 18. -/
def choosePivot (L : Leaves) (nums : List Int) (lo hi m : Int) : Except Err (List Int) := do
  let nums ←
    if hi - lo > 40 then do
      let s := (hi - lo) / 8
      let nums ← L.medianOfThree nums lo (lo + s) (lo + 2 * s)
      let nums ← L.medianOfThree nums m (m - s) (m + s)
      L.medianOfThree nums (hi - 1) (hi - 1 - s) (hi - 1 - 2 * s)
    else pure nums
  L.medianOfThree nums lo m (hi - 1)

/-- The scanning loop of lines 41-52, from the state `(nums, b, c)`. -/
def partitionLoop (pivot : Int) : Nat → List Int → Int → Int → Except Err (List Int × Int × Int)
  | 0, _, _, _ => .error .fuel
  | fuel + 1, nums, b, c => do
    let b ← scanUp (fun x p => !(decide (p ≤ x))) nums pivot c (fuel + 1) b
    let c ← scanDown (fun x p => decide (p ≤ x)) nums pivot b (fuel + 1) c
    if b ≥ c then pure (nums, b, c)
    else do
      let nums ← swap nums b (c - 1)
      partitionLoop pivot fuel nums (b + 1) (c - 1)

/-- Lines 60-64: the sample at `hi-1`; returns `(nums, c, dups)`. -/
def dupLast (nums : List Int) (pivot hi c dups : Int) : Except Err (List Int × Int × Int) := do
  let p ← idx nums pivot
  let last ← idx nums (hi - 1)
  if p = last then do
    let nums ← swap nums c (hi - 1)
    pure (nums, c + 1, dups + 1)
  else pure (nums, c, dups)

/-- Lines 66-69: the sample at `b-1`; returns `(b, dups)`. -/
def dupLeft (nums : List Int) (pivot b dups : Int) : Except Err (Int × Int) := do
  let x ← idx nums (b - 1)
  let p ← idx nums pivot
  if x = p then pure (b - 1, dups + 1) else pure (b, dups)

/-- Lines 74-78: the sample at `m`; returns `(nums, b, dups)`. -/
def dupMid (nums : List Int) (pivot m b dups : Int) : Except Err (List Int × Int × Int) := do
  let y ← idx nums m
  let p ← idx nums pivot
  if y = p then do
    let nums ← swap nums m (b - 1)
    pure (nums, b - 1, dups + 1)
  else pure (nums, b, dups)

/-- The duplicate test of lines 55-81, from the state `(nums, b, c)` the scanning loop left;
the last component is `protect`. -/
def dupCheck (nums : List Int) (lo hi m b c : Int) :
    Except Err (List Int × Int × Int × Bool) := do
  let pivot := lo
  let protect := decide (hi - c < 5)
  if !protect && decide (hi - c < (hi - lo) / 4) then do
    let dups : Int := 0
    let (nums, c, dups) ← dupLast nums pivot hi c dups
    let (b, dups) ← dupLeft nums pivot b dups
    let (nums, b, dups) ← dupMid nums pivot m b dups
    pure (nums, b, c, decide (dups > 1))
  else pure (nums, b, c, protect)

/-- The duplicate protection loop of lines 87-99, from the state `(nums, a, b)`. -/
def protectLoop (pivot : Int) : Nat → List Int → Int → Int → Except Err (List Int × Int × Int)
  | 0, _, _, _ => .error .fuel
  | fuel + 1, nums, a, b => do
    let b ← scanDown (fun x p => decide (x = p)) nums pivot a (fuel + 1) b
    let a ← scanUp (fun x p => decide (x < p)) nums pivot b (fuel + 1) a
    if a ≥ b then pure (nums, a, b)
    else do
      let nums ← swap nums a (b - 1)
      protectLoop pivot fuel nums (a + 1) (b - 1)

/-- Source `doPdqPivot(nums, lo, hi)`, lines 17-104; returns the updated slice with
`(mlo, mhi)`. Every loop gets the budget `hi - lo + 1`. -/
def doPdqPivot (L : Leaves) (nums : List Int) (lo hi : Int) :
    Except Err (List Int × Int × Int) := do
  let m := (lo + hi) % 2 ^ 64 / 2
  let nums ← choosePivot L nums lo hi m
  let pivot := lo
  let fuel := (hi - lo).toNat + 1
  let a ← scanUp (fun x p => decide (x ≤ p)) nums pivot (hi - 1) fuel (lo + 1)
  let (nums, b, c) ← partitionLoop pivot fuel nums a (hi - 1)
  let (nums, b, c, protect) ← dupCheck nums lo hi m b c
  let (nums, _, b) ← if protect then protectLoop pivot fuel nums a b else pure (nums, a, b)
  let nums ← swap nums pivot (b - 1)
  pure (nums, b - 1, c)

/-- Source `breakPatterns(nums)`, lines 106-121. -/
def breakPatterns (nums : List Int) : Except Err (List Int) := do
  let n : Int := nums.length
  if n ≥ 4 then do
    let nums ← swap nums 0 (n / 2)
    let nums ← swap nums (n - 1) (n - n / 2)
    if n ≥ 8 then do
      let nums ← swap nums 1 (n / 2 + 1)
      let nums ← swap nums 2 (n / 2 + 2)
      let nums ← swap nums (n - 2) (n - n / 2 - 1)
      swap nums (n - 3) (n - n / 2 - 2)
    else pure nums
  else pure nums

/-- The slice `nums[a:b]`; the model takes the capacity of `nums` to be its length. -/
def slice (nums : List Int) (a b : Int) : List Int :=
  (nums.drop a.toNat).take (b - a).toNat

/-- The call `f(nums[a:b])` of an in-place `f`: the sub-slice shares the array of `nums`, so
what `f` leaves in it is what `nums` holds at `[a, b)` afterwards. -/
def onSlice (f : List Int → Except Err (List Int)) (nums : List Int) (a b : Int) :
    Except Err (List Int) :=
  if 0 ≤ a ∧ a ≤ b ∧ b ≤ nums.length then do
    let s ← f (slice nums a b)
    pure (nums.take a.toNat ++ s ++ nums.drop b.toNat)
  else .error .outOfRange

/-- The gap-6 pass of lines 169-173, from the loop variable `i`. -/
def shellPass (b : Int) : Nat → List Int → Int → Except Err (List Int)
  | 0, _, _ => .error .fuel
  | fuel + 1, nums, i =>
    if i < b then do
      let x ← idx nums i
      let y ← idx nums (i - 6)
      let nums ← if x ≤ y then swap nums i (i - 6) else pure nums
      shellPass b fuel nums (i + 1)
    else pure nums

/-- Lines 135-139 of `pdqSort`: the classification of a partition step, `len` being
`len(nums)`. -/
def highlyUnbalanced (len a b mlo : Int) : Bool :=
  let pivotPos := mlo
  let lSize := pivotPos - a
  let rSize := b - (pivotPos + 1)
  decide (lSize < len / 8) || decide (rSize < len / 8)

/-- Lines 158-164 of `pdqSort`: `rec` is the explicit recursive call on the smaller side,
`next` the loop going round on the other side after `a = mhi` (or `b = mlo`). -/
def recurseSmaller (rec next : List Int → Int → Int → Except Err (List Int))
    (nums : List Int) (a b mlo mhi : Int) : Except Err (List Int) :=
  if mlo - a < b - mhi then do
    let nums ← rec nums a mlo
    next nums mhi b
  else do
    let nums ← rec nums mhi b
    next nums a mlo

/-- Source `pdqSort(nums, a, b, maxDepth, badAllowed)`, lines 123-176. One unit of the step
budget is one test of the loop condition `b-a > 12`; a round of the loop is a call on the
range the loop keeps. -/
def pdqSort (L : Leaves) : Nat → List Int → Int → Int → Int → Int → Except Err (List Int)
  | 0, _, _, _, _, _ => .error .fuel
  | fuel + 1, nums, a, b, maxDepth, badAllowed =>
    if b - a > 12 then
      if badAllowed = 0 then L.heapSort nums a b
      else do
        let len : Int := nums.length
        let maxDepth := maxDepth - 1
        let (nums, mlo, mhi) ← doPdqPivot L nums a b
        if highlyUnbalanced len a b mlo then
          let badAllowed := badAllowed - 1
          if badAllowed = 0 then L.heapSort nums a b
          else do
            let nums ← onSlice breakPatterns nums a mlo
            let nums ← onSlice breakPatterns nums mhi b
            recurseSmaller (fun s x y => pdqSort L fuel s x y maxDepth badAllowed)
              (fun s x y => pdqSort L fuel s x y maxDepth badAllowed) nums a b mlo mhi
        else
          recurseSmaller (fun s x y => pdqSort L fuel s x y maxDepth badAllowed)
            (fun s x y => pdqSort L fuel s x y maxDepth badAllowed) nums a b mlo mhi
    else if b - a > 1 then do
      let nums ← shellPass b (b - a).toNat nums (a + 6)
      L.insertionSort nums a b
    else pure nums

/-- Source `PdqSort2(nums)`, lines 12-15. -/
def PdqSort2 (L : Leaves) (nums : List Int) : Except Err (List Int) :=
  let n : Int := nums.length
  pdqSort L (nums.length + 1) nums 0 n (L.maxDepth n) (allowedBadPartitions L 0 n)

/-- Lines 158-164 with the call stack made visible: next to the slice, the deepest nesting of
explicit `pdqSort` calls below the current frame. The recursive call opens one frame, the
round of the loop none. -/
def recurseSmallerDepth (rec next : List Int → Int → Int → Except Err (List Int × Nat))
    (nums : List Int) (a b mlo mhi : Int) : Except Err (List Int × Nat) :=
  if mlo - a < b - mhi then do
    let (nums, d1) ← rec nums a mlo
    let (nums, d2) ← next nums mhi b
    pure (nums, max (d1 + 1) d2)
  else do
    let (nums, d1) ← rec nums mhi b
    let (nums, d2) ← next nums a mlo
    pure (nums, max (d1 + 1) d2)

/-- The driver `pdqSort` again, returning also the deepest nesting of explicit recursive
`pdqSort` calls it opened (the leaf routines count for none). -/
def pdqSortDepth (L : Leaves) :
    Nat → List Int → Int → Int → Int → Int → Except Err (List Int × Nat)
  | 0, _, _, _, _, _ => .error .fuel
  | fuel + 1, nums, a, b, maxDepth, badAllowed =>
    if b - a > 12 then
      if badAllowed = 0 then do
        let nums ← L.heapSort nums a b
        pure (nums, 0)
      else do
        let len : Int := nums.length
        let maxDepth := maxDepth - 1
        let (nums, mlo, mhi) ← doPdqPivot L nums a b
        if highlyUnbalanced len a b mlo then
          let badAllowed := badAllowed - 1
          if badAllowed = 0 then do
            let nums ← L.heapSort nums a b
            pure (nums, 0)
          else do
            let nums ← onSlice breakPatterns nums a mlo
            let nums ← onSlice breakPatterns nums mhi b
            recurseSmallerDepth (fun s x y => pdqSortDepth L fuel s x y maxDepth badAllowed)
              (fun s x y => pdqSortDepth L fuel s x y maxDepth badAllowed) nums a b mlo mhi
        else
          recurseSmallerDepth (fun s x y => pdqSortDepth L fuel s x y maxDepth badAllowed)
            (fun s x y => pdqSortDepth L fuel s x y maxDepth badAllowed) nums a b mlo mhi
    else if b - a > 1 then do
      let nums ← shellPass b (b - a).toNat nums (a + 6)
      let nums ← L.insertionSort nums a b
      pure (nums, 0)
    else pure (nums, 0)

/-- Lines 18-52 of `doPdqPivot`: the pivot choice and the scanning phase; returns the state
`(nums, a, b, c)` in which the duplicate test of line 55 starts. -/
def scanPhase (L : Leaves) (nums : List Int) (lo hi : Int) :
    Except Err (List Int × Int × Int × Int) := do
  let m := (lo + hi) % 2 ^ 64 / 2
  let nums ← choosePivot L nums lo hi m
  let pivot := lo
  let fuel := (hi - lo).toNat + 1
  let a ← scanUp (fun x p => decide (x ≤ p)) nums pivot (hi - 1) fuel (lo + 1)
  let (nums, b, c) ← partitionLoop pivot fuel nums a (hi - 1)
  pure (nums, a, b, c)

/-- Lines 55-104 of `doPdqPivot`, from the state `(nums, a, b, c)` the scanning phase left. -/
def finishPivot (nums : List Int) (lo hi a b c : Int) : Except Err (List Int × Int × Int) := do
  let m := (lo + hi) % 2 ^ 64 / 2
  let pivot := lo
  let fuel := (hi - lo).toNat + 1
  let (nums, b, c, protect) ← dupCheck nums lo hi m b c
  let (nums, _, b) ← if protect then protectLoop pivot fuel nums a b else pure (nums, a, b)
  let nums ← swap nums pivot (b - 1)
  pure (nums, b - 1, c)

/-- What `pdqSort` does with a range, one constructor for each place of the source that uses
one: the loop body starting on `[a, b)` with `badAllowed` (line 124), the `heapSort` of line
126, the `doPdqPivot` of line 134, the `heapSort` of line 148, the slices `nums[a:b]` of lines
152 and 153, the recursive calls of lines 159 and 162 with their `badAllowed`, and the
`insertionSort` of line 174. -/
inductive Event where
  | loopBody (a b badAllowed : Int)
  | heapSortTop (a b : Int)
  | doPdqPivot (a b : Int)
  | heapSortBad (a b : Int)
  | breakPatterns (a b : Int)
  | pdqSort (a b badAllowed : Int)
  | insertionSort (a b : Int)
  deriving DecidableEq

/-- The range an event uses. -/
def Event.range : Event → Int × Int
  | .loopBody a b _ => (a, b)
  | .heapSortTop a b => (a, b)
  | .doPdqPivot a b => (a, b)
  | .heapSortBad a b => (a, b)
  | .breakPatterns a b => (a, b)
  | .pdqSort a b _ => (a, b)
  | .insertionSort a b => (a, b)

/-- Lines 158-164 with the events of the two sides collected: the recursive call of the
smaller side is recorded with the `badAllowed` it is given. -/
def recurseSmallerTrace (rec next : List Int → Int → Int → Except Err (List Int × List Event))
    (badAllowed : Int) (nums : List Int) (a b mlo mhi : Int) :
    Except Err (List Int × List Event) :=
  if mlo - a < b - mhi then do
    let (nums, t1) ← rec nums a mlo
    let (nums, t2) ← next nums mhi b
    pure (nums, Event.pdqSort a mlo badAllowed :: (t1 ++ t2))
  else do
    let (nums, t1) ← rec nums mhi b
    let (nums, t2) ← next nums a mlo
    pure (nums, Event.pdqSort mhi b badAllowed :: (t1 ++ t2))

/-- The driver `pdqSort` again, returning also the events of the run in the order of the
source. -/
def pdqSortTrace (L : Leaves) :
    Nat → List Int → Int → Int → Int → Int → Except Err (List Int × List Event)
  | 0, _, _, _, _, _ => .error .fuel
  | fuel + 1, nums, a, b, maxDepth, badAllowed =>
    if b - a > 12 then
      if badAllowed = 0 then do
        let nums ← L.heapSort nums a b
        pure (nums, [.loopBody a b badAllowed, .heapSortTop a b])
      else do
        let len : Int := nums.length
        let maxDepth := maxDepth - 1
        let (nums, mlo, mhi) ← doPdqPivot L nums a b
        if highlyUnbalanced len a b mlo then
          let spent := badAllowed - 1
          if spent = 0 then do
            let nums ← L.heapSort nums a b
            pure (nums, [.loopBody a b badAllowed, .doPdqPivot a b, .heapSortBad a b])
          else do
            let nums ← onSlice breakPatterns nums a mlo
            let nums ← onSlice breakPatterns nums mhi b
            let (nums, t) ← recurseSmallerTrace
              (fun s x y => pdqSortTrace L fuel s x y maxDepth spent)
              (fun s x y => pdqSortTrace L fuel s x y maxDepth spent) spent nums a b mlo mhi
            pure (nums, [.loopBody a b badAllowed, .doPdqPivot a b, .breakPatterns a mlo,
              .breakPatterns mhi b] ++ t)
        else do
          let (nums, t) ← recurseSmallerTrace
            (fun s x y => pdqSortTrace L fuel s x y maxDepth badAllowed)
            (fun s x y => pdqSortTrace L fuel s x y maxDepth badAllowed) badAllowed nums a b
            mlo mhi
          pure (nums, [.loopBody a b badAllowed, .doPdqPivot a b] ++ t)
    else if b - a > 1 then do
      let nums ← shellPass b (b - a).toNat nums (a + 6)
      let nums ← L.insertionSort nums a b
      pure (nums, [.insertionSort a b])
    else pure (nums, [])

/-- The index expressions of `breakPatterns` on a slice of length `n`, lines 110-118. -/
def breakPatternsIndices (n : Int) : List Int :=
  if n ≥ 4 then
    [0, n / 2, n - 1, n - n / 2] ++
      (if n ≥ 8 then
        [1, n / 2 + 1, 2, n / 2 + 2, n - 2, n - n / 2 - 1, n - 3, n - n / 2 - 2]
      else [])
  else []

/-! Vocabulary of the statements. -/

/-- The value at index `i`, for `0 <= i < len(nums)`. -/
def val (nums : List Int) (i : Int) : Int := nums.getD i.toNat 0

/-- What `swap nums i j` returns when both indices are in range. -/
def swapped (nums : List Int) (i j : Int) : List Int :=
  (nums.set i.toNat (val nums j)).set j.toNat (val nums i)

/-- The list `r` is `nums` with the range `[a, b)` permuted: same length, same values outside
`[a, b)`, and the same multiset inside. -/
def RangePerm (nums r : List Int) (a b : Int) : Prop :=
  r.length = nums.length ∧
    (∀ k : Int, 0 ≤ k → k < a ∨ b ≤ k → val r k = val nums k) ∧
    (slice r a b).Perm (slice nums a b)

/-- The state of `doPdqPivot` between the scanning loop and the final exchange: `nums[lo]` is
the pivot, `(lo, b)` holds values `<=` it, `[a, b)` values `<` it, `[b, c)` values equal to
it and `[c, hi)` values `>=` it. -/
def Zones (nums : List Int) (lo hi a b c : Int) : Prop :=
  lo < a ∧ lo < b ∧ b ≤ c ∧ c ≤ hi ∧
    (∀ k, lo < k → k < b → val nums k ≤ val nums lo) ∧
    (∀ k, a ≤ k → k < b → val nums k < val nums lo) ∧
    (∀ k, b ≤ k → k < c → val nums k = val nums lo) ∧
    (∀ k, c ≤ k → k < hi → val nums lo ≤ val nums k)

/-- The contract of `medianOfThree(nums, m1, m0, m2)` on three distinct positions in range:
it permutes the slice, touches these positions only, and, when the positions come in
increasing order as in the final call `medianOfThree(nums, lo, m, hi-1)`, leaves at the
first a value that is at most the value at the last. -/
def MedianContract (f : List Int → Int → Int → Int → Except Err (List Int)) : Prop :=
  ∀ (nums : List Int) (m1 m0 m2 : Int), 0 ≤ m1 → m1 < nums.length → 0 ≤ m0 →
    m0 < nums.length → 0 ≤ m2 → m2 < nums.length → m1 ≠ m0 → m0 ≠ m2 → m1 ≠ m2 →
    ∃ r, f nums m1 m0 m2 = .ok r ∧ r.Perm nums ∧
      (∀ k : Int, 0 ≤ k → k ≠ m1 → k ≠ m0 → k ≠ m2 → val r k = val nums k) ∧
      (m1 < m0 → m0 < m2 → val r m1 ≤ val r m2)

/-- The contract of `heapSort(nums, lo, hi)` and of `insertionSort(nums, lo, hi)`: on a range
of the slice, the range is sorted in place and nothing outside it is touched. -/
def SortContract (f : List Int → Int → Int → Except Err (List Int)) : Prop :=
  ∀ (nums : List Int) (lo hi : Int), 0 ≤ lo → lo ≤ hi → hi ≤ nums.length →
    ∃ r, f nums lo hi = .ok r ∧ RangePerm nums r lo hi ∧ (slice r lo hi).Sorted (· ≤ ·)

/-- The leaf routines taken at their contracts. Nothing is asked of `maxDepth` and `log2`. -/
structure Contracts (L : Leaves) : Prop where
  median : MedianContract L.medianOfThree
  heap : SortContract L.heapSort
  insertion : SortContract L.insertionSort

/-- What `doPdqPivot(nums, lo, hi)` establishes when it returns `(mlo, mhi)` and leaves `r`. -/
def Partitioned (nums r : List Int) (lo hi mlo mhi : Int) : Prop :=
  lo ≤ mlo ∧ mlo < mhi ∧ mhi < hi ∧ RangePerm nums r lo hi ∧
    (∀ k, lo ≤ k → k < mlo → val r k ≤ val r mlo) ∧
    (∀ k, mlo ≤ k → k < mhi → val r k = val r mlo) ∧
    (∀ k, mhi ≤ k → k < hi → val r mlo ≤ val r k)

/-- The three zones of a partition as facts about the members of the sub-slices. -/
def ThreeZones (r : List Int) (a b mlo mhi p : Int) : Prop :=
  (∀ x ∈ slice r a mlo, x ≤ p) ∧ (∀ x ∈ slice r mlo mhi, x = p) ∧ (∀ x ∈ slice r mhi b, p ≤ x)

/-- The function `g` sorts in place every range shorter than `bound` of a slice of length
`len`. -/
def SortsRanges (g : List Int → Int → Int → Except Err (List Int)) (len bound : Int) : Prop :=
  ∀ (s : List Int) (x y : Int), (s.length : Int) = len → 0 ≤ x → x ≤ y → y ≤ len →
    y - x < bound → ∃ r, g s x y = .ok r ∧ RangePerm s r x y ∧ (slice r x y).Sorted (· ≤ ·)

/-- The function `g` permutes in place every range shorter than `bound` of a slice of length
`len`, and opens at most `log2` of the length of the range nested frames. -/
def BoundsDepth (g : List Int → Int → Int → Except Err (List Int × Nat)) (len bound : Int) :
    Prop :=
  ∀ (s : List Int) (x y : Int), (s.length : Int) = len → 0 ≤ x → x ≤ y → y ≤ len →
    y - x < bound →
    ∃ r depth, g s x y = .ok (r, depth) ∧ RangePerm s r x y ∧ depth ≤ Nat.log 2 (y - x).toNat

/-- The event uses a sub-range of `[a, b)`. -/
def Event.within (a b : Int) (ev : Event) : Prop :=
  a ≤ ev.range.1 ∧ ev.range.1 ≤ ev.range.2 ∧ ev.range.2 ≤ b

/-- The event respects the quality budget: a loop body and a recursive call see
`badAllowed >= 1`, and the `heapSort` at the top of the loop is not reached. -/
def Event.budgetKept : Event → Prop
  | .loopBody _ _ k => 1 ≤ k
  | .pdqSort _ _ k => 1 ≤ k
  | .heapSortTop _ _ => False
  | _ => True

/-- The function `g` permutes in place every range shorter than `bound` of a slice of length
`len`, with events inside the range that respect the quality budget `keep` asks for. -/
def TracesRanges (g : List Int → Int → Int → Except Err (List Int × List Event))
    (len bound : Int) (keep : Prop) : Prop :=
  ∀ (s : List Int) (x y : Int), (s.length : Int) = len → 0 ≤ x → x ≤ y → y ≤ len →
    y - x < bound →
    ∃ r t, g s x y = .ok (r, t) ∧ RangePerm s r x y ∧ (∀ ev ∈ t, Event.within x y ev) ∧
      (keep → ∀ ev ∈ t, Event.budgetKept ev)

/-- The invariant written above the scanning loop of `doPdqPivot` (source comment, lines
28-34), read at the end of the scan: `nums[lo < i < a] < pivot`, `nums[a <= i < b] <= pivot`,
`nums[c <= i < hi-1] > pivot` and `nums[hi-1] >= pivot`, with `nums[lo]` the pivot. -/
def DocumentedZones (nums : List Int) (lo hi a b c : Int) : Prop :=
  (∀ i, lo < i → i < a → val nums i < val nums lo) ∧
    (∀ i, a ≤ i → i < b → val nums i ≤ val nums lo) ∧
    (∀ i, c ≤ i → i < hi - 1 → val nums i > val nums lo) ∧
    val nums (hi - 1) ≥ val nums lo

/-- The list `r` is a permutation of `nums` that differs from it at the three positions
only. -/
def Touches (nums r : List Int) (m1 m0 m2 : Int) : Prop :=
  r.Perm nums ∧ ∀ k : Int, 0 ≤ k → k ≠ m1 → k ≠ m0 → k ≠ m2 → val r k = val nums k

/-- The effect of `breakPatterns` in the words of its contract: nothing below length 4, the
exchanges `(0, n/2)` then `(n-1, n-n/2)` from length 4 on, and four more exchanges, in this
order, from length 8 on. -/
def breakPatternsSpec (nums : List Int) : List Int :=
  let n : Int := nums.length
  if n < 4 then nums
  else if n < 8 then swapped (swapped nums 0 (n / 2)) (n - 1) (n - n / 2)
  else
    swapped (swapped (swapped (swapped (swapped (swapped nums 0 (n / 2)) (n - 1) (n - n / 2))
      1 (n / 2 + 1)) 2 (n / 2 + 2)) (n - 2) (n - n / 2 - 1)) (n - 3) (n - n / 2 - 2)

/-! Reference leaf routines, to run the driver on concrete slices. -/

/-- Modelled from the spec: `medianOfThree` is not in `pdqsort2.go`. Sections 4.1 and 6 have
it reorder three positions so that the median ends at the position the partitioner then
reads as the pivot, the first argument of the call (`lo`, `mid`, `hi-1` in the ninther); the
smallest value ends at the second argument and the largest at the third. -/
def refMedianOfThree (nums : List Int) (m1 m0 m2 : Int) : Except Err (List Int) := do
  let x1 ← idx nums m1
  let x0 ← idx nums m0
  let nums ← if x1 < x0 then swap nums m1 m0 else pure nums
  let x2 ← idx nums m2
  let x1 ← idx nums m1
  if x2 < x1 then do
    let nums ← swap nums m2 m1
    let x1 ← idx nums m1
    let x0 ← idx nums m0
    if x1 < x0 then swap nums m1 m0 else pure nums
  else pure nums

/-- Modelled from the spec: `heapSort` and `insertionSort` are not in `pdqsort2.go`. Section 6
has both sort `[lo, hi)` ascending in place; the model sorts the sub-slice and writes it
back. -/
def refSortRange (nums : List Int) (lo hi : Int) : Except Err (List Int) :=
  onSlice (fun s => pure (s.insertionSort (· ≤ ·))) nums lo hi

/-- The integer part of the binary logarithm of `n` (0 for `n < 2`), by halving. -/
def refLog2 : Nat → Nat → Nat
  | 0, _ => 0
  | fuel + 1, n => if n < 2 then 0 else refLog2 fuel (n / 2) + 1

/-- Modelled from the spec: `maxDepth` and `math.Log2` are not in `pdqsort2.go`. Section 6
leaves the formula of the depth budget open; the quality budget is the integer part of the
binary logarithm of the length. -/
def refLeaves : Leaves where
  medianOfThree := refMedianOfThree
  heapSort := refSortRange
  insertionSort := refSortRange
  maxDepth := fun n => 2 * ((refLog2 n.toNat n.toNat : Int) + 1)
  log2 := fun x => (refLog2 x.toNat x.toNat : Int)

/-- A slice of length 40 whose first, middle and last values are the pivot 5, with four larger
values before the last. -/
def skewed40 : List Int :=
  [5] ++ List.replicate 19 1 ++ [5] ++ List.replicate 14 1 ++ [9, 9, 9, 9] ++ [5]

/-! Exchanges, slices and ranges. -/

theorem length_swapped (nums : List Int) (i j : Int) :
    (swapped nums i j).length = nums.length := by
  simp [swapped]

theorem val_swapped (nums : List Int) (i j k : Int) (hi : 0 ≤ i) (hi2 : i < nums.length)
    (hj : 0 ≤ j) (hj2 : j < nums.length) (hk : 0 ≤ k) :
    val (swapped nums i j) k =
      if k = j then val nums i else if k = i then val nums j else val nums k := by
  have e1 : (j.toNat = k.toNat) ↔ k = j := by omega
  have e2 : (i.toNat = k.toNat) ↔ k = i := by omega
  have h1 : j.toNat < nums.length := by omega
  have h2 : i.toNat < nums.length := by omega
  simp only [val, swapped, List.getD_eq_getElem?_getD, List.getElem?_set, List.length_set, e1, e2]
  by_cases c1 : k = j
  · simp [c1, h1]
  · by_cases c2 : k = i
    · subst c2
      simp [c1, h2]
    · simp [c1, c2]

theorem cons_set_perm (x : Int) : ∀ (t : List Int) (j : Nat), j < t.length →
    (t.getD j 0 :: t.set j x).Perm (x :: t)
  | [], j, h => by simp at h
  | y :: t, 0, _ => by simpa using List.Perm.swap x y t
  | y :: t, j + 1, h => by
    have ih := cons_set_perm x t j (by simpa using h)
    simp only [List.getD_cons_succ, List.set_cons_succ]
    exact ((List.Perm.swap y (t.getD j 0) (t.set j x)).trans (ih.cons y)).trans
      (List.Perm.swap x y t)

theorem set_set_getD_perm : ∀ (l : List Int) (i j : Nat), i < l.length → j < l.length →
    ((l.set i (l.getD j 0)).set j (l.getD i 0)).Perm l
  | [], i, _, h, _ => by simp at h
  | x :: t, 0, 0, _, _ => by simp
  | x :: t, 0, j + 1, _, h => by
    simpa using cons_set_perm x t j (by simpa using h)
  | x :: t, i + 1, 0, h, _ => by
    simpa using cons_set_perm x t i (by simpa using h)
  | x :: t, i + 1, j + 1, h1, h2 => by
    simpa using set_set_getD_perm t i j (by simpa using h1) (by simpa using h2)

theorem swapped_perm (nums : List Int) (i j : Int) (hi : 0 ≤ i) (hi2 : i < nums.length)
    (_hj : 0 ≤ j) (hj2 : j < nums.length) : (swapped nums i j).Perm nums :=
  set_set_getD_perm nums i.toNat j.toNat (by omega) (by omega)

theorem length_slice (nums : List Int) (a b : Int) (ha : 0 ≤ a) (hab : a ≤ b)
    (hb : b ≤ nums.length) : ((slice nums a b).length : Int) = b - a := by
  simp only [slice, List.length_take, List.length_drop]
  omega

theorem slice_full (nums : List Int) : slice nums 0 nums.length = nums := by
  simp [slice]

theorem slice_split (nums : List Int) (a m b : Int) (ha : 0 ≤ a) (ham : a ≤ m) (hmb : m ≤ b) :
    slice nums a b = slice nums a m ++ slice nums m b := by
  have e1 : (b - a).toNat = (m - a).toNat + (b - m).toNat := by omega
  have e2 : m.toNat = a.toNat + (m - a).toNat := by omega
  simp only [slice]
  rw [e1, List.take_add, List.drop_drop, ← e2]

theorem getElem_slice (nums : List Int) (a b : Int) (ha : 0 ≤ a) (k : Nat)
    (hk : k < (slice nums a b).length) : (slice nums a b)[k] = val nums (a + k) := by
  have hk2 := hk
  simp only [slice, List.length_take, List.length_drop] at hk2
  have e : (a + (k : Int)).toNat = a.toNat + k := by omega
  simp only [slice, val, List.getElem_take, List.getElem_drop, e,
    List.getD_eq_getElem?_getD]
  rw [List.getElem?_eq_getElem (by omega)]
  rfl

theorem mem_slice_iff (nums : List Int) (a b : Int) (ha : 0 ≤ a) (x : Int) :
    x ∈ slice nums a b ↔ ∃ k : Int, a ≤ k ∧ k < b ∧ k < nums.length ∧ val nums k = x := by
  constructor
  · intro h
    obtain ⟨n, hn, rfl⟩ := List.mem_iff_getElem.mp h
    have hn2 := hn
    simp only [slice, List.length_take, List.length_drop] at hn2
    exact ⟨a + n, by omega, by omega, by omega, (getElem_slice nums a b ha n hn).symm⟩
  · rintro ⟨k, h1, h2, h3, rfl⟩
    have hlen : (k - a).toNat < (slice nums a b).length := by
      simp only [slice, List.length_take, List.length_drop]
      omega
    have := getElem_slice nums a b ha (k - a).toNat hlen
    have e : a + ((k - a).toNat : Int) = k := by omega
    rw [e] at this
    rw [← this]
    exact List.getElem_mem _

theorem slice_congr (nums r : List Int) (a b : Int) (ha : 0 ≤ a)
    (hlen : r.length = nums.length)
    (h : ∀ k : Int, a ≤ k → k < b → val r k = val nums k) : slice r a b = slice nums a b := by
  have hl : (slice r a b).length = (slice nums a b).length := by
    simp only [slice, List.length_take, List.length_drop, hlen]
  apply List.ext_getElem hl
  intro n h1 h2
  rw [getElem_slice r a b ha n h1, getElem_slice nums a b ha n h2]
  have h3 := h2
  simp only [slice, List.length_take, List.length_drop] at h3
  exact h (a + n) (by omega) (by omega)

theorem take_eq_slice (nums : List Int) (a : Int) : nums.take a.toNat = slice nums 0 a := by
  simp [slice]

theorem drop_eq_slice (nums : List Int) (b : Int) :
    nums.drop b.toNat = slice nums b nums.length := by
  simp only [slice]
  rw [List.take_of_length_le]
  simp only [List.length_drop]
  omega

theorem RangePerm.same (nums : List Int) (a b : Int) : RangePerm nums nums a b :=
  ⟨rfl, fun _ _ _ => rfl, List.Perm.refl _⟩

theorem RangePerm.chain {nums r s : List Int} {a b : Int} (h1 : RangePerm nums r a b)
    (h2 : RangePerm r s a b) : RangePerm nums s a b :=
  ⟨h2.1.trans h1.1, fun k hk hk2 => (h2.2.1 k hk hk2).trans (h1.2.1 k hk hk2),
    h2.2.2.trans h1.2.2⟩

theorem split3 (nums : List Int) (a b : Int) (ha : 0 ≤ a) (hab : a ≤ b)
    (hb : b ≤ nums.length) :
    nums = slice nums 0 a ++ (slice nums a b ++ slice nums b nums.length) := by
  rw [← slice_split nums a b nums.length ha hab hb,
    ← slice_split nums 0 a nums.length le_rfl ha (by omega), slice_full]

theorem RangePerm.widen {nums r : List Int} {a b a' b' : Int} (h : RangePerm nums r a' b')
    (ha : 0 ≤ a) (h1 : a ≤ a') (h2 : a' ≤ b') (h3 : b' ≤ b) : RangePerm nums r a b := by
  refine ⟨h.1, fun k hk hk2 => h.2.1 k hk (by omega), ?_⟩
  rw [slice_split r a a' b ha h1 (by omega), slice_split r a' b' b (by omega) h2 h3,
    slice_split nums a a' b ha h1 (by omega), slice_split nums a' b' b (by omega) h2 h3,
    slice_congr nums r a a' ha h.1 (fun k _ hk2 => h.2.1 k (by omega) (Or.inl hk2)),
    slice_congr nums r b' b (by omega) h.1 (fun k hk1 _ => h.2.1 k (by omega) (Or.inr hk1))]
  exact (h.2.2.append_right _).append_left _

theorem RangePerm.toPerm {nums r : List Int} {a b : Int} (h : RangePerm nums r a b)
    (ha : 0 ≤ a) (hab : a ≤ b) (hb : b ≤ nums.length) : r.Perm nums := by
  have h0 := h.widen (a := 0) (b := nums.length) le_rfl ha hab hb
  have := h0.2.2
  rw [slice_full] at this
  have e : slice r 0 nums.length = r := by rw [← h.1, slice_full]
  rwa [e] at this

theorem RangePerm.ofPerm {nums r : List Int} {a b : Int} (hp : r.Perm nums)
    (hf : ∀ k : Int, 0 ≤ k → k < a ∨ b ≤ k → val r k = val nums k)
    (ha : 0 ≤ a) (hab : a ≤ b) (hb : b ≤ nums.length) : RangePerm nums r a b := by
  have hlen := hp.length_eq
  refine ⟨hlen, hf, ?_⟩
  have e1 := split3 nums a b ha hab hb
  have e2 := split3 r a b ha hab (by omega)
  rw [slice_congr nums r 0 a le_rfl hlen (fun k hk hk2 => hf k hk (Or.inl hk2)), hlen,
    slice_congr nums r b nums.length (by omega) hlen
      (fun k hk _ => hf k (by omega) (Or.inr hk))] at e2
  rw [e1, e2] at hp
  exact (List.perm_append_right_iff _).mp ((List.perm_append_left_iff _).mp hp)

theorem RangePerm.sliceEq {nums r : List Int} {a b : Int} (h : RangePerm nums r a b)
    (u v : Int) (hu : 0 ≤ u) (hd : v ≤ a ∨ b ≤ u) : slice r u v = slice nums u v :=
  slice_congr nums r u v hu h.1 (fun k hk1 hk2 => h.2.1 k (by omega) (by omega))

theorem swapped_rangePerm (nums : List Int) (a b i j : Int) (ha : 0 ≤ a)
    (hb : b ≤ nums.length) (hi : a ≤ i) (hi2 : i < b) (hj : a ≤ j) (hj2 : j < b) :
    RangePerm nums (swapped nums i j) a b := by
  apply RangePerm.ofPerm (swapped_perm nums i j (by omega) (by omega) (by omega) (by omega))
    _ ha (by omega) hb
  intro k hk hk2
  rw [val_swapped nums i j k (by omega) (by omega) (by omega) (by omega) hk]
  have c1 : k ≠ j := by omega
  have c2 : k ≠ i := by omega
  simp [c1, c2]

theorem RangePerm.forallMem {nums r : List Int} {a b : Int} (h : RangePerm nums r a b)
    (P : Int → Prop) (hP : ∀ x ∈ slice nums a b, P x) : ∀ x ∈ slice r a b, P x :=
  fun x hx => hP x (h.2.2.mem_iff.mp hx)

theorem idx_eq (nums : List Int) (i : Int) (h1 : 0 ≤ i) (h2 : i < nums.length) :
    idx nums i = .ok (val nums i) := by
  simp [idx, val, h1, h2]

theorem swap_eq (nums : List Int) (i j : Int) (h1 : 0 ≤ i) (h2 : i < nums.length)
    (h3 : 0 ≤ j) (h4 : j < nums.length) : swap nums i j = .ok (swapped nums i j) := by
  simp only [swap, idx_eq nums i h1 h2, idx_eq nums j h3 h4]
  rfl

theorem scanUp_done (cond : Int → Int → Bool) (nums : List Int) (pivot c : Int) (fuel : Nat)
    (i : Int) (h : c ≤ i) : scanUp cond nums pivot c (fuel + 1) i = .ok i := by
  have : ¬ i < c := by omega
  simp [scanUp, this]
  rfl

theorem scanUp_spec (cond : Int → Int → Bool) (nums : List Int) (pivot c : Int)
    (hp : 0 ≤ pivot) (hp2 : pivot < nums.length) (hc : c ≤ nums.length) :
    ∀ (fuel : Nat) (i : Int), 0 ≤ i → i ≤ c → c - i < fuel →
      ∃ i', scanUp cond nums pivot c fuel i = .ok i' ∧ i ≤ i' ∧ i' ≤ c ∧
        (∀ k, i ≤ k → k < i' → cond (val nums k) (val nums pivot) = true) ∧
        (i' < c → cond (val nums i') (val nums pivot) = false) := by
  intro fuel
  induction fuel with
  | zero => intro i _ _ h; omega
  | succ fuel ih =>
    intro i h0 hic hf
    by_cases hlt : i < c
    · by_cases hcond : cond (val nums i) (val nums pivot) = true
      · obtain ⟨i', e, h1, h2, h3, h4⟩ := ih (i + 1) (by omega) (by omega) (by omega)
        refine ⟨i', ?_, by omega, h2, ?_, h4⟩
        · simp only [scanUp, hlt, if_true, idx_eq nums i h0 (by omega),
            idx_eq nums pivot hp hp2]
          simpa [bind, Except.bind, hcond] using e
        · intro k hk1 hk2
          by_cases hki : k = i
          · rw [hki]; exact hcond
          · exact h3 k (by omega) hk2
      · refine ⟨i, ?_, le_rfl, hic, fun k hk1 hk2 => by omega, fun _ => by simpa using hcond⟩
        simp only [scanUp, hlt, if_true, idx_eq nums i h0 (by omega),
            idx_eq nums pivot hp hp2]
        simp [bind, Except.bind, hcond]
        rfl
    · exact ⟨i, scanUp_done cond nums pivot c fuel i (by omega), le_rfl, hic,
        fun k hk1 hk2 => by omega, fun h => by omega⟩

theorem scanDown_done (cond : Int → Int → Bool) (nums : List Int) (pivot a : Int) (fuel : Nat)
    (i : Int) (h : i ≤ a) : scanDown cond nums pivot a (fuel + 1) i = .ok i := by
  have : ¬ a < i := by omega
  simp [scanDown, this]
  rfl

theorem scanDown_spec (cond : Int → Int → Bool) (nums : List Int) (pivot a : Int)
    (hp : 0 ≤ pivot) (hp2 : pivot < nums.length) (ha : 0 ≤ a) :
    ∀ (fuel : Nat) (i : Int), a ≤ i → i ≤ nums.length → i - a < fuel →
      ∃ i', scanDown cond nums pivot a fuel i = .ok i' ∧ a ≤ i' ∧ i' ≤ i ∧
        (∀ k, i' ≤ k → k < i → cond (val nums k) (val nums pivot) = true) ∧
        (a < i' → cond (val nums (i' - 1)) (val nums pivot) = false) := by
  intro fuel
  induction fuel with
  | zero => intro i _ _ h; omega
  | succ fuel ih =>
    intro i hai hil hf
    by_cases hlt : a < i
    · by_cases hcond : cond (val nums (i - 1)) (val nums pivot) = true
      · obtain ⟨i', e, h1, h2, h3, h4⟩ := ih (i - 1) (by omega) (by omega) (by omega)
        refine ⟨i', ?_, h1, by omega, ?_, h4⟩
        · simp only [scanDown, hlt, if_true, idx_eq nums (i - 1) (by omega) (by omega),
            idx_eq nums pivot hp hp2]
          simpa [bind, Except.bind, hcond] using e
        · intro k hk1 hk2
          by_cases hki : k = i - 1
          · rw [hki]; exact hcond
          · exact h3 k hk1 (by omega)
      · refine ⟨i, ?_, hai, le_rfl, fun k hk1 hk2 => by omega, fun _ => by simpa using hcond⟩
        simp only [scanDown, hlt, if_true, idx_eq nums (i - 1) (by omega) (by omega),
            idx_eq nums pivot hp hp2]
        simp [bind, Except.bind, hcond]
        rfl
    · exact ⟨i, scanDown_done cond nums pivot a fuel i (by omega), hai, le_rfl,
        fun k hk1 hk2 => by omega, fun h => by omega⟩

theorem partitionLoop_spec (pivot : Int) (hp : 0 ≤ pivot) :
    ∀ (fuel : Nat) (nums : List Int) (b c : Int), pivot < b → b ≤ c → c ≤ nums.length →
      c - b < fuel →
      ∃ r e, partitionLoop pivot fuel nums b c = .ok (r, e, e) ∧ b ≤ e ∧ e ≤ c ∧
        RangePerm nums r b c ∧
        (∀ k, b ≤ k → k < e → val r k < val nums pivot) ∧
        (∀ k, e ≤ k → k < c → val nums pivot ≤ val r k) := by
  intro fuel
  induction fuel with
  | zero => intro nums b c _ _ _ h; omega
  | succ fuel ih =>
    intro nums b c hpb hbc hc hf
    obtain ⟨b1, e1, hb1, hb2, hb3, hb4⟩ :=
      scanUp_spec (fun x p => !(decide (p ≤ x))) nums pivot c hp (by omega) hc (fuel + 1) b
        (by omega) hbc (by push_cast; omega)
    obtain ⟨c1, e2, hc1, hc2, hc3, hc4⟩ :=
      scanDown_spec (fun x p => decide (p ≤ x)) nums pivot b1 hp (by omega) (by omega)
        (fuel + 1) c hb2 hc (by push_cast; omega)
    simp only [Bool.not_eq_true', decide_eq_false_iff_not, not_le, Bool.not_eq_false',
      decide_eq_true_eq] at hb3 hb4 hc3 hc4
    by_cases hge : b1 ≥ c1
    · have hcb : c1 = b1 := by omega
      subst hcb
      refine ⟨nums, c1, ?_, hb1, hb2, RangePerm.same _ _ _, hb3, hc3⟩
      simp [partitionLoop, bind, Except.bind, pure, Except.pure, e1, e2]
    · have h1 := hb4 (by omega)
      have h2 := hc4 (by omega)
      have hne : b1 ≠ c1 - 1 := by
        intro h
        rw [← h] at h2
        omega
      have hsw := swap_eq nums b1 (c1 - 1) (by omega) (by omega) (by omega) (by omega)
      have hlen := length_swapped nums b1 (c1 - 1)
      obtain ⟨r, e, e3, he1, he2, hrp, hz1, hz2⟩ :=
        ih (swapped nums b1 (c1 - 1)) (b1 + 1) (c1 - 1) (by omega) (by omega)
          (by rw [hlen]; omega) (by omega)
      have hsp := swapped_rangePerm nums b c b1 (c1 - 1) (by omega) hc hb1 (by omega)
        (by omega) (by omega)
      have hrp2 : RangePerm (swapped nums b1 (c1 - 1)) r b c :=
        hrp.widen (by omega) (by omega) (by omega) (by omega)
      have hpv : val (swapped nums b1 (c1 - 1)) pivot = val nums pivot :=
        hsp.2.1 pivot hp (Or.inl hpb)
      rw [hpv] at hz1 hz2
      have hv : ∀ k, 0 ≤ k → val (swapped nums b1 (c1 - 1)) k =
          if k = c1 - 1 then val nums b1 else if k = b1 then val nums (c1 - 1)
          else val nums k :=
        fun k hk => val_swapped nums b1 (c1 - 1) k (by omega) (by omega) (by omega)
          (by omega) hk
      refine ⟨r, e, ?_, by omega, by omega, hsp.chain hrp2, ?_, ?_⟩
      · simp [partitionLoop, bind, Except.bind, pure, Except.pure, e1, e2, hge, hsw, e3]
      · intro k hk1 hk2
        by_cases hk3 : k < b1 + 1
        · rw [hrp.2.1 k (by omega) (Or.inl hk3), hv k (by omega)]
          by_cases hk4 : k = b1
          · simp [hk4, hne, h2]
          · have : k ≠ c1 - 1 := by omega
            simp [hk4, this]
            exact hb3 k hk1 (by omega)
        · exact hz1 k (by omega) hk2
      · intro k hk1 hk2
        by_cases hk3 : c1 - 1 ≤ k
        · rw [hrp.2.1 k (by omega) (Or.inr hk3), hv k (by omega)]
          by_cases hk4 : k = c1 - 1
          · simp [hk4, h1]
          · have : k ≠ b1 := by omega
            simp [hk4, this]
            exact hc3 k (by omega) hk2
        · exact hz2 k hk1 (by omega)

theorem zones_dupLast {nums : List Int} {lo hi a e : Int} (hz : Zones nums lo hi a e e)
    (hlo : 0 ≤ lo) (hhi : hi ≤ nums.length) (he : e + 1 < hi)
    (heq : val nums lo = val nums (hi - 1)) :
    Zones (swapped nums e (hi - 1)) lo hi a e (e + 1) := by
  obtain ⟨h0, h1, _, _, h4, h5, _, h7⟩ := hz
  have hv : ∀ k, 0 ≤ k → val (swapped nums e (hi - 1)) k =
      if k = hi - 1 then val nums e else if k = e then val nums (hi - 1) else val nums k :=
    fun k hk => val_swapped nums e (hi - 1) k (by omega) (by omega) (by omega) (by omega) hk
  have hlo2 : val (swapped nums e (hi - 1)) lo = val nums lo := by
    rw [hv lo hlo, if_neg (by omega), if_neg (by omega)]
  refine ⟨h0, h1, by omega, by omega, ?_, ?_, ?_, ?_⟩
  · intro k hk1 hk2
    rw [hlo2, hv k (by omega), if_neg (by omega), if_neg (by omega)]
    exact h4 k hk1 hk2
  · intro k hk1 hk2
    rw [hlo2, hv k (by omega), if_neg (by omega), if_neg (by omega)]
    exact h5 k hk1 hk2
  · intro k hk1 hk2
    have : k = e := by omega
    rw [hlo2, hv k (by omega), if_neg (by omega), if_pos this]
    exact heq.symm
  · intro k hk1 hk2
    rw [hlo2, hv k (by omega)]
    by_cases hk3 : k = hi - 1
    · rw [if_pos hk3]; exact h7 e le_rfl (by omega)
    · rw [if_neg hk3, if_neg (by omega)]; exact h7 k (by omega) hk2

theorem zones_dupLeft {nums : List Int} {lo hi a b c : Int} (hz : Zones nums lo hi a b c)
    (hb : lo < b - 1) (heq : val nums (b - 1) = val nums lo) :
    Zones nums lo hi a (b - 1) c := by
  obtain ⟨h0, _, h2, h3, h4, h5, h6, h7⟩ := hz
  refine ⟨h0, hb, by omega, h3, fun k hk1 hk2 => h4 k hk1 (by omega),
    fun k hk1 hk2 => h5 k hk1 (by omega), ?_, h7⟩
  intro k hk1 hk2
  by_cases hk3 : k = b - 1
  · rw [hk3]; exact heq
  · exact h6 k (by omega) hk2

theorem zones_dupMid {nums : List Int} {lo hi a b c m : Int} (hz : Zones nums lo hi a b c)
    (hlo : 0 ≤ lo) (hhi : hi ≤ nums.length) (hm : lo < m) (hmb : m ≤ b - 1)
    (heq : val nums m = val nums lo) :
    Zones (swapped nums m (b - 1)) lo hi a (b - 1) c := by
  obtain ⟨h0, _, h2, h3, h4, h5, h6, h7⟩ := hz
  have hv : ∀ k, 0 ≤ k → val (swapped nums m (b - 1)) k =
      if k = b - 1 then val nums m else if k = m then val nums (b - 1) else val nums k :=
    fun k hk => val_swapped nums m (b - 1) k (by omega) (by omega) (by omega) (by omega) hk
  have hlo2 : val (swapped nums m (b - 1)) lo = val nums lo := by
    rw [hv lo hlo, if_neg (by omega), if_neg (by omega)]
  refine ⟨h0, by omega, by omega, h3, ?_, ?_, ?_, ?_⟩
  · intro k hk1 hk2
    rw [hlo2, hv k (by omega), if_neg (by omega)]
    by_cases hk3 : k = m
    · rw [if_pos hk3]; exact h4 (b - 1) (by omega) (by omega)
    · rw [if_neg hk3]; exact h4 k hk1 (by omega)
  · intro k hk1 hk2
    rw [hlo2, hv k (by omega), if_neg (by omega)]
    by_cases hk3 : k = m
    · rw [if_pos hk3]; exact h5 (b - 1) (by omega) (by omega)
    · rw [if_neg hk3]; exact h5 k hk1 (by omega)
  · intro k hk1 hk2
    rw [hlo2, hv k (by omega)]
    by_cases hk3 : k = b - 1
    · rw [if_pos hk3]; exact heq
    · rw [if_neg hk3, if_neg (by omega)]; exact h6 k (by omega) hk2
  · intro k hk1 hk2
    rw [hlo2, hv k (by omega), if_neg (by omega), if_neg (by omega)]
    exact h7 k hk1 hk2

theorem dupLast_spec {nums : List Int} {lo hi a e : Int} (dups : Int)
    (hz : Zones nums lo hi a e e) (hlo : 0 ≤ lo) (hhi : hi ≤ nums.length) (he : e + 1 < hi) :
    ∃ r c d, dupLast nums lo hi e dups = .ok (r, c, d) ∧ Zones r lo hi a e c ∧
      RangePerm nums r (lo + 1) hi ∧ c < hi := by
  have hb := hz.2.1
  simp only [dupLast, idx_eq nums lo hlo (by omega), idx_eq nums (hi - 1) (by omega) (by omega)]
  by_cases heq : val nums lo = val nums (hi - 1)
  · refine ⟨swapped nums e (hi - 1), e + 1, dups + 1, ?_, zones_dupLast hz hlo hhi he heq,
      swapped_rangePerm nums (lo + 1) hi e (hi - 1) (by omega) hhi (by omega) (by omega)
        (by omega) (by omega), he⟩
    simp [bind, Except.bind, pure, Except.pure, heq,
      swap_eq nums e (hi - 1) (by omega) (by omega) (by omega) (by omega)]
  · refine ⟨nums, e, dups, ?_, hz, RangePerm.same _ _ _, by omega⟩
    simp [bind, Except.bind, pure, Except.pure, heq]

theorem dupLeft_spec {nums : List Int} {lo hi a b c : Int} (dups : Int)
    (hz : Zones nums lo hi a b c) (hlo : 0 ≤ lo) (hhi : hi ≤ nums.length) (hb : lo < b - 1) :
    ∃ b' d, dupLeft nums lo b dups = .ok (b', d) ∧ Zones nums lo hi a b' c ∧
      b - 1 ≤ b' ∧ b' ≤ b := by
  have hbc := hz.2.2.1
  have hc := hz.2.2.2.1
  simp only [dupLeft, idx_eq nums lo hlo (by omega), idx_eq nums (b - 1) (by omega) (by omega)]
  by_cases heq : val nums (b - 1) = val nums lo
  · exact ⟨b - 1, dups + 1, by simp [bind, Except.bind, pure, Except.pure, heq],
      zones_dupLeft hz hb heq, le_rfl, by omega⟩
  · exact ⟨b, dups, by simp [bind, Except.bind, pure, Except.pure, heq], hz, by omega, le_rfl⟩

theorem dupMid_spec {nums : List Int} {lo hi a b c m : Int} (dups : Int)
    (hz : Zones nums lo hi a b c) (hlo : 0 ≤ lo) (hhi : hi ≤ nums.length) (hm : lo < m)
    (hmb : m ≤ b - 1) :
    ∃ r b' d, dupMid nums lo m b dups = .ok (r, b', d) ∧ Zones r lo hi a b' c ∧
      RangePerm nums r (lo + 1) hi := by
  have hbc := hz.2.2.1
  have hc := hz.2.2.2.1
  simp only [dupMid, idx_eq nums lo hlo (by omega), idx_eq nums m (by omega) (by omega)]
  by_cases heq : val nums m = val nums lo
  · refine ⟨swapped nums m (b - 1), b - 1, dups + 1, ?_, zones_dupMid hz hlo hhi hm hmb heq,
      swapped_rangePerm nums (lo + 1) hi m (b - 1) (by omega) hhi (by omega) (by omega)
        (by omega) (by omega)⟩
    simp [bind, Except.bind, pure, Except.pure, heq,
      swap_eq nums m (b - 1) (by omega) (by omega) (by omega) (by omega)]
  · exact ⟨nums, b, dups, by simp [bind, Except.bind, pure, Except.pure, heq], hz,
      RangePerm.same _ _ _⟩

theorem dupCheck_spec {nums : List Int} {lo hi a e : Int} (m : Int)
    (hz : Zones nums lo hi a e e) (hlo : 0 ≤ lo) (hhi : hi ≤ nums.length) (hn : hi - lo > 12)
    (hm : m = (lo + hi) / 2) (he : e < hi) :
    ∃ r b c protect, dupCheck nums lo hi m e e = .ok (r, b, c, protect) ∧
      Zones r lo hi a b c ∧ RangePerm nums r (lo + 1) hi ∧ c < hi := by
  by_cases hbr : 5 ≤ hi - e ∧ hi - e < (hi - lo) / 4
  · obtain ⟨r1, c1, d1, e1, hz1, hp1, hc1⟩ := dupLast_spec 0 hz hlo hhi (by omega)
    obtain ⟨b2, d2, e2, hz2, hb2, hb2'⟩ :=
      dupLeft_spec d1 hz1 hlo (by rw [hp1.1]; exact hhi) (by omega)
    obtain ⟨r3, b3, d3, e3, hz3, hp3⟩ :=
      dupMid_spec (m := m) d2 hz2 hlo (by rw [hp1.1]; exact hhi) (by omega) (by omega)
    refine ⟨r3, b3, c1, decide (d3 > 1), ?_, hz3, hp1.chain hp3, hc1⟩
    have h1 : ¬ hi - e < 5 := by omega
    simp [dupCheck, bind, Except.bind, pure, Except.pure, h1, hbr.2, e1, e2, e3]
  · refine ⟨nums, e, e, decide (hi - e < 5), ?_, hz, RangePerm.same _ _ _, he⟩
    have : ¬ (¬ hi - e < 5 ∧ hi - e < (hi - lo) / 4) := by omega
    simp only [dupCheck, Bool.and_eq_true, Bool.not_eq_true', decide_eq_false_iff_not,
      decide_eq_true_eq, this, if_false]
    rfl

theorem protectLoop_noop (pivot : Int) (nums : List Int) (a b : Int) (fuel : Nat)
    (hp : 0 ≤ pivot) (hp2 : pivot < nums.length) (ha : 0 ≤ a) (hb : b ≤ nums.length)
    (hf : b - a < fuel) (hf2 : 0 < fuel)
    (hs : ∀ k, a ≤ k → k < b → val nums k < val nums pivot) :
    ∃ a', protectLoop pivot fuel nums a b = .ok (nums, a', b) := by
  obtain ⟨f, rfl⟩ : ∃ f, fuel = f + 1 := ⟨fuel - 1, by omega⟩
  by_cases hab : b ≤ a
  · refine ⟨a, ?_⟩
    have e1 := scanDown_done (fun x p => decide (x = p)) nums pivot a f b hab
    have e2 := scanUp_done (fun x p => decide (x < p)) nums pivot b f a hab
    simp [protectLoop, bind, Except.bind, pure, Except.pure, e1, e2, hab]
  · obtain ⟨b', e1, h1, h2, h3, _⟩ :=
      scanDown_spec (fun x p => decide (x = p)) nums pivot a hp hp2 ha (f + 1) b (by omega)
        hb hf
    have hb' : b' = b := by
      by_contra hne
      have := h3 b' le_rfl (by omega)
      have := hs b' h1 (by omega)
      simp only [decide_eq_true_eq] at *
      omega
    subst hb'
    obtain ⟨a', e2, h4, h5, _, h7⟩ :=
      scanUp_spec (fun x p => decide (x < p)) nums pivot b' hp hp2 hb (f + 1) a ha (by omega)
        hf
    have ha' : a' = b' := by
      by_contra hne
      have := h7 (by omega)
      have := hs a' h4 (by omega)
      simp only [decide_eq_false_iff_not] at *
      omega
    subst ha'
    exact ⟨a', by simp [protectLoop, bind, Except.bind, pure, Except.pure, e1, e2]⟩

theorem median_rangePerm {f : List Int → Int → Int → Int → Except Err (List Int)}
    (hf : MedianContract f) (nums : List Int) (lo hi m1 m0 m2 : Int) (hlo : 0 ≤ lo)
    (hhi : hi ≤ nums.length) (h1 : lo ≤ m1) (h1' : m1 < hi) (h0 : lo ≤ m0) (h0' : m0 < hi)
    (h2 : lo ≤ m2) (h2' : m2 < hi) (d1 : m1 ≠ m0) (d2 : m0 ≠ m2) (d3 : m1 ≠ m2) :
    ∃ r, f nums m1 m0 m2 = .ok r ∧ RangePerm nums r lo hi ∧
      (m1 < m0 → m0 < m2 → val r m1 ≤ val r m2) := by
  obtain ⟨r, e, hp, hfr, hle⟩ := hf nums m1 m0 m2 (by omega) (by omega) (by omega) (by omega)
    (by omega) (by omega) d1 d2 d3
  exact ⟨r, e, RangePerm.ofPerm hp
    (fun k hk hk2 => hfr k hk (by omega) (by omega) (by omega)) hlo (by omega) hhi, hle⟩

theorem choosePivot_spec {L : Leaves} (hM : MedianContract L.medianOfThree) (nums : List Int) (lo hi m : Int)
    (hlo : 0 ≤ lo) (hhi : hi ≤ nums.length) (hn : hi - lo > 12) (hm : m = (lo + hi) / 2) :
    ∃ r, choosePivot L nums lo hi m = .ok r ∧ RangePerm nums r lo hi ∧
      val r lo ≤ val r (hi - 1) := by
  have fin : ∀ n1 : List Int, RangePerm nums n1 lo hi →
      ∃ r, L.medianOfThree n1 lo m (hi - 1) = .ok r ∧ RangePerm nums r lo hi ∧
        val r lo ≤ val r (hi - 1) := by
    intro n1 h1
    obtain ⟨r, e, hr, hle⟩ := median_rangePerm hM n1 lo hi lo m (hi - 1) hlo
      (by rw [h1.1]; exact hhi) (by omega) (by omega) (by omega) (by omega) (by omega)
      (by omega) (by omega) (by omega) (by omega)
    exact ⟨r, e, h1.chain hr, hle (by omega) (by omega)⟩
  by_cases hbig : hi - lo > 40
  · obtain ⟨r1, e1, hr1, _⟩ := median_rangePerm hM nums lo hi lo
      (lo + (hi - lo) / 8) (lo + 2 * ((hi - lo) / 8)) hlo hhi (by omega) (by omega) (by omega)
      (by omega) (by omega) (by omega) (by omega) (by omega) (by omega)
    obtain ⟨r2, e2, hr2, _⟩ := median_rangePerm hM r1 lo hi m
      (m - (hi - lo) / 8) (m + (hi - lo) / 8) hlo (by rw [hr1.1]; exact hhi) (by omega)
      (by omega) (by omega) (by omega) (by omega) (by omega) (by omega) (by omega) (by omega)
    obtain ⟨r3, e3, hr3, _⟩ := median_rangePerm hM r2 lo hi (hi - 1)
      (hi - 1 - (hi - lo) / 8) (hi - 1 - 2 * ((hi - lo) / 8)) hlo
      (by rw [hr2.1, hr1.1]; exact hhi) (by omega)
      (by omega) (by omega) (by omega) (by omega) (by omega) (by omega) (by omega) (by omega)
    obtain ⟨r, e, hr, hle⟩ := fin r3 ((hr1.chain hr2).chain hr3)
    exact ⟨r, by simp [choosePivot, bind, Except.bind, hbig, e1, e2, e3, e], hr, hle⟩
  · obtain ⟨r, e, hr, hle⟩ := fin nums (RangePerm.same _ _ _)
    exact ⟨r, by simp [choosePivot, bind, Except.bind, pure, Except.pure, hbig, e], hr, hle⟩

theorem zones_of_scan {n1 r2 : List Int} {lo hi a e : Int} (hlo : 0 ≤ lo)
    (hla : lo + 1 ≤ a) (hae : a ≤ e) (heh : e ≤ hi - 1)
    (hle : val n1 lo ≤ val n1 (hi - 1))
    (h3 : ∀ k, lo + 1 ≤ k → k < a → val n1 k ≤ val n1 lo)
    (hrp : RangePerm n1 r2 a (hi - 1))
    (hz1 : ∀ k, a ≤ k → k < e → val r2 k < val n1 lo)
    (hz2 : ∀ k, e ≤ k → k < hi - 1 → val n1 lo ≤ val r2 k) :
    Zones r2 lo hi a e e := by
  have hpv : val r2 lo = val n1 lo := hrp.2.1 lo hlo (Or.inl (by omega))
  refine ⟨by omega, by omega, le_rfl, by omega, ?_, ?_, fun k hk1 hk2 => by omega, ?_⟩
  · intro k hk1 hk2
    rw [hpv]
    by_cases hka : k < a
    · rw [hrp.2.1 k (by omega) (Or.inl hka)]
      exact h3 k (by omega) hka
    · exact le_of_lt (hz1 k (by omega) hk2)
  · intro k hk1 hk2
    rw [hpv]
    exact hz1 k hk1 hk2
  · intro k hk1 hk2
    rw [hpv]
    by_cases hkh : k < hi - 1
    · exact hz2 k hk1 hkh
    · have : k = hi - 1 := by omega
      rw [this, hrp.2.1 (hi - 1) (by omega) (Or.inr le_rfl)]
      exact hle

theorem zones_final {nums r : List Int} {lo hi a b c : Int} (hz : Zones r lo hi a b c)
    (hrp : RangePerm nums r lo hi) (hlo : 0 ≤ lo) (hhi : hi ≤ nums.length) (hc : c < hi) :
    Partitioned nums (swapped r lo (b - 1)) lo hi (b - 1) c := by
  obtain ⟨_, h1, h2, h3, h4, _, h6, h7⟩ := hz
  have hlen := hrp.1
  have hv : ∀ k, 0 ≤ k → val (swapped r lo (b - 1)) k =
      if k = b - 1 then val r lo else if k = lo then val r (b - 1) else val r k :=
    fun k hk => val_swapped r lo (b - 1) k (by omega) (by omega) (by omega) (by omega) hk
  have hm : val (swapped r lo (b - 1)) (b - 1) = val r lo := by
    rw [hv (b - 1) (by omega), if_pos rfl]
  refine ⟨by omega, by omega, hc, hrp.chain (swapped_rangePerm r lo hi lo (b - 1) hlo
    (by omega) le_rfl (by omega) (by omega) (by omega)), ?_, ?_, ?_⟩
  · intro k hk1 hk2
    rw [hm, hv k (by omega), if_neg (by omega)]
    by_cases hk3 : k = lo
    · rw [if_pos hk3]; exact h4 (b - 1) (by omega) (by omega)
    · rw [if_neg hk3]; exact h4 k (by omega) (by omega)
  · intro k hk1 hk2
    rw [hm, hv k (by omega)]
    by_cases hk3 : k = b - 1
    · rw [if_pos hk3]
    · rw [if_neg hk3, if_neg (by omega)]; exact h6 k (by omega) hk2
  · intro k hk1 hk2
    rw [hm, hv k (by omega), if_neg (by omega), if_neg (by omega)]
    exact h7 k hk1 hk2

theorem doPdqPivot_spec {L : Leaves} (hM : MedianContract L.medianOfThree) (nums : List Int) (lo hi : Int)
    (hlo : 0 ≤ lo) (hhi : hi ≤ nums.length) (hn : hi - lo > 12)
    (hlen : (nums.length : Int) < 2 ^ 63) :
    ∃ r mlo mhi, doPdqPivot L nums lo hi = .ok (r, mlo, mhi) ∧
      Partitioned nums r lo hi mlo mhi := by
  have hm0 : (lo + hi) % 2 ^ 64 / 2 = (lo + hi) / 2 := by omega
  simp only [doPdqPivot]
  generalize (lo + hi) % 2 ^ 64 / 2 = m at hm0
  obtain ⟨n1, e1, hr1, hle⟩ := choosePivot_spec hM nums lo hi m hlo hhi hn hm0
  have hl1 : (n1.length : Int) = nums.length := by rw [hr1.1]
  obtain ⟨a, e2, ha1, ha2, ha3, _⟩ :=
    scanUp_spec (fun x p => decide (x ≤ p)) n1 lo (hi - 1) hlo (by omega) (by omega)
      ((hi - lo).toNat + 1) (lo + 1) (by omega) (by omega) (by omega)
  simp only [decide_eq_true_eq] at ha3
  obtain ⟨r2, e, e3, he1, he2, hr2, hz1, hz2⟩ :=
    partitionLoop_spec lo hlo ((hi - lo).toNat + 1) n1 a (hi - 1) (by omega) ha2 (by omega)
      (by omega)
  have hz := zones_of_scan hlo ha1 he1 he2 hle ha3 hr2 hz1 hz2
  have hl2 : (r2.length : Int) = nums.length := by rw [hr2.1, hl1]
  obtain ⟨r3, b, c, protect, e4, hz3, hr3, hc⟩ :=
    dupCheck_spec m hz hlo (by omega) hn hm0 (by omega)
  have hl3 : (r3.length : Int) = nums.length := by rw [hr3.1, hl2]
  have hrp : RangePerm nums r3 lo hi :=
    (hr1.chain (hr2.widen hlo (by omega) (by omega) (by omega))).chain
      (hr3.widen hlo (by omega) (by omega) le_rfl)
  have hfin := zones_final hz3 hrp hlo hhi hc
  have hsw := swap_eq r3 lo (b - 1) hlo (by have := hz3.2.1; have := hz3.2.2.1; omega)
    (by have := hz3.2.1; omega) (by have := hz3.2.2.1; have := hz3.2.2.2.1; omega)
  refine ⟨swapped r3 lo (b - 1), b - 1, c, ?_, hfin⟩
  cases protect with
  | false =>
    simp [bind, Except.bind, pure, Except.pure, e1, e2, e3, e4, hsw]
  | true =>
    obtain ⟨a', e5⟩ := protectLoop_noop lo r3 a b ((hi - lo).toNat + 1) hlo (by omega) (by omega)
      (by have := hz3.2.2.1; have := hz3.2.2.2.1; omega)
      (by have := hz3.2.1; have := hz3.2.2.1; have := hz3.2.2.2.1; omega) (by omega)
      hz3.2.2.2.2.2.1
    simp [bind, Except.bind, pure, Except.pure, e1, e2, e3, e4, e5, hsw]

theorem Partitioned.zones {nums r : List Int} {lo hi mlo mhi : Int}
    (h : Partitioned nums r lo hi mlo mhi) (hlo : 0 ≤ lo) :
    ThreeZones r lo hi mlo mhi (val r mlo) := by
  obtain ⟨h1, h2, h3, _, h5, h6, h7⟩ := h
  refine ⟨?_, ?_, ?_⟩
  · intro x hx
    obtain ⟨k, hk1, hk2, _, rfl⟩ := (mem_slice_iff r lo mlo hlo x).mp hx
    exact h5 k hk1 hk2
  · intro x hx
    obtain ⟨k, hk1, hk2, _, rfl⟩ := (mem_slice_iff r mlo mhi (by omega) x).mp hx
    exact h6 k hk1 hk2
  · intro x hx
    obtain ⟨k, hk1, hk2, _, rfl⟩ := (mem_slice_iff r mhi hi (by omega) x).mp hx
    exact h7 k hk1 hk2

theorem ThreeZones.permLeft {r s : List Int} {a b mlo mhi p : Int} (h : ThreeZones r a b mlo mhi p)
    (hs : RangePerm r s a mlo) (ha : 0 ≤ a) (h1 : a ≤ mlo) (h2 : mlo ≤ mhi) :
    ThreeZones s a b mlo mhi p := by
  refine ⟨hs.forallMem _ h.1, ?_, ?_⟩
  · rw [hs.sliceEq mlo mhi (by omega) (Or.inr le_rfl)]; exact h.2.1
  · rw [hs.sliceEq mhi b (by omega) (Or.inr h2)]; exact h.2.2

theorem ThreeZones.permRight {r s : List Int} {a b mlo mhi p : Int}
    (h : ThreeZones r a b mlo mhi p) (hs : RangePerm r s mhi b) (ha : 0 ≤ a) (h1 : a ≤ mlo)
    (h2 : mlo ≤ mhi) : ThreeZones s a b mlo mhi p := by
  refine ⟨?_, ?_, hs.forallMem _ h.2.2⟩
  · rw [hs.sliceEq a mlo ha (Or.inl h2)]; exact h.1
  · rw [hs.sliceEq mlo mhi (by omega) (Or.inl le_rfl)]; exact h.2.1

theorem ThreeZones.glue {r : List Int} {a b mlo mhi p : Int} (h : ThreeZones r a b mlo mhi p)
    (ha : 0 ≤ a) (h1 : a ≤ mlo) (h2 : mlo ≤ mhi) (h3 : mhi ≤ b)
    (hl : (slice r a mlo).Sorted (· ≤ ·)) (hr : (slice r mhi b).Sorted (· ≤ ·)) :
    (slice r a b).Sorted (· ≤ ·) := by
  rw [slice_split r a mlo b ha h1 (by omega), slice_split r mlo mhi b (by omega) h2 h3]
  have hmid : (slice r mlo mhi).Sorted (· ≤ ·) := by
    apply List.pairwise_iff_forall_sublist.mpr
    intro x y hxy
    have hx := h.2.1 x (hxy.subset (List.mem_cons_self _ _))
    have hy := h.2.1 y (hxy.subset (List.mem_cons_of_mem _ (List.mem_singleton_self _)))
    omega
  refine List.pairwise_append.mpr ⟨hl, List.pairwise_append.mpr ⟨hmid, hr, ?_⟩, ?_⟩
  · intro x hx y hy
    have := h.2.1 x hx
    have := h.2.2 y hy
    omega
  · intro x hx y hy
    have := h.1 x hx
    rcases List.mem_append.mp hy with hy | hy
    · have := h.2.1 y hy
      omega
    · have := h.2.2 y hy
      omega

theorem sorted_slice_short (r : List Int) (a b : Int) (h : b - a ≤ 1) :
    (slice r a b).Sorted (· ≤ ·) := by
  have hl : (slice r a b).length ≤ 1 := by
    simp only [slice, List.length_take]
    omega
  match hs : slice r a b, hl with
  | [], _ => exact List.sorted_nil
  | [x], _ => exact List.sorted_singleton x
  | _ :: _ :: _, h => simp at h

theorem breakPatterns_small (nums : List Int) (h : (nums.length : Int) < 4) :
    breakPatterns nums = .ok nums := by
  have : ¬ (nums.length : Int) ≥ 4 := by omega
  simp only [breakPatterns, this, if_false]
  rfl

theorem breakPatterns_mid (nums : List Int) (h4 : 4 ≤ (nums.length : Int))
    (h8 : (nums.length : Int) < 8) :
    breakPatterns nums = .ok (swapped (swapped nums 0 ((nums.length : Int) / 2))
      ((nums.length : Int) - 1) ((nums.length : Int) - (nums.length : Int) / 2)) := by
  have h8' : ¬ (nums.length : Int) ≥ 8 := by omega
  have e1 := swap_eq nums 0 ((nums.length : Int) / 2) le_rfl (by omega) (by omega) (by omega)
  have e2 := swap_eq (swapped nums 0 ((nums.length : Int) / 2)) ((nums.length : Int) - 1)
    ((nums.length : Int) - (nums.length : Int) / 2) (by omega)
    (by rw [length_swapped]; omega) (by omega) (by rw [length_swapped]; omega)
  simp [breakPatterns, bind, Except.bind, pure, Except.pure, h4, h8', e1, e2]

theorem breakPatterns_large (nums : List Int) (h8 : 8 ≤ (nums.length : Int)) :
    breakPatterns nums = .ok (swapped (swapped (swapped (swapped (swapped (swapped nums
      0 ((nums.length : Int) / 2))
      ((nums.length : Int) - 1) ((nums.length : Int) - (nums.length : Int) / 2))
      1 ((nums.length : Int) / 2 + 1))
      2 ((nums.length : Int) / 2 + 2))
      ((nums.length : Int) - 2) ((nums.length : Int) - (nums.length : Int) / 2 - 1))
      ((nums.length : Int) - 3) ((nums.length : Int) - (nums.length : Int) / 2 - 2)) := by
  have h4 : (nums.length : Int) ≥ 4 := by omega
  have e1 := swap_eq nums 0 ((nums.length : Int) / 2) le_rfl (by omega) (by omega) (by omega)
  have e2 := swap_eq (swapped nums 0 ((nums.length : Int) / 2)) ((nums.length : Int) - 1)
    ((nums.length : Int) - (nums.length : Int) / 2) (by omega)
    (by rw [length_swapped]; omega) (by omega) (by rw [length_swapped]; omega)
  have e3 := swap_eq (swapped (swapped nums 0 ((nums.length : Int) / 2))
    ((nums.length : Int) - 1) ((nums.length : Int) - (nums.length : Int) / 2))
    1 ((nums.length : Int) / 2 + 1) (by omega)
    (by simp only [length_swapped]; omega) (by omega) (by simp only [length_swapped]; omega)
  have e4 := swap_eq (swapped (swapped (swapped nums 0 ((nums.length : Int) / 2))
    ((nums.length : Int) - 1) ((nums.length : Int) - (nums.length : Int) / 2))
    1 ((nums.length : Int) / 2 + 1)) 2 ((nums.length : Int) / 2 + 2) (by omega)
    (by simp only [length_swapped]; omega) (by omega) (by simp only [length_swapped]; omega)
  have e5 := swap_eq (swapped (swapped (swapped (swapped nums 0 ((nums.length : Int) / 2))
    ((nums.length : Int) - 1) ((nums.length : Int) - (nums.length : Int) / 2))
    1 ((nums.length : Int) / 2 + 1)) 2 ((nums.length : Int) / 2 + 2))
    ((nums.length : Int) - 2) ((nums.length : Int) - (nums.length : Int) / 2 - 1) (by omega)
    (by simp only [length_swapped]; omega) (by omega) (by simp only [length_swapped]; omega)
  have e6 := swap_eq (swapped (swapped (swapped (swapped (swapped nums
    0 ((nums.length : Int) / 2))
    ((nums.length : Int) - 1) ((nums.length : Int) - (nums.length : Int) / 2))
    1 ((nums.length : Int) / 2 + 1)) 2 ((nums.length : Int) / 2 + 2))
    ((nums.length : Int) - 2) ((nums.length : Int) - (nums.length : Int) / 2 - 1))
    ((nums.length : Int) - 3) ((nums.length : Int) - (nums.length : Int) / 2 - 2) (by omega)
    (by simp only [length_swapped]; omega) (by omega) (by simp only [length_swapped]; omega)
  simp [breakPatterns, bind, Except.bind, pure, Except.pure, h4, h8, e1, e2, e3, e4, e5, e6]

theorem breakPatterns_perm (nums : List Int) :
    ∃ r, breakPatterns nums = .ok r ∧ r.Perm nums := by
  by_cases h4 : (nums.length : Int) < 4
  · exact ⟨nums, breakPatterns_small nums h4, List.Perm.refl _⟩
  · by_cases h8 : (nums.length : Int) < 8
    · refine ⟨_, breakPatterns_mid nums (by omega) h8, ?_⟩
      exact (swapped_perm _ _ _ (by omega) (by simp only [length_swapped]; omega) (by omega)
        (by simp only [length_swapped]; omega)).trans
        (swapped_perm _ _ _ (by omega) (by omega) (by omega) (by omega))
    · refine ⟨_, breakPatterns_large nums (by omega), ?_⟩
      refine (swapped_perm _ _ _ (by omega) (by simp only [length_swapped]; omega) (by omega)
        (by simp only [length_swapped]; omega)).trans ?_
      refine (swapped_perm _ _ _ (by omega) (by simp only [length_swapped]; omega) (by omega)
        (by simp only [length_swapped]; omega)).trans ?_
      refine (swapped_perm _ _ _ (by omega) (by simp only [length_swapped]; omega) (by omega)
        (by simp only [length_swapped]; omega)).trans ?_
      refine (swapped_perm _ _ _ (by omega) (by simp only [length_swapped]; omega) (by omega)
        (by simp only [length_swapped]; omega)).trans ?_
      exact (swapped_perm _ _ _ (by omega) (by simp only [length_swapped]; omega) (by omega)
        (by simp only [length_swapped]; omega)).trans
        (swapped_perm _ _ _ (by omega) (by omega) (by omega) (by omega))

theorem onSlice_spec (f : List Int → Except Err (List Int))
    (hf : ∀ s, ∃ r, f s = .ok r ∧ r.Perm s) (nums : List Int) (a b : Int) (ha : 0 ≤ a)
    (hab : a ≤ b) (hb : b ≤ nums.length) :
    ∃ r, onSlice f nums a b = .ok r ∧ RangePerm nums r a b := by
  obtain ⟨s, e, hp⟩ := hf (slice nums a b)
  have hsl : (s.length : Int) = b - a := by
    rw [hp.length_eq]; exact length_slice nums a b ha hab hb
  refine ⟨nums.take a.toNat ++ s ++ nums.drop b.toNat, ?_, ?_⟩
  · have : 0 ≤ a ∧ a ≤ b ∧ b ≤ nums.length := ⟨ha, hab, hb⟩
    simp [onSlice, this, e, bind, Except.bind, pure, Except.pure]
  · have hta : (nums.take a.toNat).length = a.toNat := by
      rw [List.length_take]; omega
    apply RangePerm.ofPerm _ _ ha hab hb
    · have h3 := split3 nums a b ha hab hb
      rw [← take_eq_slice, ← drop_eq_slice] at h3
      conv_rhs => rw [h3]
      rw [List.append_assoc]
      exact (hp.append_right _).append_left _
    · intro k hk hk2
      simp only [val, List.getD_eq_getElem?_getD]
      rcases hk2 with hk2 | hk2
      · rw [List.append_assoc, List.getElem?_append_left (by omega),
          List.getElem?_take_of_lt (by omega)]
      · rw [List.getElem?_append_right (by simp only [List.length_append]; omega),
          List.getElem?_drop]
        congr 2
        simp only [List.length_append]
        omega

theorem shellPass_spec (a b : Int) (ha : 0 ≤ a) :
    ∀ (fuel : Nat) (nums : List Int) (i : Int), a + 6 ≤ i → b ≤ nums.length → b - i < fuel →
      0 < fuel → ∃ r, shellPass b fuel nums i = .ok r ∧ RangePerm nums r a b := by
  intro fuel
  induction fuel with
  | zero => intro _ _ _ _ _ h; omega
  | succ fuel ih =>
    intro nums i hi hb hf _
    by_cases hlt : i < b
    · have ex := idx_eq nums i (by omega) (by omega)
      have ey := idx_eq nums (i - 6) (by omega) (by omega)
      by_cases hc : val nums i ≤ val nums (i - 6)
      · have hsw := swap_eq nums i (i - 6) (by omega) (by omega) (by omega) (by omega)
        obtain ⟨r, e, hr⟩ := ih (swapped nums i (i - 6)) (i + 1) (by omega)
          (by rw [length_swapped]; exact hb) (by omega) (by omega)
        refine ⟨r, ?_, (swapped_rangePerm nums a b i (i - 6) ha hb (by omega) hlt (by omega)
          (by omega)).chain hr⟩
        simp [shellPass, bind, Except.bind, pure, Except.pure, hlt, ex, ey, hc, hsw, e]
      · obtain ⟨r, e, hr⟩ := ih nums (i + 1) (by omega) hb (by omega) (by omega)
        exact ⟨r, by simp [shellPass, bind, Except.bind, pure, Except.pure, hlt, ex, ey, hc, e],
          hr⟩
    · exact ⟨nums, by simp [shellPass, hlt, pure, Except.pure], RangePerm.same _ _ _⟩

theorem recurseSmaller_spec (rec next : List Int → Int → Int → Except Err (List Int))
    (bound : Int) (nums : List Int) (a b mlo mhi p : Int)
    (hrec : SortsRanges rec nums.length bound) (hnext : SortsRanges next nums.length bound)
    (ha : 0 ≤ a) (h1 : a ≤ mlo) (h2 : mlo < mhi) (h3 : mhi ≤ b) (hb : b ≤ nums.length)
    (hbd : b - a ≤ bound) (hz : ThreeZones nums a b mlo mhi p) :
    ∃ r, recurseSmaller rec next nums a b mlo mhi = .ok r ∧ RangePerm nums r a b ∧
      (slice r a b).Sorted (· ≤ ·) := by
  have key : ∀ f g : List Int → Int → Int → Except Err (List Int),
      SortsRanges f nums.length bound → SortsRanges g nums.length bound →
      (∃ r, (do let s ← f nums a mlo; g s mhi b) = Except.ok r ∧ RangePerm nums r a b ∧
        (slice r a b).Sorted (· ≤ ·)) ∧
      (∃ r, (do let s ← f nums mhi b; g s a mlo) = Except.ok r ∧ RangePerm nums r a b ∧
        (slice r a b).Sorted (· ≤ ·)) := by
    intro f g hf hg
    constructor
    · obtain ⟨s, e1, hs, hsl⟩ := hf nums a mlo rfl ha h1 (by omega) (by omega)
      obtain ⟨r, e2, hr, hsr⟩ := hg s mhi b (by rw [hs.1]) (by omega) h3 hb (by omega)
      refine ⟨r, by simp [bind, Except.bind, e1, e2],
        (hs.widen ha le_rfl h1 (by omega)).chain (hr.widen ha (by omega) h3 le_rfl), ?_⟩
      have z := (hz.permLeft hs ha h1 (le_of_lt h2)).permRight hr ha h1 (le_of_lt h2)
      refine z.glue ha h1 (le_of_lt h2) h3 ?_ hsr
      rw [hr.sliceEq a mlo ha (Or.inl (le_of_lt h2))]
      exact hsl
    · obtain ⟨s, e1, hs, hsl⟩ := hf nums mhi b rfl (by omega) h3 hb (by omega)
      obtain ⟨r, e2, hr, hsr⟩ := hg s a mlo (by rw [hs.1]) ha h1 (by omega) (by omega)
      refine ⟨r, by simp [bind, Except.bind, e1, e2],
        (hs.widen ha (by omega) h3 le_rfl).chain (hr.widen ha le_rfl h1 (by omega)), ?_⟩
      have z := (hz.permRight hs ha h1 (le_of_lt h2)).permLeft hr ha h1 (le_of_lt h2)
      refine z.glue ha h1 (le_of_lt h2) h3 hsr ?_
      rw [hr.sliceEq mhi b (by omega) (Or.inr (le_of_lt h2))]
      exact hsl
  unfold recurseSmaller
  by_cases hlt : mlo - a < b - mhi
  · simp only [hlt, if_true]
    exact (key rec next hrec hnext).1
  · simp only [hlt, if_false]
    exact (key rec next hrec hnext).2

theorem pdqSort_spec {L : Leaves} (hL : Contracts L) :
    ∀ (fuel : Nat) (nums : List Int) (a b maxDepth badAllowed : Int), 0 ≤ a → a ≤ b →
      b ≤ nums.length → (nums.length : Int) < 2 ^ 63 → b - a < fuel →
      ∃ r, pdqSort L fuel nums a b maxDepth badAllowed = .ok r ∧ RangePerm nums r a b ∧
        (slice r a b).Sorted (· ≤ ·) := by
  intro fuel
  induction fuel with
  | zero => intro _ _ _ _ _ _ _ _ _ h; omega
  | succ fuel ih =>
    intro nums a b maxDepth badAllowed ha hab hb hlen hf
    by_cases hbig : b - a > 12
    · by_cases hz : badAllowed = 0
      · obtain ⟨r, e, hr, hs⟩ := hL.heap nums a b ha hab hb
        exact ⟨r, by simp [pdqSort, hbig, hz, e], hr, hs⟩
      · obtain ⟨r1, mlo, mhi, e1, hpart⟩ := doPdqPivot_spec hL.median nums a b ha hb hbig hlen
        have hl1 : (r1.length : Int) = nums.length := by rw [hpart.2.2.2.1.1]
        obtain ⟨h1, h2, h3, hrp, _, _, _⟩ := id hpart
        have hsr : ∀ d k : Int,
            SortsRanges (fun s x y => pdqSort L fuel s x y d k) nums.length (b - a) := by
          intro d k s x y hs hx hxy hy hlt
          exact ih s x y d k hx hxy (by omega) (by omega) (by omega)
        have hrest : ∀ (d k : Int) (r2 : List Int), RangePerm r1 r2 a b →
            ThreeZones r2 a b mlo mhi (val r1 mlo) →
            ∃ r, recurseSmaller (fun s x y => pdqSort L fuel s x y d k)
              (fun s x y => pdqSort L fuel s x y d k) r2 a b mlo mhi = .ok r ∧
              RangePerm nums r a b ∧ (slice r a b).Sorted (· ≤ ·) := by
          intro d k r2 hr2 hz2
          have hl2 : r2.length = nums.length := by rw [hr2.1, hrp.1]
          obtain ⟨r, e, hr, hs⟩ := recurseSmaller_spec _ _ (b - a) r2 a b mlo mhi (val r1 mlo)
            (by rw [hl2]; exact hsr d k) (by rw [hl2]; exact hsr d k) ha h1 h2 (by omega)
            (by omega) le_rfl hz2
          exact ⟨r, e, (hrp.chain hr2).chain hr, hs⟩
        by_cases hu : highlyUnbalanced nums.length a b mlo = true
        · by_cases hk : badAllowed - 1 = 0
          · obtain ⟨r, e, hr, hs⟩ := hL.heap r1 a b ha hab (by omega)
            exact ⟨r, by simp [pdqSort, hbig, hz, bind, Except.bind, e1, hu, hk, e],
              hrp.chain hr, hs⟩
          · obtain ⟨r2, e2, hr2⟩ := onSlice_spec breakPatterns breakPatterns_perm r1 a mlo ha
              h1 (by omega)
            obtain ⟨r3, e3, hr3⟩ := onSlice_spec breakPatterns breakPatterns_perm r2 mhi b
              (by omega) (by omega) (by rw [hr2.1]; omega)
            have z := ((hpart.zones ha).permLeft hr2 ha h1 (le_of_lt h2)).permRight hr3 ha h1
              (le_of_lt h2)
            obtain ⟨r, e, hr, hs⟩ := hrest (maxDepth - 1) (badAllowed - 1) r3
              ((hr2.widen ha le_rfl h1 (by omega)).chain
                (hr3.widen ha (by omega) (by omega) le_rfl)) z
            exact ⟨r, by simp [pdqSort, hbig, hz, bind, Except.bind, e1, hu, hk, e2, e3, e],
              hr, hs⟩
        · obtain ⟨r, e, hr, hs⟩ := hrest (maxDepth - 1) badAllowed r1 (RangePerm.same _ _ _)
            (hpart.zones ha)
          exact ⟨r, by simp [pdqSort, hbig, hz, bind, Except.bind, e1, hu, e], hr, hs⟩
    · by_cases h1 : b - a > 1
      · obtain ⟨r1, e1, hr1⟩ := shellPass_spec a b ha (b - a).toNat nums (a + 6) le_rfl hb
          (by omega) (by omega)
        obtain ⟨r, e, hr, hs⟩ := hL.insertion r1 a b ha hab (by rw [hr1.1]; exact hb)
        exact ⟨r, by simp [pdqSort, hbig, h1, bind, Except.bind, e1, e], hr1.chain hr, hs⟩
      · exact ⟨nums, by simp [pdqSort, hbig, h1, pure, Except.pure], RangePerm.same _ _ _,
          sorted_slice_short nums a b (by omega)⟩

theorem PdqSort2_spec {L : Leaves} (hL : Contracts L) (nums : List Int)
    (hlen : (nums.length : Int) < 2 ^ 63) :
    ∃ r, PdqSort2 L nums = .ok r ∧ r.Perm nums ∧ r.Sorted (· ≤ ·) := by
  obtain ⟨r, e, hr, hs⟩ := pdqSort_spec hL (nums.length + 1) nums 0 nums.length
    (L.maxDepth nums.length) (allowedBadPartitions L 0 nums.length) le_rfl (by omega) le_rfl
    hlen (by push_cast; omega)
  refine ⟨r, e, hr.toPerm le_rfl (by omega) le_rfl, ?_⟩
  have : slice r 0 nums.length = r := by rw [← hr.1, slice_full]
  rwa [this] at hs

theorem ok_bind {α β : Type} (a : α) (f : α → Except Err β) :
    (Except.ok a >>= f) = f a := rfl

/-- One exchange keeps the permutation, the frame and the length. -/

theorem Touches.idle (nums : List Int) (m1 m0 m2 : Int) : Touches nums nums m1 m0 m2 :=
  ⟨List.Perm.refl _, fun _ _ _ _ _ => rfl⟩

theorem Touches.andThen {nums r s : List Int} {m1 m0 m2 : Int} (h1 : Touches nums r m1 m0 m2)
    (h2 : Touches r s m1 m0 m2) : Touches nums s m1 m0 m2 :=
  ⟨h2.1.trans h1.1, fun k a b c d => (h2.2 k a b c d).trans (h1.2 k a b c d)⟩

theorem touches_swapped (nums : List Int) (m1 m0 m2 i j : Int) (hi : 0 ≤ i)
    (hi2 : i < nums.length) (hj : 0 ≤ j) (hj2 : j < nums.length)
    (hi3 : i = m1 ∨ i = m0 ∨ i = m2) (hj3 : j = m1 ∨ j = m0 ∨ j = m2) :
    Touches nums (swapped nums i j) m1 m0 m2 := by
  refine ⟨swapped_perm nums i j hi hi2 hj hj2, ?_⟩
  intro k hk h1 h0 h2
  rw [val_swapped nums i j k hi hi2 hj hj2 hk, if_neg (by omega), if_neg (by omega)]

theorem refMedianOfThree_contract : MedianContract refMedianOfThree := by
  intro nums m1 m0 m2 h1 h1' h0 h0' h2 h2' d1 d2 d3
  have e1 := idx_eq nums m1 h1 h1'
  have e0 := idx_eq nums m0 h0 h0'
  obtain ⟨n1, hn1, ht1, hle1⟩ : ∃ n1 : List Int,
      (∀ rest : List Int → Except Err (List Int),
        (if val nums m1 < val nums m0 then swap nums m1 m0 >>= rest else pure nums >>= rest)
          = rest n1) ∧
      Touches nums n1 m1 m0 m2 ∧ val n1 m0 ≤ val n1 m1 := by
    by_cases hc : val nums m1 < val nums m0
    · refine ⟨swapped nums m1 m0, ?_,
        touches_swapped nums m1 m0 m2 m1 m0 h1 h1' h0 h0' (Or.inl rfl) (Or.inr (Or.inl rfl)),
        ?_⟩
      · intro rest
        simp only [hc, if_true, swap_eq nums m1 m0 h1 h1' h0 h0', ok_bind]
      · rw [val_swapped nums m1 m0 m0 h1 h1' h0 h0' h0,
          val_swapped nums m1 m0 m1 h1 h1' h0 h0' h1]
        simp [d1]
        omega
    · exact ⟨nums, fun rest => by simp only [hc, if_false]; rfl, Touches.idle _ _ _ _,
        by omega⟩
  have hl1 : (n1.length : Int) = nums.length := by rw [ht1.1.length_eq]
  have f2 := idx_eq n1 m2 h2 (by omega)
  have f1 := idx_eq n1 m1 h1 (by omega)
  by_cases hc2 : val n1 m2 < val n1 m1
  · have hs2 := swap_eq n1 m2 m1 h2 (by omega) h1 (by omega)
    have ht2 := touches_swapped n1 m1 m0 m2 m2 m1 h2 (by omega) h1 (by omega)
      (Or.inr (Or.inr rfl)) (Or.inl rfl)
    have hl2 : ((swapped n1 m2 m1).length : Int) = nums.length := by
      rw [length_swapped]; exact hl1
    have v1 : val (swapped n1 m2 m1) m1 = val n1 m2 := by
      rw [val_swapped n1 m2 m1 m1 h2 (by omega) h1 (by omega) h1]; simp
    have v0 : val (swapped n1 m2 m1) m0 = val n1 m0 := by
      rw [val_swapped n1 m2 m1 m0 h2 (by omega) h1 (by omega) h0]; simp [d1.symm, d2]
    have v2 : val (swapped n1 m2 m1) m2 = val n1 m1 := by
      rw [val_swapped n1 m2 m1 m2 h2 (by omega) h1 (by omega) h2]; simp [d3.symm]
    have g1 := idx_eq (swapped n1 m2 m1) m1 h1 (by omega)
    have g0 := idx_eq (swapped n1 m2 m1) m0 h0 (by omega)
    by_cases hc3 : val (swapped n1 m2 m1) m1 < val (swapped n1 m2 m1) m0
    · have hs3 := swap_eq (swapped n1 m2 m1) m1 m0 h1 (by omega) h0 (by omega)
      have ht3 := touches_swapped (swapped n1 m2 m1) m1 m0 m2 m1 m0 h1 (by omega) h0 (by omega)
        (Or.inl rfl) (Or.inr (Or.inl rfl))
      refine ⟨_, ?_, ((ht1.andThen ht2).andThen ht3).1, ((ht1.andThen ht2).andThen ht3).2,
        fun _ _ => ?_⟩
      · simp only [refMedianOfThree, e1, e0, ok_bind, hn1, f2, f1, hc2, if_true, hs2, g1, g0,
          hc3, hs3]
      · rw [val_swapped _ m1 m0 m1 h1 (by omega) h0 (by omega) h1,
          val_swapped _ m1 m0 m2 h1 (by omega) h0 (by omega) h2]
        simp [d1, d2.symm, d3.symm]
        omega
    · refine ⟨_, ?_, (ht1.andThen ht2).1, (ht1.andThen ht2).2, fun _ _ => by omega⟩
      simp only [refMedianOfThree, e1, e0, ok_bind, hn1, f2, f1, hc2, if_true, hs2, g1, g0,
        hc3, if_false]
      rfl
  · refine ⟨n1, ?_, ht1.1, ht1.2, fun _ _ => by omega⟩
    simp only [refMedianOfThree, e1, e0, ok_bind, hn1, f2, f1, hc2, if_false]
    rfl

theorem slice_splice (nums s : List Int) (a b : Int) (_ha : 0 ≤ a) (hab : a ≤ b)
    (hb : b ≤ nums.length) (hs : (s.length : Int) = b - a) :
    slice (nums.take a.toNat ++ s ++ nums.drop b.toNat) a b = s := by
  have hta : (nums.take a.toNat).length = a.toNat := by
    rw [List.length_take]; omega
  have hsl : s.length = (b - a).toNat := by omega
  simp only [slice, List.append_assoc]
  rw [List.drop_left' hta, List.take_left' hsl]

theorem refSortRange_contract : SortContract refSortRange := by
  intro nums lo hi hlo hlh hhi
  obtain ⟨r, e, hr⟩ := onSlice_spec (fun s => pure (s.insertionSort (· ≤ ·)))
    (fun s => ⟨_, rfl, List.perm_insertionSort _ s⟩) nums lo hi hlo hlh hhi
  refine ⟨r, e, hr, ?_⟩
  have hr' : r = nums.take lo.toNat ++ (slice nums lo hi).insertionSort (· ≤ ·) ++
      nums.drop hi.toNat := by
    have : 0 ≤ lo ∧ lo ≤ hi ∧ hi ≤ nums.length := ⟨hlo, hlh, hhi⟩
    simp [onSlice, this, bind, Except.bind, pure, Except.pure] at e
    rw [← e, List.append_assoc]
  rw [hr', slice_splice nums _ lo hi hlo hlh hhi
    (by rw [List.length_insertionSort]; exact length_slice nums lo hi hlo hlh hhi)]
  exact List.sorted_insertionSort _ _

theorem refLeaves_contracts : Contracts refLeaves :=
  ⟨refMedianOfThree_contract, refSortRange_contract, refSortRange_contract⟩

/-! The driver: budgets and call depth. -/

theorem pdqSort_depth_irrelevant (L : Leaves) :
    ∀ (fuel : Nat) (nums : List Int) (a b d1 d2 k : Int),
      pdqSort L fuel nums a b d1 k = pdqSort L fuel nums a b d2 k := by
  intro fuel
  induction fuel with
  | zero => intro nums a b d1 d2 k; rfl
  | succ fuel ih =>
    intro nums a b d1 d2 k
    have h : ∀ k' : Int, (fun s x y => pdqSort L fuel s x y (d1 - 1) k') =
        (fun s x y => pdqSort L fuel s x y (d2 - 1) k') := by
      intro k'
      funext s x y
      exact ih s x y (d1 - 1) (d2 - 1) k'
    simp only [pdqSort, h]

theorem recurseSmaller_mono (rec next rec' next' : List Int → Int → Int → Except Err (List Int))
    (hrec : ∀ s x y r, rec s x y = .ok r → rec' s x y = .ok r)
    (hnext : ∀ s x y r, next s x y = .ok r → next' s x y = .ok r)
    (nums : List Int) (a b mlo mhi : Int) (r : List Int)
    (h : recurseSmaller rec next nums a b mlo mhi = .ok r) :
    recurseSmaller rec' next' nums a b mlo mhi = .ok r := by
  unfold recurseSmaller at h ⊢
  by_cases hlt : mlo - a < b - mhi
  · simp only [hlt, if_true] at h ⊢
    cases h1 : rec nums a mlo with
    | error e => simp [h1, bind, Except.bind] at h
    | ok s =>
      rw [h1] at h
      rw [hrec _ _ _ _ h1]
      exact hnext _ _ _ _ h
  · simp only [hlt, if_false] at h ⊢
    cases h1 : rec nums mhi b with
    | error e => simp [h1, bind, Except.bind] at h
    | ok s =>
      rw [h1] at h
      rw [hrec _ _ _ _ h1]
      exact hnext _ _ _ _ h

theorem pdqSort_fuel_succ (L : Leaves) :
    ∀ (fuel : Nat) (nums : List Int) (a b d k : Int) (r : List Int),
      pdqSort L fuel nums a b d k = .ok r → pdqSort L (fuel + 1) nums a b d k = .ok r := by
  intro fuel
  induction fuel with
  | zero => intro nums a b d k r h; simp [pdqSort] at h
  | succ fuel ih =>
    intro nums a b d k r h
    have hm : ∀ d' k' : Int, ∀ s x y r, pdqSort L fuel s x y d' k' = .ok r →
        pdqSort L (fuel + 1) s x y d' k' = .ok r := fun d' k' s x y r => ih s x y d' k' r
    rw [pdqSort] at h ⊢
    by_cases hbig : b - a > 12
    · simp only [hbig, if_true] at h ⊢
      by_cases hz : k = 0
      · simpa only [hz, if_true] using h
      · simp only [hz, if_false] at h ⊢
        cases hp : doPdqPivot L nums a b with
        | error e => simp [hp, bind, Except.bind] at h
        | ok t =>
          obtain ⟨r1, mlo, mhi⟩ := t
          simp only [hp, ok_bind] at h ⊢
          by_cases hu : highlyUnbalanced nums.length a b mlo = true
          · simp only [hu, if_true] at h ⊢
            by_cases hk : k - 1 = 0
            · simpa only [hk, if_true] using h
            · simp only [hk, if_false] at h ⊢
              cases h2 : onSlice breakPatterns r1 a mlo with
              | error e => simp [h2, bind, Except.bind] at h
              | ok r2 =>
                simp only [h2, ok_bind] at h ⊢
                cases h3 : onSlice breakPatterns r2 mhi b with
                | error e => simp [h3, bind, Except.bind] at h
                | ok r3 =>
                  simp only [h3, ok_bind] at h ⊢
                  exact recurseSmaller_mono _ _ _ _ (hm _ _) (hm _ _) _ _ _ _ _ _ h
          · simp only [hu] at h ⊢
            exact recurseSmaller_mono _ _ _ _ (hm _ _) (hm _ _) _ _ _ _ _ _ h
    · simpa only [hbig, if_false] using h

theorem pdqSort_fuel_le (L : Leaves) (nums : List Int) (a b d k : Int) (r : List Int)
    (fuel fuel' : Nat) (hle : fuel ≤ fuel') (h : pdqSort L fuel nums a b d k = .ok r) :
    pdqSort L fuel' nums a b d k = .ok r := by
  induction hle with
  | refl => exact h
  | step _ ih => exact pdqSort_fuel_succ L _ nums a b d k r ih

theorem recurseSmallerDepth_fst
    (rec next : List Int → Int → Int → Except Err (List Int))
    (recD nextD : List Int → Int → Int → Except Err (List Int × Nat))
    (hrec : ∀ s x y, (recD s x y).map Prod.fst = rec s x y)
    (hnext : ∀ s x y, (nextD s x y).map Prod.fst = next s x y)
    (nums : List Int) (a b mlo mhi : Int) :
    (recurseSmallerDepth recD nextD nums a b mlo mhi).map Prod.fst =
      recurseSmaller rec next nums a b mlo mhi := by
  have key : ∀ x y x' y' : Int,
      (do let (s, d1) ← recD nums x y
          let (t, d2) ← nextD s x' y'
          (pure (t, max (d1 + 1) d2) : Except Err (List Int × Nat))).map Prod.fst =
      (do let s ← rec nums x y
          next s x' y') := by
    intro x y x' y'
    rw [← hrec nums x y]
    cases h1 : recD nums x y with
    | error e => rfl
    | ok p =>
      obtain ⟨s, d1⟩ := p
      simp only [ok_bind, Except.map]
      rw [← hnext s x' y']
      cases h2 : nextD s x' y' with
      | error e => rfl
      | ok q => rfl
  unfold recurseSmallerDepth recurseSmaller
  by_cases hlt : mlo - a < b - mhi
  · simp only [hlt, if_true]
    exact key a mlo mhi b
  · simp only [hlt, if_false]
    exact key mhi b a mlo

theorem pdqSortDepth_fst (L : Leaves) :
    ∀ (fuel : Nat) (nums : List Int) (a b d k : Int),
      (pdqSortDepth L fuel nums a b d k).map Prod.fst = pdqSort L fuel nums a b d k := by
  intro fuel
  induction fuel with
  | zero => intro nums a b d k; rfl
  | succ fuel ih =>
    intro nums a b d k
    have hm : ∀ d' k' : Int, ∀ s x y,
        (pdqSortDepth L fuel s x y d' k').map Prod.fst = pdqSort L fuel s x y d' k' :=
      fun d' k' s x y => ih s x y d' k'
    have hleaf : ∀ (e : Except Err (List Int)),
        (do let s ← e
            (pure (s, 0) : Except Err (List Int × Nat))).map Prod.fst = e := by
      intro e
      cases e <;> rfl
    rw [pdqSort, pdqSortDepth]
    by_cases hbig : b - a > 12
    · simp only [hbig, if_true]
      by_cases hz : k = 0
      · simp only [hz, if_true]
        exact hleaf _
      · simp only [hz, if_false]
        cases hp : doPdqPivot L nums a b with
        | error e => rfl
        | ok t =>
          obtain ⟨r1, mlo, mhi⟩ := t
          simp only [ok_bind]
          by_cases hu : highlyUnbalanced nums.length a b mlo = true
          · simp only [hu, if_true]
            by_cases hk : k - 1 = 0
            · simp only [hk, if_true]
              exact hleaf _
            · simp only [hk, if_false]
              cases h2 : onSlice breakPatterns r1 a mlo with
              | error e => rfl
              | ok r2 =>
                simp only [ok_bind]
                cases h3 : onSlice breakPatterns r2 mhi b with
                | error e => rfl
                | ok r3 =>
                  simp only [ok_bind]
                  exact recurseSmallerDepth_fst _ _ _ _ (hm _ _) (hm _ _) _ _ _ _ _
          · simp only [hu]
            exact recurseSmallerDepth_fst _ _ _ _ (hm _ _) (hm _ _) _ _ _ _ _
    · simp only [hbig, if_false]
      by_cases h1 : b - a > 1
      · simp only [h1, if_true]
        cases h2 : shellPass b (b - a).toNat nums (a + 6) with
        | error e => rfl
        | ok r2 =>
          simp only [ok_bind]
          exact hleaf _
      · simp only [h1, if_false]
        rfl

theorem log_half_succ (n m : Nat) (hn : 2 ≤ n) (hm : m ≤ n / 2) :
    Nat.log 2 m + 1 ≤ Nat.log 2 n := by
  have h1 : Nat.log 2 m ≤ Nat.log 2 (n / 2) := Nat.log_mono_right hm
  have h2 : Nat.log 2 (n / 2) = Nat.log 2 n - 1 := Nat.log_div_base 2 n
  have h3 : 0 < Nat.log 2 n := Nat.log_pos (by omega) hn
  omega

theorem recurseSmallerDepth_spec
    (rec next : List Int → Int → Int → Except Err (List Int × Nat))
    (bound : Int) (nums : List Int) (a b mlo mhi : Int)
    (hrec : BoundsDepth rec nums.length bound) (hnext : BoundsDepth next nums.length bound)
    (ha : 0 ≤ a) (h1 : a ≤ mlo) (h2 : mlo < mhi) (h3 : mhi ≤ b) (hb : b ≤ nums.length)
    (hbig : b - a > 12) (hbd : b - a ≤ bound) :
    ∃ r depth, recurseSmallerDepth rec next nums a b mlo mhi = .ok (r, depth) ∧
      RangePerm nums r a b ∧ depth ≤ Nat.log 2 (b - a).toNat := by
  have key : ∀ x y x' y' : Int, 0 ≤ x → x ≤ y → y ≤ nums.length → 0 ≤ x' → x' ≤ y' →
      y' ≤ nums.length → a ≤ x → y ≤ b → a ≤ x' → y' ≤ b → y - x < bound → y' - x' < bound →
      2 * (y - x) ≤ b - a →
      ∃ r depth, (do let (s, d1) ← rec nums x y
                     let (t, d2) ← next s x' y'
                     (pure (t, max (d1 + 1) d2) : Except Err (List Int × Nat))) =
          Except.ok (r, depth) ∧ RangePerm nums r a b ∧ depth ≤ Nat.log 2 (b - a).toNat := by
    intro x y x' y' hx hxy hy hx' hxy' hy' hax hyb hax' hyb' hlt hlt' hhalf
    obtain ⟨s, d1, e1, hs, hd1⟩ := hrec nums x y rfl hx hxy hy hlt
    obtain ⟨t, d2, e2, ht, hd2⟩ := hnext s x' y' (by rw [hs.1]) hx' hxy' hy' hlt'
    refine ⟨t, max (d1 + 1) d2, by simp [bind, Except.bind, pure, Except.pure, e1, e2],
      (hs.widen ha hax hxy hyb).chain (ht.widen ha hax' hxy' hyb'), ?_⟩
    have g1 : d1 + 1 ≤ Nat.log 2 (b - a).toNat :=
      le_trans (Nat.add_le_add_right hd1 1)
        (log_half_succ (b - a).toNat (y - x).toNat (by omega) (by omega))
    have g2 : d2 ≤ Nat.log 2 (b - a).toNat :=
      le_trans hd2 (Nat.log_mono_right (by omega))
    exact max_le g1 g2
  unfold recurseSmallerDepth
  by_cases hlt : mlo - a < b - mhi
  · simp only [hlt, if_true]
    exact key a mlo mhi b ha h1 (by omega) (by omega) h3 hb le_rfl (by omega) (by omega)
      le_rfl (by omega) (by omega) (by omega)
  · simp only [hlt, if_false]
    exact key mhi b a mlo (by omega) h3 hb ha h1 (by omega) (by omega) le_rfl le_rfl
      (by omega) (by omega) (by omega) (by omega)

theorem pdqSortDepth_spec {L : Leaves} (hL : Contracts L) :
    ∀ (fuel : Nat) (nums : List Int) (a b maxDepth badAllowed : Int), 0 ≤ a → a ≤ b →
      b ≤ nums.length → (nums.length : Int) < 2 ^ 63 → b - a < fuel →
      ∃ r depth, pdqSortDepth L fuel nums a b maxDepth badAllowed = .ok (r, depth) ∧
        RangePerm nums r a b ∧ depth ≤ Nat.log 2 (b - a).toNat := by
  intro fuel
  induction fuel with
  | zero => intro _ _ _ _ _ _ _ _ _ h; omega
  | succ fuel ih =>
    intro nums a b maxDepth badAllowed ha hab hb hlen hf
    by_cases hbig : b - a > 12
    · by_cases hz : badAllowed = 0
      · obtain ⟨r, e, hr, _⟩ := hL.heap nums a b ha hab hb
        exact ⟨r, 0, by simp [pdqSortDepth, hbig, hz, e, bind, Except.bind, pure, Except.pure],
          hr, Nat.zero_le _⟩
      · obtain ⟨r1, mlo, mhi, e1, hpart⟩ := doPdqPivot_spec hL.median nums a b ha hb hbig hlen
        obtain ⟨h1, h2, h3, hrp, _, _, _⟩ := id hpart
        have hl1 : (r1.length : Int) = nums.length := by rw [hrp.1]
        have hsr : ∀ d k : Int,
            BoundsDepth (fun s x y => pdqSortDepth L fuel s x y d k) nums.length (b - a) := by
          intro d k s x y hs hx hxy hy hlt
          exact ih s x y d k hx hxy (by omega) (by omega) (by omega)
        have hrest : ∀ (d k : Int) (r2 : List Int), RangePerm r1 r2 a b →
            ∃ r depth, recurseSmallerDepth (fun s x y => pdqSortDepth L fuel s x y d k)
              (fun s x y => pdqSortDepth L fuel s x y d k) r2 a b mlo mhi = .ok (r, depth) ∧
              RangePerm nums r a b ∧ depth ≤ Nat.log 2 (b - a).toNat := by
          intro d k r2 hr2
          have hl2 : r2.length = nums.length := by rw [hr2.1, hrp.1]
          obtain ⟨r, dep, e, hr, hd⟩ := recurseSmallerDepth_spec _ _ (b - a) r2 a b mlo mhi
            (by rw [hl2]; exact hsr d k) (by rw [hl2]; exact hsr d k) ha h1 h2 (by omega)
            (by omega) hbig le_rfl
          exact ⟨r, dep, e, (hrp.chain hr2).chain hr, hd⟩
        by_cases hu : highlyUnbalanced nums.length a b mlo = true
        · by_cases hk : badAllowed - 1 = 0
          · obtain ⟨r, e, hr, _⟩ := hL.heap r1 a b ha hab (by omega)
            exact ⟨r, 0, by simp [pdqSortDepth, hbig, hz, bind, Except.bind, pure, Except.pure,
              e1, hu, hk, e], hrp.chain hr, Nat.zero_le _⟩
          · obtain ⟨r2, e2, hr2⟩ := onSlice_spec breakPatterns breakPatterns_perm r1 a mlo ha
              h1 (by omega)
            obtain ⟨r3, e3, hr3⟩ := onSlice_spec breakPatterns breakPatterns_perm r2 mhi b
              (by omega) (by omega) (by rw [hr2.1]; omega)
            obtain ⟨r, dep, e, hr, hd⟩ := hrest (maxDepth - 1) (badAllowed - 1) r3
              ((hr2.widen ha le_rfl h1 (by omega)).chain
                (hr3.widen ha (by omega) (by omega) le_rfl))
            exact ⟨r, dep, by simp [pdqSortDepth, hbig, hz, bind, Except.bind, e1, hu, hk, e2,
              e3, e], hr, hd⟩
        · obtain ⟨r, dep, e, hr, hd⟩ := hrest (maxDepth - 1) badAllowed r1
            (RangePerm.same _ _ _)
          exact ⟨r, dep, by simp [pdqSortDepth, hbig, hz, bind, Except.bind, e1, hu, e], hr,
            hd⟩
    · by_cases h1 : b - a > 1
      · obtain ⟨r1, e1, hr1⟩ := shellPass_spec a b ha (b - a).toNat nums (a + 6) le_rfl hb
          (by omega) (by omega)
        obtain ⟨r, e, hr, _⟩ := hL.insertion r1 a b ha hab (by rw [hr1.1]; exact hb)
        exact ⟨r, 0, by simp [pdqSortDepth, hbig, h1, bind, Except.bind, pure, Except.pure, e1,
          e], hr1.chain hr, Nat.zero_le _⟩
      · exact ⟨nums, 0, by simp [pdqSortDepth, hbig, h1, pure, Except.pure],
          RangePerm.same _ _ _, Nat.zero_le _⟩

/-! The claims. -/

/-- Claim C1: under the contracts of the leaf routines, `PdqSort2` returns on every slice and
leaves it non-decreasing: the result is sorted for `<=`, and so `nums[i] <= nums[i+1]` at
every valid `i`. -/
theorem PdqSort2_sorted (L : Leaves) (hL : Contracts L) (nums : List Int)
    (hlen : (nums.length : Int) < 2 ^ 63) :
    ∃ r, PdqSort2 L nums = .ok r ∧ r.Sorted (· ≤ ·) ∧
      ∀ i : Int, 0 ≤ i → i + 1 < r.length → val r i ≤ val r (i + 1) := by
  obtain ⟨r, e, _, hs⟩ := PdqSort2_spec hL nums hlen
  refine ⟨r, e, hs, ?_⟩
  intro i hi hi2
  have h := List.pairwise_iff_getElem.mp hs i.toNat (i + 1).toNat (by omega) (by omega)
    (by omega)
  simp only [val, List.getD_eq_getElem?_getD]
  rw [List.getElem?_eq_getElem (by omega), List.getElem?_eq_getElem (by omega)]
  exact h

/-- Witness of C1: the slice `[5, 3, 8, 3, 9, 1]` becomes `[1, 3, 3, 5, 8, 9]`. -/
theorem PdqSort2_sorted_witness :
    PdqSort2 refLeaves [5, 3, 8, 3, 9, 1] = .ok [1, 3, 3, 5, 8, 9] ∧
      ∃ r, PdqSort2 refLeaves [5, 3, 8, 3, 9, 1] = .ok r ∧ r.Sorted (· ≤ ·) ∧
        ∀ i : Int, 0 ≤ i → i + 1 < r.length → val r i ≤ val r (i + 1) :=
  ⟨rfl, PdqSort2_sorted refLeaves refLeaves_contracts [5, 3, 8, 3, 9, 1] (by decide)⟩

/-- Claim C2: under the contracts of the leaf routines, what `PdqSort2` leaves is a
permutation of the input: the same length and the same multiset of elements. -/
theorem PdqSort2_permutation (L : Leaves) (hL : Contracts L) (nums : List Int)
    (hlen : (nums.length : Int) < 2 ^ 63) :
    ∃ r, PdqSort2 L nums = .ok r ∧ r.Perm nums ∧ r.length = nums.length ∧
      ∀ x : Int, r.count x = nums.count x := by
  obtain ⟨r, e, hp, _⟩ := PdqSort2_spec hL nums hlen
  exact ⟨r, e, hp, hp.length_eq, fun x => hp.count_eq x⟩

/-- Witness of C2: the slice `[2, 7, 2, 0]`. -/
theorem PdqSort2_permutation_witness :
    ∃ r, PdqSort2 refLeaves [2, 7, 2, 0] = .ok r ∧ r.Perm [2, 7, 2, 0] ∧
      r.length = [2, 7, 2, 0].length ∧ ∀ x : Int, r.count x = [2, 7, 2, 0].count x :=
  PdqSort2_permutation refLeaves refLeaves_contracts [2, 7, 2, 0] (by decide)

/-- Claim C3: under the contracts of the leaf routines, `PdqSort2` leaves a non-decreasing
slice element for element unchanged, and sorting the result of `PdqSort2` again gives the
same result. -/
theorem PdqSort2_idempotent (L : Leaves) (hL : Contracts L) (nums : List Int)
    (hlen : (nums.length : Int) < 2 ^ 63) :
    (nums.Sorted (· ≤ ·) → PdqSort2 L nums = .ok nums) ∧
      ∃ r, PdqSort2 L nums = .ok r ∧ PdqSort2 L r = .ok r := by
  obtain ⟨r, e, hp, hs⟩ := PdqSort2_spec hL nums hlen
  refine ⟨fun hn => ?_, r, e, ?_⟩
  · rw [e, List.eq_of_perm_of_sorted hp hs hn]
  · obtain ⟨r', e', hp', hs'⟩ := PdqSort2_spec hL r (by rw [hp.length_eq]; exact hlen)
    rw [e', List.eq_of_perm_of_sorted hp' hs' hs]

/-- Witness of C3: thirteen identical values come out unchanged. -/
theorem PdqSort2_idempotent_witness :
    PdqSort2 refLeaves (List.replicate 13 7) = .ok (List.replicate 13 7) ∧
      ((List.replicate 13 (7 : Int)).Sorted (· ≤ ·) →
        PdqSort2 refLeaves (List.replicate 13 7) = .ok (List.replicate 13 7)) ∧
      ∃ r, PdqSort2 refLeaves (List.replicate 13 7) = .ok r ∧ PdqSort2 refLeaves r = .ok r :=
  ⟨rfl, PdqSort2_idempotent refLeaves refLeaves_contracts (List.replicate 13 7) (by decide)⟩

/-- Claim C4: under the contracts of the leaf routines and on every range
`0 <= a <= b <= len(nums)`, for every `maxDepth` and `badAllowed`: on a range longer than 12
`doPdqPivot` returns (its scan loops end within their budget) and both sub-ranges it delimits
are strictly shorter than `[a, b)`; `pdqSort` returns with every step budget above `b - a`,
and with the same slice for any two such budgets. -/
theorem pdqSort_terminates (L : Leaves) (hL : Contracts L) (nums : List Int)
    (a b maxDepth badAllowed : Int) (ha : 0 ≤ a) (hab : a ≤ b) (hb : b ≤ nums.length)
    (hlen : (nums.length : Int) < 2 ^ 63) :
    (b - a > 12 → ∃ r mlo mhi, doPdqPivot L nums a b = .ok (r, mlo, mhi) ∧
        0 ≤ mlo - a ∧ mlo - a < b - a ∧ 0 ≤ b - mhi ∧ b - mhi < b - a) ∧
      ∃ r, ∀ fuel : Nat, b - a < fuel → pdqSort L fuel nums a b maxDepth badAllowed = .ok r := by
  constructor
  · intro hbig
    obtain ⟨r, mlo, mhi, e, h1, h2, h3, _⟩ := doPdqPivot_spec hL.median nums a b ha hb hbig hlen
    exact ⟨r, mlo, mhi, e, by omega, by omega, by omega, by omega⟩
  · obtain ⟨r, e, _⟩ := pdqSort_spec hL ((b - a).toNat + 1) nums a b maxDepth badAllowed ha hab
      hb hlen (by push_cast; omega)
    exact ⟨r, fun fuel hf => pdqSort_fuel_le L nums a b maxDepth badAllowed r _ fuel (by omega) e⟩

/-- Witness of C4: thirteen identical values, with the budgets of `PdqSort2`. -/
theorem pdqSort_terminates_witness :
    ((13 : Int) - 0 > 12 → ∃ r mlo mhi,
        doPdqPivot refLeaves (List.replicate 13 7) 0 13 = .ok (r, mlo, mhi) ∧
        0 ≤ mlo - 0 ∧ mlo - 0 < 13 - 0 ∧ 0 ≤ 13 - mhi ∧ 13 - mhi < 13 - 0) ∧
      ∃ r, ∀ fuel : Nat, (13 : Int) - 0 < fuel →
        pdqSort refLeaves fuel (List.replicate 13 7) 0 13 10 3 = .ok r :=
  pdqSort_terminates refLeaves refLeaves_contracts (List.replicate 13 7) 0 13 10 3 (by decide)
    (by decide) (by decide) (by decide)

/-- Claim C5: `breakPatterns` returns on every slice (no index leaves the slice) and has
exactly the effect of `breakPatternsSpec`: nothing below length 4, the exchanges `(0, n/2)`
then `(n-1, n-n/2)` from length 4 on, four more exchanges in order from length 8 on. Below
length 8 every position other than these four is unchanged, and in every case the result is a
permutation of the input of the same length. -/
theorem breakPatterns_effect (nums : List Int) :
    breakPatterns nums = .ok (breakPatternsSpec nums) ∧
      (breakPatternsSpec nums).Perm nums ∧
      (breakPatternsSpec nums).length = nums.length ∧
      ((nums.length : Int) < 8 → ∀ k : Int, 0 ≤ k → k ≠ 0 → k ≠ (nums.length : Int) / 2 →
        k ≠ (nums.length : Int) - 1 → k ≠ (nums.length : Int) - (nums.length : Int) / 2 →
        val (breakPatternsSpec nums) k = val nums k) := by
  have heq : breakPatterns nums = .ok (breakPatternsSpec nums) := by
    unfold breakPatternsSpec
    by_cases h4 : (nums.length : Int) < 4
    · simp only [h4, if_true]
      exact breakPatterns_small nums h4
    · by_cases h8 : (nums.length : Int) < 8
      · simp only [h4, h8, if_true, if_false]
        exact breakPatterns_mid nums (by omega) h8
      · simp only [h4, h8, if_false]
        exact breakPatterns_large nums (by omega)
  obtain ⟨r, e, hp⟩ := breakPatterns_perm nums
  have hr : r = breakPatternsSpec nums := by
    rw [heq] at e
    exact (Except.ok.inj e).symm
  subst hr
  refine ⟨heq, hp, hp.length_eq, ?_⟩
  intro h8 k hk k0 k1 k2 k3
  unfold breakPatternsSpec
  by_cases h4 : (nums.length : Int) < 4
  · simp only [h4, if_true]
  · simp only [h4, h8, if_true, if_false]
    rw [val_swapped _ _ _ k (by omega) (by rw [length_swapped]; omega) (by omega)
      (by rw [length_swapped]; omega) hk, if_neg k3, if_neg k2,
      val_swapped _ _ _ k le_rfl (by omega) (by omega) (by omega) hk, if_neg k1, if_neg k0]

/-- Counterexample to C6 as stated: on thirteen identical values `doPdqPivot` returns
`(11, 12)`, and neither is `[0, 11)` strictly below the pivot nor `[12, 13)` strictly
above it. -/
theorem doPdqPivot_zones_not_strict :
    ∃ r mlo mhi, doPdqPivot refLeaves (List.replicate 13 7) 0 13 = .ok (r, mlo, mhi) ∧
      ¬ (∀ k, 0 ≤ k → k < mlo → val r k < val r mlo) ∧
      ¬ (∀ k, mhi ≤ k → k < 13 → val r mlo < val r k) := by
  refine ⟨List.replicate 13 7, 11, 12, rfl, ?_, ?_⟩
  · intro h
    exact absurd (h 0 (by decide) (by decide)) (by decide)
  · intro h
    exact absurd (h 12 (by decide) (by decide)) (by decide)

/-- Claim C6, amended: when `medianOfThree` keeps its contract, on every range longer than 12
inside the slice `doPdqPivot` returns `(mlo, mhi)` with every element of `[lo, mlo)` at most
the pivot value `nums[mlo]`, every element of `[mlo, mhi)` equal to it and every element of
`[mhi, hi)` at least it. -/
theorem doPdqPivot_zones (L : Leaves) (hM : MedianContract L.medianOfThree) (nums : List Int)
    (lo hi : Int) (hlo : 0 ≤ lo) (hhi : hi ≤ nums.length) (hn : hi - lo > 12)
    (hlen : (nums.length : Int) < 2 ^ 63) :
    ∃ r mlo mhi, doPdqPivot L nums lo hi = .ok (r, mlo, mhi) ∧
      (∀ k, lo ≤ k → k < mlo → val r k ≤ val r mlo) ∧
      (∀ k, mlo ≤ k → k < mhi → val r k = val r mlo) ∧
      (∀ k, mhi ≤ k → k < hi → val r mlo ≤ val r k) := by
  obtain ⟨r, mlo, mhi, e, _, _, _, _, h5, h6, h7⟩ := doPdqPivot_spec hM nums lo hi hlo hhi hn hlen
  exact ⟨r, mlo, mhi, e, h5, h6, h7⟩

/-- Witness of the amended C6: thirteen identical values. -/
theorem doPdqPivot_zones_witness :
    ∃ r mlo mhi, doPdqPivot refLeaves (List.replicate 13 7) 0 13 = .ok (r, mlo, mhi) ∧
      (∀ k, 0 ≤ k → k < mlo → val r k ≤ val r mlo) ∧
      (∀ k, mlo ≤ k → k < mhi → val r k = val r mlo) ∧
      (∀ k, mhi ≤ k → k < 13 → val r mlo ≤ val r k) :=
  doPdqPivot_zones refLeaves refMedianOfThree_contract (List.replicate 13 7) 0 13 (by decide)
    (by decide) (by decide) (by decide)

/-- Claim C7: when `medianOfThree` keeps its contract, on every range `[lo, hi)` longer than
12 with `0 <= lo` and `hi <= len(nums)`, `doPdqPivot` returns `(mlo, mhi)` with
`lo <= mlo < mhi < hi`, the elements of `[lo, mlo)` at most `nums[mlo]`, those of `[mlo, mhi)`
equal to it, those of `[mhi, hi)` at least it, and `[lo, hi)` a permutation of what it held,
the length of the slice and the elements outside the range unchanged. -/
theorem doPdqPivot_weak_partition (L : Leaves) (hM : MedianContract L.medianOfThree)
    (nums : List Int) (lo hi : Int) (hlo : 0 ≤ lo) (hhi : hi ≤ nums.length) (hn : hi - lo > 12)
    (hlen : (nums.length : Int) < 2 ^ 63) :
    ∃ r mlo mhi, doPdqPivot L nums lo hi = .ok (r, mlo, mhi) ∧
      lo ≤ mlo ∧ mlo < mhi ∧ mhi < hi ∧
      (∀ k, lo ≤ k → k < mlo → val r k ≤ val r mlo) ∧
      (∀ k, mlo ≤ k → k < mhi → val r k = val r mlo) ∧
      (∀ k, mhi ≤ k → k < hi → val r mlo ≤ val r k) ∧
      (slice r lo hi).Perm (slice nums lo hi) ∧ RangePerm nums r lo hi := by
  obtain ⟨r, mlo, mhi, e, h1, h2, h3, h4, h5, h6, h7⟩ :=
    doPdqPivot_spec hM nums lo hi hlo hhi hn hlen
  exact ⟨r, mlo, mhi, e, h1, h2, h3, h5, h6, h7, h4.2.2, h4⟩

/-- Witness of C7: the range `[2, 16)` of a slice of 16 digits; the pivot 3 lands at index 4
and a second 3 stays in the right zone. -/
theorem doPdqPivot_weak_partition_witness :
    doPdqPivot refLeaves [3, 1, 4, 1, 5, 9, 2, 6, 5, 3, 5, 8, 9, 7, 9, 3] 2 16 =
        .ok ([3, 1, 2, 1, 3, 9, 5, 6, 5, 3, 5, 8, 9, 7, 9, 4], 4, 5) ∧
      ∃ r mlo mhi,
        doPdqPivot refLeaves [3, 1, 4, 1, 5, 9, 2, 6, 5, 3, 5, 8, 9, 7, 9, 3] 2 16 =
          .ok (r, mlo, mhi) ∧
        2 ≤ mlo ∧ mlo < mhi ∧ mhi < 16 ∧
        (∀ k, 2 ≤ k → k < mlo → val r k ≤ val r mlo) ∧
        (∀ k, mlo ≤ k → k < mhi → val r k = val r mlo) ∧
        (∀ k, mhi ≤ k → k < 16 → val r mlo ≤ val r k) ∧
        (slice r 2 16).Perm (slice [3, 1, 4, 1, 5, 9, 2, 6, 5, 3, 5, 8, 9, 7, 9, 3] 2 16) ∧
        RangePerm [3, 1, 4, 1, 5, 9, 2, 6, 5, 3, 5, 8, 9, 7, 9, 3] r 2 16 :=
  ⟨rfl, doPdqPivot_weak_partition refLeaves refMedianOfThree_contract
    [3, 1, 4, 1, 5, 9, 2, 6, 5, 3, 5, 8, 9, 7, 9, 3] 2 16 (by decide) (by decide) (by decide)
    (by decide)⟩

/-- Counterexample to C8 as stated: on `skewed40` the partition of `[0, 40)` returns
`(33, 36)`; the right open sub-range `[36, 40)` has 4 elements, fewer than `40/8 = 5`, and
yet the step is not classified highly unbalanced, because the code measures the right side
from the pivot position: `40 - (33 + 1) = 6`. -/
theorem highlyUnbalanced_not_open_ranges :
    ∃ r mlo mhi, doPdqPivot refLeaves skewed40 0 40 = .ok (r, mlo, mhi) ∧
      ¬ (highlyUnbalanced skewed40.length 0 40 mlo = true ↔
        (mlo - 0 < (skewed40.length : Int) / 8 ∨ 40 - mhi < (skewed40.length : Int) / 8)) := by
  refine ⟨_, 33, 36, rfl, ?_⟩
  decide

/-- Claim C8, amended: in a partition step of `pdqSort` on `[a, b)` with result `(mlo, mhi)`,
the step is classified highly unbalanced exactly when `mlo - a < len(nums)/8` or
`b - (mlo + 1) < len(nums)/8`: the right side is measured from the pivot position and so
counts the rest of the equal band. Being so classified implies that `[a, mlo)` or `[mhi, b)`
has fewer than `len(nums)/8` elements, and is equivalent to it when the equal band is the
pivot alone. -/
theorem highlyUnbalanced_iff (L : Leaves) (hM : MedianContract L.medianOfThree)
    (nums : List Int) (a b : Int) (ha : 0 ≤ a) (hb : b ≤ nums.length) (hn : b - a > 12)
    (hlen : (nums.length : Int) < 2 ^ 63) :
    ∃ r mlo mhi, doPdqPivot L nums a b = .ok (r, mlo, mhi) ∧
      (highlyUnbalanced nums.length a b mlo = true ↔
        (mlo - a < (nums.length : Int) / 8 ∨ b - (mlo + 1) < (nums.length : Int) / 8)) ∧
      (highlyUnbalanced nums.length a b mlo = true →
        (mlo - a < (nums.length : Int) / 8 ∨ b - mhi < (nums.length : Int) / 8)) ∧
      (mhi = mlo + 1 → (highlyUnbalanced nums.length a b mlo = true ↔
        (mlo - a < (nums.length : Int) / 8 ∨ b - mhi < (nums.length : Int) / 8))) := by
  obtain ⟨r, mlo, mhi, e, _, h2, _⟩ := doPdqPivot_spec hM nums a b ha hb hn hlen
  have hiff : highlyUnbalanced nums.length a b mlo = true ↔
      (mlo - a < (nums.length : Int) / 8 ∨ b - (mlo + 1) < (nums.length : Int) / 8) := by
    simp [highlyUnbalanced]
  refine ⟨r, mlo, mhi, e, hiff, ?_, ?_⟩
  · intro h
    rcases hiff.mp h with h | h
    · exact Or.inl h
    · exact Or.inr (by omega)
  · intro hband
    rw [hiff, hband]

/-- Witness of the amended C8: `skewed40`. -/
theorem highlyUnbalanced_iff_witness :
    ∃ r mlo mhi, doPdqPivot refLeaves skewed40 0 40 = .ok (r, mlo, mhi) ∧
      (highlyUnbalanced skewed40.length 0 40 mlo = true ↔
        (mlo - 0 < (skewed40.length : Int) / 8 ∨
          40 - (mlo + 1) < (skewed40.length : Int) / 8)) ∧
      (highlyUnbalanced skewed40.length 0 40 mlo = true →
        (mlo - 0 < (skewed40.length : Int) / 8 ∨ 40 - mhi < (skewed40.length : Int) / 8)) ∧
      (mhi = mlo + 1 → (highlyUnbalanced skewed40.length 0 40 mlo = true ↔
        (mlo - 0 < (skewed40.length : Int) / 8 ∨ 40 - mhi < (skewed40.length : Int) / 8))) :=
  highlyUnbalanced_iff refLeaves refMedianOfThree_contract skewed40 0 40 (by decide) (by decide)
    (by decide) (by decide)

/-- Claim C9: under the contracts of the leaf routines, on every range
`0 <= a <= b <= len(nums)`: after the partition of a range longer than 12, `pdqSort` hands to
its explicit recursive call one of `[a, mlo)` and `[mhi, b)`, of length at most `(b - a) / 2`,
and goes round its loop on the other one; and the nesting of explicit recursive `pdqSort`
calls, counted by `pdqSortDepth` next to the slice `pdqSort` returns, is at most the integer
part of `log2 (b - a)`. -/
theorem pdqSort_recursion_depth (L : Leaves) (hL : Contracts L) (nums : List Int)
    (a b maxDepth badAllowed : Int) (ha : 0 ≤ a) (hab : a ≤ b) (hb : b ≤ nums.length)
    (hlen : (nums.length : Int) < 2 ^ 63) :
    (b - a > 12 → ∃ r mlo mhi, doPdqPivot L nums a b = .ok (r, mlo, mhi) ∧
        ∃ x y x' y' : Int, y - x ≤ (b - a) / 2 ∧
          ((x, y, x', y') = (a, mlo, mhi, b) ∨ (x, y, x', y') = (mhi, b, a, mlo)) ∧
          ∀ (rec next : List Int → Int → Int → Except Err (List Int)) (s : List Int),
            recurseSmaller rec next s a b mlo mhi = (rec s x y >>= fun t => next t x' y')) ∧
      ∀ fuel : Nat, b - a < fuel →
        ∃ r depth, pdqSortDepth L fuel nums a b maxDepth badAllowed = .ok (r, depth) ∧
          pdqSort L fuel nums a b maxDepth badAllowed = .ok r ∧
          depth ≤ Nat.log 2 (b - a).toNat := by
  constructor
  · intro hbig
    obtain ⟨r, mlo, mhi, e, h1, h2, h3, _⟩ := doPdqPivot_spec hL.median nums a b ha hb hbig hlen
    refine ⟨r, mlo, mhi, e, ?_⟩
    by_cases hlt : mlo - a < b - mhi
    · refine ⟨a, mlo, mhi, b, by omega, Or.inl rfl, ?_⟩
      intro rec next s
      simp only [recurseSmaller, hlt, if_true]
    · refine ⟨mhi, b, a, mlo, by omega, Or.inr rfl, ?_⟩
      intro rec next s
      simp only [recurseSmaller, hlt, if_false]
  · intro fuel hf
    obtain ⟨r, depth, e, _, hd⟩ :=
      pdqSortDepth_spec hL fuel nums a b maxDepth badAllowed ha hab hb hlen hf
    refine ⟨r, depth, e, ?_, hd⟩
    rw [← pdqSortDepth_fst L fuel nums a b maxDepth badAllowed, e]
    rfl

/-- Witness of C9: thirteen identical values; the one recursive call is on `[12, 13)`. -/
theorem pdqSort_recursion_depth_witness :
    pdqSortDepth refLeaves 14 (List.replicate 13 7) 0 13 10 3 = .ok (List.replicate 13 7, 1) ∧
      (((13 : Int) - 0 > 12 → ∃ r mlo mhi,
          doPdqPivot refLeaves (List.replicate 13 7) 0 13 = .ok (r, mlo, mhi) ∧
          ∃ x y x' y' : Int, y - x ≤ (13 - 0) / 2 ∧
            ((x, y, x', y') = (0, mlo, mhi, 13) ∨ (x, y, x', y') = (mhi, 13, 0, mlo)) ∧
            ∀ (rec next : List Int → Int → Int → Except Err (List Int)) (s : List Int),
              recurseSmaller rec next s 0 13 mlo mhi = (rec s x y >>= fun t => next t x' y')) ∧
        ∀ fuel : Nat, (13 : Int) - 0 < fuel →
          ∃ r depth,
            pdqSortDepth refLeaves fuel (List.replicate 13 7) 0 13 10 3 = .ok (r, depth) ∧
            pdqSort refLeaves fuel (List.replicate 13 7) 0 13 10 3 = .ok r ∧
            depth ≤ Nat.log 2 ((13 : Int) - 0).toNat) :=
  ⟨rfl, pdqSort_recursion_depth refLeaves refLeaves_contracts (List.replicate 13 7) 0 13 10 3
    (by decide) (by decide) (by decide) (by decide)⟩

/-- Claim C10: the depth budget is inert. For every leaf routines, step budget, slice, range
and `badAllowed`, `pdqSort` run with any two values of `maxDepth` ends the same way, with the
same final slice; and `PdqSort2` does not depend on what `maxDepth(n)` computes. -/
theorem pdqSort_maxDepth_inert (L : Leaves) (fuel : Nat) (nums : List Int)
    (a b d1 d2 badAllowed : Int) :
    pdqSort L fuel nums a b d1 badAllowed = pdqSort L fuel nums a b d2 badAllowed ∧
      ∀ f : Int → Int, PdqSort2 { L with maxDepth := f } nums = PdqSort2 L nums := by
  refine ⟨pdqSort_depth_irrelevant L fuel nums a b d1 d2 badAllowed, ?_⟩
  intro f
  have hleaf : ∀ (fuel : Nat) (s : List Int) (x y d k : Int),
      pdqSort { L with maxDepth := f } fuel s x y d k = pdqSort L fuel s x y d k := by
    intro fuel
    induction fuel with
    | zero => intro s x y d k; rfl
    | succ fuel ih =>
      intro s x y d k
      have h : ∀ d' k' : Int, (fun s x y => pdqSort { L with maxDepth := f } fuel s x y d' k') =
          (fun s x y => pdqSort L fuel s x y d' k') := by
        intro d' k'
        funext s x y
        exact ih s x y d' k'
      have hp : ∀ s x y, doPdqPivot { L with maxDepth := f } s x y = doPdqPivot L s x y :=
        fun _ _ _ => rfl
      simp only [pdqSort, h, hp]
  simp only [PdqSort2, allowedBadPartitions, hleaf]
  exact pdqSort_depth_irrelevant L _ nums 0 _ _ _ _

/-! The driver: budget exhaustion, frame, and the gap-6 pass. -/

theorem pdqSort_heap_top (L : Leaves) (fuel : Nat) (nums : List Int) (a b d : Int)
    (hbig : b - a > 12) : pdqSort L (fuel + 1) nums a b d 0 = L.heapSort nums a b := by
  simp [pdqSort, hbig]

theorem pdqSort_heap_bad (L : Leaves) (fuel : Nat) (nums r : List Int) (a b d mlo mhi : Int)
    (hbig : b - a > 12) (hp : doPdqPivot L nums a b = .ok (r, mlo, mhi))
    (hu : highlyUnbalanced nums.length a b mlo = true) :
    pdqSort L (fuel + 1) nums a b d 1 = L.heapSort r a b := by
  simp [pdqSort, hbig, hp, hu, bind, Except.bind]

theorem pdqSortTrace_heap_top (L : Leaves) (fuel : Nat) (nums : List Int) (a b d : Int)
    (hbig : b - a > 12) :
    pdqSortTrace L (fuel + 1) nums a b d 0 =
      (L.heapSort nums a b >>= fun s => pure (s, [.loopBody a b 0, .heapSortTop a b])) := by
  simp [pdqSortTrace, hbig]

theorem pdqSortTrace_heap_bad (L : Leaves) (fuel : Nat) (nums r : List Int)
    (a b d mlo mhi : Int) (hbig : b - a > 12)
    (hp : doPdqPivot L nums a b = .ok (r, mlo, mhi))
    (hu : highlyUnbalanced nums.length a b mlo = true) :
    pdqSortTrace L (fuel + 1) nums a b d 1 =
      (L.heapSort r a b >>= fun s =>
        pure (s, [.loopBody a b 1, .doPdqPivot a b, .heapSortBad a b])) := by
  simp [pdqSortTrace, hbig, hp, hu, bind, Except.bind]

theorem highlyUnbalanced_of_short (len a b mlo : Int) (hlen : 0 ≤ len)
    (hsmall : b - a ≤ len / 8) : highlyUnbalanced len a b mlo = true := by
  simp only [highlyUnbalanced, Bool.or_eq_true, decide_eq_true_eq]
  omega

theorem pdqSort_unbalanced_step (L : Leaves) (fuel : Nat) (nums r : List Int)
    (a b d k mlo mhi : Int) (hbig : b - a > 12) (hk : k ≠ 0)
    (hp : doPdqPivot L nums a b = .ok (r, mlo, mhi))
    (hu : highlyUnbalanced nums.length a b mlo = true) :
    pdqSort L (fuel + 1) nums a b d k =
      if k - 1 = 0 then L.heapSort r a b
      else
        (onSlice breakPatterns r a mlo >>= fun s =>
          onSlice breakPatterns s mhi b >>= fun s =>
            recurseSmaller (fun s x y => pdqSort L fuel s x y (d - 1) (k - 1))
              (fun s x y => pdqSort L fuel s x y (d - 1) (k - 1)) s a b mlo mhi) := by
  simp only [pdqSort, hbig, if_true, hk, if_false, hp, ok_bind, hu]

theorem shellPass_gap (a b : Int) (ha : 0 ≤ a) (hab : b - a ≤ 12) :
    ∀ (fuel : Nat) (nums : List Int) (i : Int), a + 6 ≤ i → b ≤ nums.length → b - i < fuel →
      0 < fuel → (∀ j, a + 6 ≤ j → j < i → val nums (j - 6) ≤ val nums j) →
      ∃ r, shellPass b fuel nums i = .ok r ∧ RangePerm nums r a b ∧
        ∀ j, a + 6 ≤ j → j < b → val r (j - 6) ≤ val r j := by
  intro fuel
  induction fuel with
  | zero => intro _ _ _ _ _ h; omega
  | succ fuel ih =>
    intro nums i hi hb hf _ hinv
    by_cases hlt : i < b
    · have ex := idx_eq nums i (by omega) (by omega)
      have ey := idx_eq nums (i - 6) (by omega) (by omega)
      by_cases hc : val nums i ≤ val nums (i - 6)
      · have hsw := swap_eq nums i (i - 6) (by omega) (by omega) (by omega) (by omega)
        have hv : ∀ k, 0 ≤ k → val (swapped nums i (i - 6)) k =
            if k = i - 6 then val nums i else if k = i then val nums (i - 6) else val nums k :=
          fun k hk => val_swapped nums i (i - 6) k (by omega) (by omega) (by omega) (by omega) hk
        obtain ⟨r, e, hr, hg⟩ := ih (swapped nums i (i - 6)) (i + 1) (by omega)
          (by rw [length_swapped]; exact hb) (by omega) (by omega) (by
            intro j hj1 hj2
            rw [hv j (by omega), hv (j - 6) (by omega)]
            by_cases hji : j = i
            · subst hji
              simp only [if_true, if_neg (show ¬ j = j - 6 by omega)]
              exact hc
            · rw [if_neg (by omega), if_neg hji, if_neg (by omega), if_neg (by omega)]
              exact hinv j hj1 (by omega))
        refine ⟨r, ?_, (swapped_rangePerm nums a b i (i - 6) ha hb (by omega) hlt (by omega)
          (by omega)).chain hr, hg⟩
        simp [shellPass, bind, Except.bind, pure, Except.pure, hlt, ex, ey, hc, hsw, e]
      · obtain ⟨r, e, hr, hg⟩ := ih nums (i + 1) (by omega) hb (by omega) (by omega) (by
          intro j hj1 hj2
          by_cases hji : j = i
          · subst hji; omega
          · exact hinv j hj1 (by omega))
        exact ⟨r, by simp [shellPass, bind, Except.bind, pure, Except.pure, hlt, ex, ey, hc, e],
          hr, hg⟩
    · exact ⟨nums, by simp [shellPass, hlt, pure, Except.pure], RangePerm.same _ _ _,
        fun j hj1 hj2 => hinv j hj1 (by omega)⟩

/-! The partitioner: its phases, the protect pass, and ranges of equal values. -/

theorem val_eq_getElem (nums : List Int) (n : Nat) (h : n < nums.length) :
    val nums (n : Int) = nums[n] := by
  simp [val, List.getD_eq_getElem?_getD, List.getElem?_eq_getElem h]

theorem ext_val {r nums : List Int} (hl : r.length = nums.length)
    (h : ∀ k : Int, 0 ≤ k → k < nums.length → val r k = val nums k) : r = nums := by
  apply List.ext_getElem hl
  intro n h1 h2
  rw [← val_eq_getElem r n h1, ← val_eq_getElem nums n h2]
  exact h n (by omega) (by omega)

theorem eq_of_rangePerm_const {nums r : List Int} {a b v : Int} (h : RangePerm nums r a b)
    (ha : 0 ≤ a) (hc : ∀ k, a ≤ k → k < b → k < nums.length → val nums k = v) : r = nums := by
  apply ext_val h.1
  intro k hk hk2
  by_cases hin : a ≤ k ∧ k < b
  · have hm : val r k ∈ slice r a b :=
      (mem_slice_iff r a b ha _).mpr ⟨k, hin.1, hin.2, by rw [h.1]; exact hk2, rfl⟩
    obtain ⟨k', h1, h2, h3, h4⟩ := (mem_slice_iff nums a b ha _).mp (h.2.2.mem_iff.mp hm)
    rw [← h4, hc k' h1 h2 h3, hc k hin.1 hin.2 hk2]
  · exact h.2.1 k hk (by omega)

theorem swapped_eq_self (nums : List Int) (i j : Int) (hi : 0 ≤ i) (hi2 : i < nums.length)
    (hj : 0 ≤ j) (hj2 : j < nums.length) (h : val nums i = val nums j) :
    swapped nums i j = nums := by
  apply ext_val (length_swapped nums i j)
  intro k hk _
  rw [val_swapped nums i j k hi hi2 hj hj2 hk]
  by_cases c1 : k = j
  · rw [if_pos c1, c1]; exact h
  · rw [if_neg c1]
    by_cases c2 : k = i
    · rw [if_pos c2, c2]; exact h.symm
    · rw [if_neg c2]

theorem partitionLoop_empty (pivot : Int) (fuel : Nat) (nums : List Int) (c : Int) :
    partitionLoop pivot (fuel + 1) nums c c = .ok (nums, c, c) := by
  have e1 := scanUp_done (fun x p => !(decide (p ≤ x))) nums pivot c fuel c le_rfl
  have e2 := scanDown_done (fun x p => decide (p ≤ x)) nums pivot c fuel c le_rfl
  simp [partitionLoop, bind, Except.bind, pure, Except.pure, e1, e2]

theorem protect_scans (pivot : Int) (nums : List Int) (a b : Int) (fuel : Nat)
    (hp : 0 ≤ pivot) (hp2 : pivot < nums.length) (ha : 0 ≤ a) (hb : b ≤ nums.length)
    (hf : b - a < fuel) (hf2 : 0 < fuel)
    (hs : ∀ k, a ≤ k → k < b → val nums k < val nums pivot) :
    scanDown (fun x p => decide (x = p)) nums pivot a fuel b = .ok b ∧
      scanUp (fun x p => decide (x < p)) nums pivot b fuel a = .ok (max a b) := by
  obtain ⟨f, rfl⟩ : ∃ f, fuel = f + 1 := ⟨fuel - 1, by omega⟩
  by_cases hab : b ≤ a
  · rw [max_eq_left hab]
    exact ⟨scanDown_done _ nums pivot a f b hab, scanUp_done _ nums pivot b f a hab⟩
  · obtain ⟨b', e1, h1, h2, h3, _⟩ :=
      scanDown_spec (fun x p => decide (x = p)) nums pivot a hp hp2 ha (f + 1) b (by omega)
        hb hf
    have hb' : b' = b := by
      by_contra hne
      have := h3 b' le_rfl (by omega)
      have := hs b' h1 (by omega)
      simp only [decide_eq_true_eq] at *
      omega
    subst hb'
    obtain ⟨a', e2, h4, h5, _, h7⟩ :=
      scanUp_spec (fun x p => decide (x < p)) nums pivot b' hp hp2 hb (f + 1) a ha (by omega)
        hf
    have ha' : a' = b' := by
      by_contra hne
      have := h7 (by omega)
      have := hs a' h4 (by omega)
      simp only [decide_eq_false_iff_not] at *
      omega
    subst ha'
    rw [max_eq_right (by omega)]
    exact ⟨e1, e2⟩

theorem doPdqPivot_phases (L : Leaves) (nums : List Int) (lo hi : Int) :
    doPdqPivot L nums lo hi =
      (scanPhase L nums lo hi >>= fun s => finishPivot s.1 lo hi s.2.1 s.2.2.1 s.2.2.2) := by
  simp only [doPdqPivot, scanPhase, finishPivot]
  cases choosePivot L nums lo hi ((lo + hi) % 2 ^ 64 / 2) with
  | error e => rfl
  | ok n1 =>
    simp only [ok_bind]
    cases scanUp (fun x p => decide (x ≤ p)) n1 lo (hi - 1) ((hi - lo).toNat + 1) (lo + 1) with
    | error e => rfl
    | ok a =>
      simp only [ok_bind]
      cases partitionLoop lo ((hi - lo).toNat + 1) n1 a (hi - 1) with
      | error e => rfl
      | ok t => rfl

theorem scanPhase_spec {L : Leaves} (hM : MedianContract L.medianOfThree) (nums : List Int)
    (lo hi : Int) (hlo : 0 ≤ lo) (hhi : hi ≤ nums.length) (hn : hi - lo > 12)
    (hlen : (nums.length : Int) < 2 ^ 63) :
    ∃ n2 a e, scanPhase L nums lo hi = .ok (n2, a, e, e) ∧ Zones n2 lo hi a e e ∧ a ≤ e ∧
      e < hi ∧ RangePerm nums n2 lo hi := by
  have hm0 : (lo + hi) % 2 ^ 64 / 2 = (lo + hi) / 2 := by omega
  simp only [scanPhase]
  generalize (lo + hi) % 2 ^ 64 / 2 = m at hm0
  obtain ⟨n1, e1, hr1, hle⟩ := choosePivot_spec hM nums lo hi m hlo hhi hn hm0
  have hl1 : (n1.length : Int) = nums.length := by rw [hr1.1]
  obtain ⟨a, e2, ha1, ha2, ha3, _⟩ :=
    scanUp_spec (fun x p => decide (x ≤ p)) n1 lo (hi - 1) hlo (by omega) (by omega)
      ((hi - lo).toNat + 1) (lo + 1) (by omega) (by omega) (by omega)
  simp only [decide_eq_true_eq] at ha3
  obtain ⟨r2, e, e3, he1, he2, hr2, hz1, hz2⟩ :=
    partitionLoop_spec lo hlo ((hi - lo).toNat + 1) n1 a (hi - 1) (by omega) ha2 (by omega)
      (by omega)
  have hz := zones_of_scan hlo ha1 he1 he2 hle ha3 hr2 hz1 hz2
  exact ⟨r2, a, e, by simp [bind, Except.bind, pure, Except.pure, e1, e2, e3], hz, he1,
    by omega, hr1.chain (hr2.widen hlo (by omega) (by omega) (by omega))⟩

theorem finishPivot_spec {nums n2 : List Int} {lo hi a e : Int} (hz : Zones n2 lo hi a e e)
    (he : e < hi) (hrp : RangePerm nums n2 lo hi) (hlo : 0 ≤ lo)
    (hhi : hi ≤ nums.length) (hn : hi - lo > 12) (hlen : (nums.length : Int) < 2 ^ 63) :
    ∃ n3 b c protect, dupCheck n2 lo hi ((lo + hi) % 2 ^ 64 / 2) e e = .ok (n3, b, c, protect) ∧
      Zones n3 lo hi a b c ∧ RangePerm nums n3 lo hi ∧ c < hi ∧
      scanDown (fun x p => decide (x = p)) n3 lo a ((hi - lo).toNat + 1) b = .ok b ∧
      scanUp (fun x p => decide (x < p)) n3 lo b ((hi - lo).toNat + 1) a = .ok (max a b) ∧
      protectLoop lo ((hi - lo).toNat + 1) n3 a b = .ok (n3, max a b, b) ∧
      finishPivot n2 lo hi a e e = .ok (swapped n3 lo (b - 1), b - 1, c) := by
  have hm0 : (lo + hi) % 2 ^ 64 / 2 = (lo + hi) / 2 := by omega
  have hl2 : (n2.length : Int) = nums.length := by rw [hrp.1]
  simp only [finishPivot]
  generalize (lo + hi) % 2 ^ 64 / 2 = m at hm0
  obtain ⟨n3, b, c, protect, e4, hz3, hr3, hc⟩ :=
    dupCheck_spec m hz hlo (by omega) hn hm0 he
  have hl3 : (n3.length : Int) = nums.length := by rw [hr3.1, hl2]
  obtain ⟨z0, z1, z2, z3, _, z5, _, _⟩ := id hz3
  have hsc := protect_scans lo n3 a b ((hi - lo).toNat + 1) hlo (by omega) (by omega)
    (by omega) (by omega) (by omega) z5
  have hpl : protectLoop lo ((hi - lo).toNat + 1) n3 a b = .ok (n3, max a b, b) := by
    have hge : max a b ≥ b := le_max_right a b
    simp [protectLoop, bind, Except.bind, pure, Except.pure, hsc.1, hsc.2, hge]
  have hsw := swap_eq n3 lo (b - 1) hlo (by omega) (by omega) (by omega)
  refine ⟨n3, b, c, protect, e4, hz3, hrp.chain (hr3.widen hlo (by omega) (by omega) le_rfl),
    hc, hsc.1, hsc.2, hpl, ?_⟩
  cases protect with
  | false => simp [bind, Except.bind, pure, Except.pure, e4, hsw]
  | true => simp [bind, Except.bind, pure, Except.pure, e4, hpl, hsw]

/-! The driver: the events of a run. -/

theorem recurseSmallerTrace_fst
    (rec next : List Int → Int → Int → Except Err (List Int))
    (recT nextT : List Int → Int → Int → Except Err (List Int × List Event))
    (hrec : ∀ s x y, (recT s x y).map Prod.fst = rec s x y)
    (hnext : ∀ s x y, (nextT s x y).map Prod.fst = next s x y)
    (k : Int) (nums : List Int) (a b mlo mhi : Int) :
    (recurseSmallerTrace recT nextT k nums a b mlo mhi).map Prod.fst =
      recurseSmaller rec next nums a b mlo mhi := by
  have key : ∀ x y x' y' : Int,
      (do let (s, t1) ← recT nums x y
          let (t, t2) ← nextT s x' y'
          (pure (t, Event.pdqSort x y k :: (t1 ++ t2)) :
            Except Err (List Int × List Event))).map Prod.fst =
      (do let s ← rec nums x y
          next s x' y') := by
    intro x y x' y'
    rw [← hrec nums x y]
    cases h1 : recT nums x y with
    | error e => rfl
    | ok p =>
      obtain ⟨s, t1⟩ := p
      simp only [ok_bind, Except.map]
      rw [← hnext s x' y']
      cases h2 : nextT s x' y' with
      | error e => rfl
      | ok q => rfl
  unfold recurseSmallerTrace recurseSmaller
  by_cases hlt : mlo - a < b - mhi
  · simp only [hlt, if_true]
    exact key a mlo mhi b
  · simp only [hlt, if_false]
    exact key mhi b a mlo

theorem pdqSortTrace_fst (L : Leaves) :
    ∀ (fuel : Nat) (nums : List Int) (a b d k : Int),
      (pdqSortTrace L fuel nums a b d k).map Prod.fst = pdqSort L fuel nums a b d k := by
  intro fuel
  induction fuel with
  | zero => intro nums a b d k; rfl
  | succ fuel ih =>
    intro nums a b d k
    have hm : ∀ d' k' : Int, ∀ s x y,
        (pdqSortTrace L fuel s x y d' k').map Prod.fst = pdqSort L fuel s x y d' k' :=
      fun d' k' s x y => ih s x y d' k'
    have hleaf : ∀ (e : Except Err (List Int)) (t : List Event),
        (do let s ← e
            (pure (s, t) : Except Err (List Int × List Event))).map Prod.fst = e := by
      intro e t
      cases e <;> rfl
    have hrs : ∀ (d' k' : Int) (s : List Int) (mlo mhi : Int) (pre : List Event),
        (do let (u, t) ← recurseSmallerTrace (fun s x y => pdqSortTrace L fuel s x y d' k')
              (fun s x y => pdqSortTrace L fuel s x y d' k') k' s a b mlo mhi
            (pure (u, pre ++ t) : Except Err (List Int × List Event))).map Prod.fst =
          recurseSmaller (fun s x y => pdqSort L fuel s x y d' k')
            (fun s x y => pdqSort L fuel s x y d' k') s a b mlo mhi := by
      intro d' k' s mlo mhi pre
      rw [← recurseSmallerTrace_fst _ _ _ _ (hm d' k') (hm d' k') k' s a b mlo mhi]
      cases recurseSmallerTrace (fun s x y => pdqSortTrace L fuel s x y d' k')
        (fun s x y => pdqSortTrace L fuel s x y d' k') k' s a b mlo mhi with
      | error e => rfl
      | ok p => rfl
    rw [pdqSort, pdqSortTrace]
    by_cases hbig : b - a > 12
    · simp only [hbig, if_true]
      by_cases hz : k = 0
      · simp only [hz, if_true]
        exact hleaf _ _
      · simp only [hz, if_false]
        cases hp : doPdqPivot L nums a b with
        | error e => rfl
        | ok t =>
          obtain ⟨r1, mlo, mhi⟩ := t
          simp only [ok_bind]
          by_cases hu : highlyUnbalanced nums.length a b mlo = true
          · simp only [hu, if_true]
            by_cases hk : k - 1 = 0
            · simp only [hk, if_true]
              exact hleaf _ _
            · simp only [hk, if_false]
              cases h2 : onSlice breakPatterns r1 a mlo with
              | error e => rfl
              | ok r2 =>
                simp only [ok_bind]
                cases h3 : onSlice breakPatterns r2 mhi b with
                | error e => rfl
                | ok r3 =>
                  simp only [ok_bind]
                  exact hrs _ _ _ _ _ _
          · simp only [hu]
            exact hrs _ _ _ _ _ _
    · simp only [hbig, if_false]
      by_cases h1 : b - a > 1
      · simp only [h1, if_true]
        cases h2 : shellPass b (b - a).toNat nums (a + 6) with
        | error e => rfl
        | ok r2 =>
          simp only [ok_bind]
          exact hleaf _ _
      · simp only [h1, if_false]
        rfl

theorem within_widen {x y a b : Int} {ev : Event} (h : Event.within x y ev) (h1 : a ≤ x)
    (h2 : y ≤ b) : Event.within a b ev :=
  ⟨le_trans h1 h.1, h.2.1, le_trans h.2.2 h2⟩

theorem recurseSmallerTrace_spec
    (rec next : List Int → Int → Int → Except Err (List Int × List Event))
    (bound : Int) (keep : Prop) (k : Int) (nums : List Int) (a b mlo mhi : Int)
    (hrec : TracesRanges rec nums.length bound keep)
    (hnext : TracesRanges next nums.length bound keep) (hk : keep → 1 ≤ k)
    (ha : 0 ≤ a) (h1 : a ≤ mlo) (h2 : mlo < mhi) (h3 : mhi ≤ b) (hb : b ≤ nums.length)
    (hbd : b - a ≤ bound) :
    ∃ r t, recurseSmallerTrace rec next k nums a b mlo mhi = .ok (r, t) ∧
      RangePerm nums r a b ∧ (∀ ev ∈ t, Event.within a b ev) ∧
      (keep → ∀ ev ∈ t, Event.budgetKept ev) := by
  have key : ∀ x y x' y' : Int, 0 ≤ x → x ≤ y → y ≤ nums.length → 0 ≤ x' → x' ≤ y' →
      y' ≤ nums.length → a ≤ x → y ≤ b → a ≤ x' → y' ≤ b → y - x < bound → y' - x' < bound →
      ∃ r t, (do let (s, t1) ← rec nums x y
                 let (u, t2) ← next s x' y'
                 (pure (u, Event.pdqSort x y k :: (t1 ++ t2)) :
                   Except Err (List Int × List Event))) = Except.ok (r, t) ∧
        RangePerm nums r a b ∧ (∀ ev ∈ t, Event.within a b ev) ∧
        (keep → ∀ ev ∈ t, Event.budgetKept ev) := by
    intro x y x' y' hx hxy hy hx' hxy' hy' hax hyb hax' hyb' hlt hlt'
    obtain ⟨s, t1, e1, hs, hw1, hk1⟩ := hrec nums x y rfl hx hxy hy hlt
    obtain ⟨u, t2, e2, hu, hw2, hk2⟩ := hnext s x' y' (by rw [hs.1]) hx' hxy' hy' hlt'
    refine ⟨u, Event.pdqSort x y k :: (t1 ++ t2),
      by simp [bind, Except.bind, pure, Except.pure, e1, e2],
      (hs.widen ha hax hxy hyb).chain (hu.widen ha hax' hxy' hyb'), ?_, ?_⟩
    · intro ev hev
      rcases List.mem_cons.mp hev with rfl | hev
      · exact ⟨hax, hxy, hyb⟩
      · rcases List.mem_append.mp hev with hev | hev
        · exact within_widen (hw1 ev hev) hax hyb
        · exact within_widen (hw2 ev hev) hax' hyb'
    · intro hkeep ev hev
      rcases List.mem_cons.mp hev with rfl | hev
      · exact hk hkeep
      · rcases List.mem_append.mp hev with hev | hev
        · exact hk1 hkeep ev hev
        · exact hk2 hkeep ev hev
  unfold recurseSmallerTrace
  by_cases hlt : mlo - a < b - mhi
  · simp only [hlt, if_true]
    exact key a mlo mhi b ha h1 (by omega) (by omega) h3 hb le_rfl (by omega) (by omega)
      le_rfl (by omega) (by omega)
  · simp only [hlt, if_false]
    exact key mhi b a mlo (by omega) h3 hb ha h1 (by omega) (by omega) le_rfl le_rfl
      (by omega) (by omega) (by omega)

theorem pdqSortTrace_spec {L : Leaves} (hL : Contracts L) :
    ∀ (fuel : Nat) (nums : List Int) (a b maxDepth badAllowed : Int), 0 ≤ a → a ≤ b →
      b ≤ nums.length → (nums.length : Int) < 2 ^ 63 → b - a < fuel →
      ∃ r t, pdqSortTrace L fuel nums a b maxDepth badAllowed = .ok (r, t) ∧
        RangePerm nums r a b ∧ (∀ ev ∈ t, Event.within a b ev) ∧
        (1 ≤ badAllowed → ∀ ev ∈ t, Event.budgetKept ev) := by
  intro fuel
  induction fuel with
  | zero => intro _ _ _ _ _ _ _ _ _ h; omega
  | succ fuel ih =>
    intro nums a b maxDepth badAllowed ha hab hb hlen hf
    have hself : ∀ ev : Event, ev.range = (a, b) → Event.within a b ev := by
      intro ev h
      simp only [Event.within, h]
      exact ⟨le_rfl, hab, le_rfl⟩
    by_cases hbig : b - a > 12
    · by_cases hz : badAllowed = 0
      · obtain ⟨r, e, hr, _⟩ := hL.heap nums a b ha hab hb
        refine ⟨r, [.loopBody a b badAllowed, .heapSortTop a b],
          by simp [pdqSortTrace, hbig, hz, e, bind, Except.bind, pure, Except.pure], hr, ?_, ?_⟩
        · intro ev hev
          simp only [List.mem_cons, List.mem_singleton, List.not_mem_nil, or_false] at hev
          rcases hev with rfl | rfl <;> exact hself _ rfl
        · intro h1; omega
      · obtain ⟨r1, mlo, mhi, e1, hpart⟩ := doPdqPivot_spec hL.median nums a b ha hb hbig hlen
        obtain ⟨h1, h2, h3, hrp, _, _, _⟩ := id hpart
        have hl1 : (r1.length : Int) = nums.length := by rw [hrp.1]
        have hsr : ∀ d k : Int, TracesRanges (fun s x y => pdqSortTrace L fuel s x y d k)
            nums.length (b - a) (1 ≤ k) := by
          intro d k s x y hs hx hxy hy hlt
          exact ih s x y d k hx hxy (by omega) (by omega) (by omega)
        have hrest : ∀ (d k : Int) (r2 : List Int), RangePerm r1 r2 a b →
            ∃ r t, recurseSmallerTrace (fun s x y => pdqSortTrace L fuel s x y d k)
              (fun s x y => pdqSortTrace L fuel s x y d k) k r2 a b mlo mhi = .ok (r, t) ∧
              RangePerm nums r a b ∧ (∀ ev ∈ t, Event.within a b ev) ∧
              (1 ≤ k → ∀ ev ∈ t, Event.budgetKept ev) := by
          intro d k r2 hr2
          have hl2 : r2.length = nums.length := by rw [hr2.1, hrp.1]
          obtain ⟨r, t, e, hr, hw, hk⟩ := recurseSmallerTrace_spec _ _ (b - a) (1 ≤ k) k r2 a b
            mlo mhi (by rw [hl2]; exact hsr d k) (by rw [hl2]; exact hsr d k) id ha h1 h2
            (by omega) (by omega) le_rfl
          exact ⟨r, t, e, (hrp.chain hr2).chain hr, hw, hk⟩
        by_cases hu : highlyUnbalanced nums.length a b mlo = true
        · by_cases hk : badAllowed - 1 = 0
          · obtain ⟨r, e, hr, _⟩ := hL.heap r1 a b ha hab (by omega)
            refine ⟨r, [.loopBody a b badAllowed, .doPdqPivot a b, .heapSortBad a b],
              by simp [pdqSortTrace, hbig, hz, bind, Except.bind, pure, Except.pure, e1, hu, hk,
                e], hrp.chain hr, ?_, ?_⟩
            · intro ev hev
              simp only [List.mem_cons, List.mem_singleton, List.not_mem_nil, or_false] at hev
              rcases hev with rfl | rfl | rfl <;> exact hself _ rfl
            · intro hb1 ev hev
              simp only [List.mem_cons, List.mem_singleton, List.not_mem_nil, or_false] at hev
              rcases hev with rfl | rfl | rfl
              · exact hb1
              · exact trivial
              · exact trivial
          · obtain ⟨r2, e2, hr2⟩ := onSlice_spec breakPatterns breakPatterns_perm r1 a mlo ha
              h1 (by omega)
            obtain ⟨r3, e3, hr3⟩ := onSlice_spec breakPatterns breakPatterns_perm r2 mhi b
              (by omega) (by omega) (by rw [hr2.1]; omega)
            obtain ⟨r, t, e, hr, hw, hkk⟩ := hrest (maxDepth - 1) (badAllowed - 1) r3
              ((hr2.widen ha le_rfl h1 (by omega)).chain
                (hr3.widen ha (by omega) (by omega) le_rfl))
            refine ⟨r, [.loopBody a b badAllowed, .doPdqPivot a b, .breakPatterns a mlo,
              .breakPatterns mhi b] ++ t,
              by simp [pdqSortTrace, hbig, hz, bind, Except.bind, pure, Except.pure, e1, hu, hk,
                e2, e3, e], hr, ?_, ?_⟩
            · intro ev hev
              rcases List.mem_append.mp hev with hev | hev
              · simp only [List.mem_cons, List.mem_singleton, List.not_mem_nil, or_false] at hev
                rcases hev with rfl | rfl | rfl | rfl
                · exact hself _ rfl
                · exact hself _ rfl
                · exact ⟨le_rfl, h1, by show mlo ≤ b; omega⟩
                · exact ⟨by show a ≤ mhi; omega, by show mhi ≤ b; omega, le_rfl⟩
              · exact hw ev hev
            · intro hb1 ev hev
              rcases List.mem_append.mp hev with hev | hev
              · simp only [List.mem_cons, List.mem_singleton, List.not_mem_nil, or_false] at hev
                rcases hev with rfl | rfl | rfl | rfl
                · exact hb1
                · exact trivial
                · exact trivial
                · exact trivial
              · exact hkk (by omega) ev hev
        · obtain ⟨r, t, e, hr, hw, hkk⟩ := hrest (maxDepth - 1) badAllowed r1
            (RangePerm.same _ _ _)
          refine ⟨r, [.loopBody a b badAllowed, .doPdqPivot a b] ++ t,
            by simp [pdqSortTrace, hbig, hz, bind, Except.bind, pure, Except.pure, e1, hu, e],
            hr, ?_, ?_⟩
          · intro ev hev
            rcases List.mem_append.mp hev with hev | hev
            · simp only [List.mem_cons, List.mem_singleton, List.not_mem_nil, or_false] at hev
              rcases hev with rfl | rfl <;> exact hself _ rfl
            · exact hw ev hev
          · intro hb1 ev hev
            rcases List.mem_append.mp hev with hev | hev
            · simp only [List.mem_cons, List.mem_singleton, List.not_mem_nil, or_false] at hev
              rcases hev with rfl | rfl
              · exact hb1
              · exact trivial
            · exact hkk hb1 ev hev
    · by_cases h1 : b - a > 1
      · obtain ⟨r1, e1, hr1⟩ := shellPass_spec a b ha (b - a).toNat nums (a + 6) le_rfl hb
          (by omega) (by omega)
        obtain ⟨r, e, hr, _⟩ := hL.insertion r1 a b ha hab (by rw [hr1.1]; exact hb)
        refine ⟨r, [.insertionSort a b],
          by simp [pdqSortTrace, hbig, h1, bind, Except.bind, pure, Except.pure, e1, e],
          hr1.chain hr, ?_, ?_⟩
        · intro ev hev
          rw [List.mem_singleton.mp hev]
          exact hself _ rfl
        · intro _ ev hev
          rw [List.mem_singleton.mp hev]
          exact trivial
      · exact ⟨nums, [], by simp [pdqSortTrace, hbig, h1, pure, Except.pure],
          RangePerm.same _ _ _, fun ev hev => absurd hev (List.not_mem_nil ev),
          fun _ ev hev => absurd hev (List.not_mem_nil ev)⟩

theorem val_swapped_ne (nums : List Int) (i j k : Int) (hi : 0 ≤ i) (hi2 : i < nums.length)
    (hj : 0 ≤ j) (hj2 : j < nums.length) (hk : 0 ≤ k) (h1 : k ≠ i) (h2 : k ≠ j) :
    val (swapped nums i j) k = val nums k := by
  rw [val_swapped nums i j k hi hi2 hj hj2 hk, if_neg h2, if_neg h1]

theorem breakPatterns_frame (nums : List Int) (k : Int) (hk : 0 ≤ k)
    (hn : k ∉ breakPatternsIndices nums.length) :
    val (breakPatternsSpec nums) k = val nums k := by
  unfold breakPatternsSpec
  unfold breakPatternsIndices at hn
  by_cases h4 : (nums.length : Int) < 4
  · simp only [h4, if_true]
  · have h4' : (nums.length : Int) ≥ 4 := by omega
    by_cases h8 : (nums.length : Int) < 8
    · have h8' : ¬ (nums.length : Int) ≥ 8 := by omega
      simp only [h4', h8', if_true, if_false, List.append_nil, List.mem_cons,
        List.mem_singleton, List.not_mem_nil, or_false, not_or] at hn
      obtain ⟨k0, k1, k2, k3⟩ := hn
      simp only [h4, h8, if_true, if_false]
      rw [val_swapped_ne _ _ _ k (by omega) (by simp only [length_swapped]; omega) (by omega)
          (by simp only [length_swapped]; omega) hk k2 k3,
        val_swapped_ne _ _ _ k le_rfl (by omega) (by omega) (by omega) hk k0 k1]
    · have h8' : (nums.length : Int) ≥ 8 := by omega
      simp only [h4', h8', if_true, List.mem_append, List.mem_cons,
        List.mem_singleton, List.not_mem_nil, or_false, not_or] at hn
      obtain ⟨⟨k0, k1, k2, k3⟩, k4, k5, k6, k7, k8, k9, k10, k11⟩ := hn
      simp only [h4, h8, if_false]
      rw [val_swapped_ne _ _ _ k (by omega) (by simp only [length_swapped]; omega) (by omega)
          (by simp only [length_swapped]; omega) hk k10 k11,
        val_swapped_ne _ _ _ k (by omega) (by simp only [length_swapped]; omega) (by omega)
          (by simp only [length_swapped]; omega) hk k8 k9,
        val_swapped_ne _ _ _ k (by omega) (by simp only [length_swapped]; omega) (by omega)
          (by simp only [length_swapped]; omega) hk k6 k7,
        val_swapped_ne _ _ _ k (by omega) (by simp only [length_swapped]; omega) (by omega)
          (by simp only [length_swapped]; omega) hk k4 k5,
        val_swapped_ne _ _ _ k (by omega) (by simp only [length_swapped]; omega) (by omega)
          (by simp only [length_swapped]; omega) hk k2 k3,
        val_swapped_ne _ _ _ k le_rfl (by omega) (by omega) (by omega) hk k0 k1]

theorem breakPatterns_eq_spec (nums : List Int) :
    breakPatterns nums = .ok (breakPatternsSpec nums) := by
  unfold breakPatternsSpec
  by_cases h4 : (nums.length : Int) < 4
  · simp only [h4, if_true]
    exact breakPatterns_small nums h4
  · by_cases h8 : (nums.length : Int) < 8
    · simp only [h4, h8, if_true, if_false]
      exact breakPatterns_mid nums (by omega) h8
    · simp only [h4, h8, if_false]
      exact breakPatterns_large nums (by omega)

theorem breakPatternsIndices_bounds (n i : Int) (h : i ∈ breakPatternsIndices n) :
    0 ≤ i ∧ i < n := by
  unfold breakPatternsIndices at h
  by_cases h4 : n ≥ 4
  · by_cases h8 : n ≥ 8
    · simp only [h4, h8, if_true, List.mem_append, List.mem_cons, List.mem_singleton,
        List.not_mem_nil, or_false] at h
      rcases h with (rfl | rfl | rfl | rfl) | rfl | rfl | rfl | rfl | rfl | rfl | rfl | rfl <;>
        omega
    · simp only [h4, h8, if_true, if_false, List.append_nil, List.mem_cons,
        List.mem_singleton, List.not_mem_nil, or_false] at h
      rcases h with rfl | rfl | rfl | rfl <;> omega
  · simp only [h4, if_false, List.not_mem_nil] at h

theorem doPdqPivot_all_equal {L : Leaves} (hM : MedianContract L.medianOfThree)
    (nums : List Int) (lo hi : Int) (hlo : 0 ≤ lo) (hhi : hi ≤ nums.length) (hn : hi - lo > 12)
    (hlen : (nums.length : Int) < 2 ^ 63)
    (heq : ∀ k, lo ≤ k → k < hi → val nums k = val nums lo) :
    scanPhase L nums lo hi = .ok (nums, hi - 1, hi - 1, hi - 1) ∧
      finishPivot nums lo hi (hi - 1) (hi - 1) (hi - 1) = .ok (nums, hi - 2, hi - 1) ∧
      doPdqPivot L nums lo hi = .ok (nums, hi - 2, hi - 1) := by
  have hm0 : (lo + hi) % 2 ^ 64 / 2 = (lo + hi) / 2 := by omega
  have hscan : scanPhase L nums lo hi = .ok (nums, hi - 1, hi - 1, hi - 1) := by
    simp only [scanPhase]
    generalize (lo + hi) % 2 ^ 64 / 2 = m at hm0
    obtain ⟨n1, e1, hr1, _⟩ := choosePivot_spec hM nums lo hi m hlo hhi hn hm0
    have hn1 : n1 = nums := eq_of_rangePerm_const hr1 hlo (fun k h1 h2 _ => heq k h1 h2)
    subst hn1
    obtain ⟨a, e2, ha1, ha2, _, ha4⟩ :=
      scanUp_spec (fun x p => decide (x ≤ p)) n1 lo (hi - 1) hlo (by omega) (by omega)
        ((hi - lo).toNat + 1) (lo + 1) (by omega) (by omega) (by omega)
    have ha : a = hi - 1 := by
      by_contra hne
      have h := ha4 (by omega)
      simp only [decide_eq_false_iff_not, not_le] at h
      rw [heq a (by omega) (by omega)] at h
      omega
    subst ha
    have e3 := partitionLoop_empty lo (hi - lo).toNat n1 (hi - 1)
    simp [bind, Except.bind, pure, Except.pure, e1, e2, e3]
  have hfin : finishPivot nums lo hi (hi - 1) (hi - 1) (hi - 1) = .ok (nums, hi - 2, hi - 1) := by
    have hdup : ∀ m, dupCheck nums lo hi m (hi - 1) (hi - 1) =
        .ok (nums, hi - 1, hi - 1, true) := by
      intro m
      have h5 : hi - (hi - 1) < 5 := by omega
      simp [dupCheck, h5, pure, Except.pure]
    have hsc := protect_scans lo nums (hi - 1) (hi - 1) ((hi - lo).toNat + 1) hlo (by omega)
      (by omega) (by omega) (by omega) (by omega) (fun k h1 h2 => by omega)
    rw [max_self] at hsc
    have hpl : protectLoop lo ((hi - lo).toNat + 1) nums (hi - 1) (hi - 1) =
        .ok (nums, hi - 1, hi - 1) := by
      simp [protectLoop, bind, Except.bind, pure, Except.pure, hsc.1, hsc.2]
    have hsw : swap nums lo (hi - 1 - 1) = .ok nums := by
      rw [swap_eq nums lo (hi - 1 - 1) hlo (by omega) (by omega) (by omega),
        swapped_eq_self nums lo (hi - 1 - 1) hlo (by omega) (by omega) (by omega)
          (heq (hi - 1 - 1) (by omega) (by omega)).symm]
    have h2 : hi - 1 - 1 = hi - 2 := by omega
    simp only [finishPivot, hdup, ok_bind, if_true, hpl, hsw]
    simp [pure, Except.pure, h2]
  refine ⟨hscan, hfin, ?_⟩
  rw [doPdqPivot_phases, hscan]
  exact hfin

/-- Claim C11: on a range longer than 12, for every leaf routines, slice and `maxDepth`:
`pdqSort` with `badAllowed = 0` is the call `heapSort(nums, a, b)` and nothing else, with no
partition step; and `pdqSort` with `badAllowed = 1` whose first partition step is classified
highly unbalanced is `heapSort` on `[a, b)` of the slice `doPdqPivot` left, with no
`breakPatterns` call, no recursive call and no `insertionSort`, as the events of the run
show. -/
theorem pdqSort_budget_exhausted (L : Leaves) (fuel : Nat) (nums : List Int) (a b d : Int)
    (hbig : b - a > 12) :
    pdqSort L (fuel + 1) nums a b d 0 = L.heapSort nums a b ∧
      pdqSortTrace L (fuel + 1) nums a b d 0 =
        (L.heapSort nums a b >>= fun s => pure (s, [.loopBody a b 0, .heapSortTop a b])) ∧
      ∀ r mlo mhi, doPdqPivot L nums a b = .ok (r, mlo, mhi) →
        highlyUnbalanced nums.length a b mlo = true →
        pdqSort L (fuel + 1) nums a b d 1 = L.heapSort r a b ∧
          pdqSortTrace L (fuel + 1) nums a b d 1 =
            (L.heapSort r a b >>= fun s =>
              pure (s, [.loopBody a b 1, .doPdqPivot a b, .heapSortBad a b])) :=
  ⟨pdqSort_heap_top L fuel nums a b d hbig, pdqSortTrace_heap_top L fuel nums a b d hbig,
    fun r mlo mhi hp hu => ⟨pdqSort_heap_bad L fuel nums r a b d mlo mhi hbig hp hu,
      pdqSortTrace_heap_bad L fuel nums r a b d mlo mhi hbig hp hu⟩⟩

/-- Witness of C11: sixteen identical values; the partition returns `(14, 15)`, the right side
`16 - 15 = 1` is below `16/8 = 2`, and the last allowed bad partition sends `[0, 16)` to
`heapSort`. -/
theorem pdqSort_budget_exhausted_witness :
    doPdqPivot refLeaves (List.replicate 16 7) 0 16 = .ok (List.replicate 16 7, 14, 15) ∧
      highlyUnbalanced (List.replicate 16 (7 : Int)).length 0 16 14 = true ∧
      pdqSortTrace refLeaves 1 (List.replicate 16 7) 0 16 5 1 =
        .ok (List.replicate 16 7, [.loopBody 0 16 1, .doPdqPivot 0 16, .heapSortBad 0 16]) ∧
      (pdqSort refLeaves (0 + 1) (List.replicate 16 7) 0 16 5 0 =
          refLeaves.heapSort (List.replicate 16 7) 0 16 ∧
        pdqSortTrace refLeaves (0 + 1) (List.replicate 16 7) 0 16 5 0 =
          (refLeaves.heapSort (List.replicate 16 7) 0 16 >>= fun s =>
            pure (s, [.loopBody 0 16 0, .heapSortTop 0 16])) ∧
        ∀ r mlo mhi, doPdqPivot refLeaves (List.replicate 16 7) 0 16 = .ok (r, mlo, mhi) →
          highlyUnbalanced (List.replicate 16 (7 : Int)).length 0 16 mlo = true →
          pdqSort refLeaves (0 + 1) (List.replicate 16 7) 0 16 5 1 =
              refLeaves.heapSort r 0 16 ∧
            pdqSortTrace refLeaves (0 + 1) (List.replicate 16 7) 0 16 5 1 =
              (refLeaves.heapSort r 0 16 >>= fun s =>
                pure (s, [.loopBody 0 16 1, .doPdqPivot 0 16, .heapSortBad 0 16]))) :=
  ⟨rfl, rfl, rfl, pdqSort_budget_exhausted refLeaves 0 (List.replicate 16 7) 0 16 5 (by decide)⟩

/-- Claim C12: under the contracts of the leaf routines, a call of `pdqSort` on a range
`0 <= a <= b <= len(nums)` returns, without any index or slice expression out of bounds, and
every range it passes to `doPdqPivot`, `heapSort`, `insertionSort` or a recursive `pdqSort`
call, or slices off for `breakPatterns`, is a range `lo <= hi` contained in `[a, b)`, hence
in `[0, len(nums))`. -/
theorem pdqSort_ranges_valid (L : Leaves) (hL : Contracts L) (nums : List Int)
    (a b maxDepth badAllowed : Int) (ha : 0 ≤ a) (hab : a ≤ b) (hb : b ≤ nums.length)
    (hlen : (nums.length : Int) < 2 ^ 63) (fuel : Nat) (hf : b - a < fuel) :
    ∃ r t, pdqSortTrace L fuel nums a b maxDepth badAllowed = .ok (r, t) ∧
      pdqSort L fuel nums a b maxDepth badAllowed = .ok r ∧
      ∀ ev ∈ t, a ≤ ev.range.1 ∧ ev.range.1 ≤ ev.range.2 ∧ ev.range.2 ≤ b ∧
        0 ≤ ev.range.1 ∧ ev.range.2 ≤ nums.length := by
  obtain ⟨r, t, e, _, hw, _⟩ :=
    pdqSortTrace_spec hL fuel nums a b maxDepth badAllowed ha hab hb hlen hf
  refine ⟨r, t, e, ?_, ?_⟩
  · rw [← pdqSortTrace_fst L fuel nums a b maxDepth badAllowed, e]
    rfl
  · intro ev hev
    obtain ⟨h1, h2, h3⟩ := hw ev hev
    exact ⟨h1, h2, h3, by omega, by omega⟩

/-- Witness of C12: the range `[1, 15)` of a slice of sixteen values, one and the same inside
the range. -/
theorem pdqSort_ranges_valid_witness :
    pdqSortTrace refLeaves 15 ([0] ++ List.replicate 14 7 ++ [9]) 1 15 8 3 =
        .ok ([0] ++ List.replicate 14 7 ++ [9],
          [.loopBody 1 15 3, .doPdqPivot 1 15, .breakPatterns 1 13, .breakPatterns 14 15,
            .pdqSort 14 15 2, .insertionSort 1 13]) ∧
      ∃ r t, pdqSortTrace refLeaves 15 ([0] ++ List.replicate 14 7 ++ [9]) 1 15 8 3 =
          .ok (r, t) ∧
        pdqSort refLeaves 15 ([0] ++ List.replicate 14 7 ++ [9]) 1 15 8 3 = .ok r ∧
        ∀ ev ∈ t, 1 ≤ ev.range.1 ∧ ev.range.1 ≤ ev.range.2 ∧ ev.range.2 ≤ 15 ∧
          0 ≤ ev.range.1 ∧
          ev.range.2 ≤ (([0] ++ List.replicate 14 7 ++ [9] : List Int).length : Int) :=
  ⟨rfl, pdqSort_ranges_valid refLeaves refLeaves_contracts ([0] ++ List.replicate 14 7 ++ [9])
    1 15 8 3 (by decide) (by decide) (by decide) (by decide) 15 (by decide)⟩

/-- Claim C13: a partition step of `pdqSort` on a range with `12 < b - a <= len(nums)/8` is
classified highly unbalanced wherever the pivot lands, because the sizes are compared with
`len(nums)/8`; so the step always spends quality budget: whatever `doPdqPivot` returns,
`pdqSort` takes the branch that decrements `badAllowed`. -/
theorem small_range_spends_budget (L : Leaves) (nums : List Int) (a b : Int)
    (hbig : b - a > 12) (hsmall : b - a ≤ (nums.length : Int) / 8) :
    (∀ mlo : Int, highlyUnbalanced nums.length a b mlo = true) ∧
      ∀ (fuel : Nat) (d k : Int) (r : List Int) (mlo mhi : Int), k ≠ 0 →
        doPdqPivot L nums a b = .ok (r, mlo, mhi) →
        pdqSort L (fuel + 1) nums a b d k =
          if k - 1 = 0 then L.heapSort r a b
          else
            (onSlice breakPatterns r a mlo >>= fun s =>
              onSlice breakPatterns s mhi b >>= fun s =>
                recurseSmaller (fun s x y => pdqSort L fuel s x y (d - 1) (k - 1))
                  (fun s x y => pdqSort L fuel s x y (d - 1) (k - 1)) s a b mlo mhi) := by
  have hu : ∀ mlo : Int, highlyUnbalanced nums.length a b mlo = true :=
    fun mlo => highlyUnbalanced_of_short nums.length a b mlo (by omega) hsmall
  exact ⟨hu, fun fuel d k r mlo mhi hk hp =>
    pdqSort_unbalanced_step L fuel nums r a b d k mlo mhi hbig hk hp (hu mlo)⟩

/-- Witness of C13: the range `[0, 13)` of a slice of 104 values, split by `doPdqPivot` into
six values, the pivot and six values. -/
theorem small_range_spends_budget_witness :
    doPdqPivot refLeaves (List.range 104 |>.map Int.ofNat) 0 13 =
        .ok (List.range 104 |>.map Int.ofNat, 6, 7) ∧
      ((∀ mlo : Int,
          highlyUnbalanced (List.range 104 |>.map Int.ofNat).length 0 13 mlo = true) ∧
        ∀ (fuel : Nat) (d k : Int) (r : List Int) (mlo mhi : Int), k ≠ 0 →
          doPdqPivot refLeaves (List.range 104 |>.map Int.ofNat) 0 13 = .ok (r, mlo, mhi) →
          pdqSort refLeaves (fuel + 1) (List.range 104 |>.map Int.ofNat) 0 13 d k =
            if k - 1 = 0 then refLeaves.heapSort r 0 13
            else
              (onSlice breakPatterns r 0 mlo >>= fun s =>
                onSlice breakPatterns s mhi 13 >>= fun s =>
                  recurseSmaller (fun s x y => pdqSort refLeaves fuel s x y (d - 1) (k - 1))
                    (fun s x y => pdqSort refLeaves fuel s x y (d - 1) (k - 1)) s 0 13 mlo
                    mhi)) :=
  ⟨rfl, small_range_spends_budget refLeaves (List.range 104 |>.map Int.ofNat) 0 13 (by decide)
    (by decide)⟩

/-- Claim C14: under the contracts of the leaf routines, `pdqSort` on a range
`0 <= a <= b <= len(nums)` leaves the length of the slice and every element at an index
outside `[a, b)` unchanged; and `doPdqPivot` on a range longer than 12 changes no element
outside `[lo, hi)` and not the length. -/
theorem pdqSort_frame (L : Leaves) (hL : Contracts L) (nums : List Int)
    (a b maxDepth badAllowed : Int) (ha : 0 ≤ a) (hab : a ≤ b) (hb : b ≤ nums.length)
    (hlen : (nums.length : Int) < 2 ^ 63) :
    (∃ r, (∀ fuel : Nat, b - a < fuel →
          pdqSort L fuel nums a b maxDepth badAllowed = .ok r) ∧
        r.length = nums.length ∧
        ∀ i : Int, 0 ≤ i → i < a ∨ b ≤ i → val r i = val nums i) ∧
      (b - a > 12 → ∃ r mlo mhi, doPdqPivot L nums a b = .ok (r, mlo, mhi) ∧
        r.length = nums.length ∧
        ∀ i : Int, 0 ≤ i → i < a ∨ b ≤ i → val r i = val nums i) := by
  constructor
  · obtain ⟨r, e, hr, _⟩ := pdqSort_spec hL ((b - a).toNat + 1) nums a b maxDepth badAllowed ha
      hab hb hlen (by push_cast; omega)
    exact ⟨r, fun fuel hf => pdqSort_fuel_le L nums a b maxDepth badAllowed r _ fuel
      (by omega) e, hr.1, hr.2.1⟩
  · intro hbig
    obtain ⟨r, mlo, mhi, e, _, _, _, hr, _⟩ := doPdqPivot_spec hL.median nums a b ha hb hbig hlen
    exact ⟨r, mlo, mhi, e, hr.1, hr.2.1⟩

/-- Witness of C14: the range `[1, 4)` of `[9, 3, 1, 2, 0]`; the 9 and the 0 stay. -/
theorem pdqSort_frame_witness :
    pdqSort refLeaves 4 [9, 3, 1, 2, 0] 1 4 6 2 = .ok [9, 1, 2, 3, 0] ∧
      ((∃ r, (∀ fuel : Nat, (4 : Int) - 1 < fuel →
            pdqSort refLeaves fuel [9, 3, 1, 2, 0] 1 4 6 2 = .ok r) ∧
          r.length = [9, 3, 1, 2, (0 : Int)].length ∧
          ∀ i : Int, 0 ≤ i → i < 1 ∨ 4 ≤ i → val r i = val [9, 3, 1, 2, 0] i) ∧
        ((4 : Int) - 1 > 12 → ∃ r mlo mhi,
          doPdqPivot refLeaves [9, 3, 1, 2, 0] 1 4 = .ok (r, mlo, mhi) ∧
          r.length = [9, 3, 1, 2, (0 : Int)].length ∧
          ∀ i : Int, 0 ≤ i → i < 1 ∨ 4 ≤ i → val r i = val [9, 3, 1, 2, 0] i)) :=
  ⟨rfl, pdqSort_frame refLeaves refLeaves_contracts [9, 3, 1, 2, 0] 1 4 6 2 (by decide)
    (by decide) (by decide) (by decide)⟩

/-- Claim C15: when `medianOfThree` keeps its contract, on a range `[lo, hi)` longer than 12
whose elements are all equal, `doPdqPivot` leaves the slice unchanged and returns exactly
`(hi-2, hi-1)`: the equal band is the pivot alone, the left sub-range has `hi-lo-2` elements
and the right one a single element. -/
theorem doPdqPivot_all_equal_range (L : Leaves) (hM : MedianContract L.medianOfThree)
    (nums : List Int) (lo hi : Int) (hlo : 0 ≤ lo) (hhi : hi ≤ nums.length) (hn : hi - lo > 12)
    (hlen : (nums.length : Int) < 2 ^ 63)
    (heq : ∀ k, lo ≤ k → k < hi → val nums k = val nums lo) :
    ∃ r mlo mhi, doPdqPivot L nums lo hi = .ok (r, mlo, mhi) ∧ r = nums ∧ mlo = hi - 2 ∧
      mhi = hi - 1 ∧ mhi - mlo = 1 ∧ mlo - lo = hi - lo - 2 ∧ hi - mhi = 1 :=
  ⟨nums, hi - 2, hi - 1, (doPdqPivot_all_equal hM nums lo hi hlo hhi hn hlen heq).2.2, rfl, rfl,
    rfl, by omega, by omega, by omega⟩

/-- Witness of C15: thirteen sevens between a 1 and a 9. -/
theorem doPdqPivot_all_equal_range_witness :
    ∃ r mlo mhi, doPdqPivot refLeaves ([1] ++ List.replicate 13 7 ++ [9]) 1 14 =
        .ok (r, mlo, mhi) ∧
      r = [1] ++ List.replicate 13 7 ++ [9] ∧ mlo = 14 - 2 ∧ mhi = 14 - 1 ∧ mhi - mlo = 1 ∧
      mlo - 1 = 14 - 1 - 2 ∧ 14 - mhi = 1 :=
  doPdqPivot_all_equal_range refLeaves refMedianOfThree_contract
    ([1] ++ List.replicate 13 7 ++ [9]) 1 14 (by decide) (by decide) (by decide) (by decide)
    (by
      intro k h1 h2
      have hk : k = 1 ∨ k = 2 ∨ k = 3 ∨ k = 4 ∨ k = 5 ∨ k = 6 ∨ k = 7 ∨ k = 8 ∨ k = 9 ∨
          k = 10 ∨ k = 11 ∨ k = 12 ∨ k = 13 := by omega
      rcases hk with rfl | rfl | rfl | rfl | rfl | rfl | rfl | rfl | rfl | rfl | rfl | rfl | rfl <;>
        rfl)

/-- Claim C16: when `medianOfThree` keeps its contract, on every range longer than 12 inside
the slice, in the state `(nums, a, b)` in which the protect pass of `doPdqPivot` would start
(whether or not `protect` is set) every element of `[a, b)` is strictly less than the pivot.
So the first inner loop of the pass leaves `b`, the second one moves `a` up to `b` at least,
the loop breaks before the exchange of line 96, and the pass returns the slice and `b`
unchanged. -/
theorem protect_pass_never_exchanges (L : Leaves) (hM : MedianContract L.medianOfThree)
    (nums : List Int) (lo hi : Int) (hlo : 0 ≤ lo) (hhi : hi ≤ nums.length) (hn : hi - lo > 12)
    (hlen : (nums.length : Int) < 2 ^ 63) :
    ∃ n2 a e n3 b c protect,
      scanPhase L nums lo hi = .ok (n2, a, e, e) ∧
      dupCheck n2 lo hi ((lo + hi) % 2 ^ 64 / 2) e e = .ok (n3, b, c, protect) ∧
      (∀ k, a ≤ k → k < b → val n3 k < val n3 lo) ∧
      scanDown (fun x p => decide (x = p)) n3 lo a ((hi - lo).toNat + 1) b = .ok b ∧
      scanUp (fun x p => decide (x < p)) n3 lo b ((hi - lo).toNat + 1) a = .ok (max a b) ∧
      max a b ≥ b ∧
      protectLoop lo ((hi - lo).toNat + 1) n3 a b = .ok (n3, max a b, b) ∧
      doPdqPivot L nums lo hi = .ok (swapped n3 lo (b - 1), b - 1, c) := by
  obtain ⟨n2, a, e, e1, hz, _, he, hrp⟩ := scanPhase_spec hM nums lo hi hlo hhi hn hlen
  obtain ⟨n3, b, c, protect, e2, hz3, _, _, h1, h2, h3, h4⟩ :=
    finishPivot_spec hz he hrp hlo hhi hn hlen
  refine ⟨n2, a, e, n3, b, c, protect, e1, e2, hz3.2.2.2.2.2.1, h1, h2, le_max_right a b, h3, ?_⟩
  rw [doPdqPivot_phases, e1]
  exact h4

/-- Witness of C16: on `skewed40` the duplicate test finds two samples equal to the pivot and
sets `protect`, with `b = 34` below `a = 35`. -/
theorem protect_pass_never_exchanges_witness :
    (∃ n3, dupCheck skewed40 0 40 ((0 + 40) % 2 ^ 64 / 2) 35 35 = .ok (n3, 34, 36, true)) ∧
      ∃ n2 a e n3 b c protect,
        scanPhase refLeaves skewed40 0 40 = .ok (n2, a, e, e) ∧
        dupCheck n2 0 40 ((0 + 40) % 2 ^ 64 / 2) e e = .ok (n3, b, c, protect) ∧
        (∀ k, a ≤ k → k < b → val n3 k < val n3 0) ∧
        scanDown (fun x p => decide (x = p)) n3 0 a (((40 : Int) - 0).toNat + 1) b = .ok b ∧
        scanUp (fun x p => decide (x < p)) n3 0 b (((40 : Int) - 0).toNat + 1) a =
          .ok (max a b) ∧
        max a b ≥ b ∧
        protectLoop 0 (((40 : Int) - 0).toNat + 1) n3 a b = .ok (n3, max a b, b) ∧
        doPdqPivot refLeaves skewed40 0 40 = .ok (swapped n3 0 (b - 1), b - 1, c) :=
  ⟨⟨_, rfl⟩, protect_pass_never_exchanges refLeaves refMedianOfThree_contract skewed40 0 40
    (by decide) (by decide) (by decide) (by decide)⟩

/-- Claim C17: under the contracts of the leaf routines, in a call of `pdqSort` on a range
`0 <= a <= b <= len(nums)` with `badAllowed >= 1`, every recursive `pdqSort` call is made
with `badAllowed >= 1`, every round of the loop starts with `badAllowed >= 1`, and the
`heapSort` call guarded by `badAllowed == 0` at the top of the loop is never made: a
`heapSort` call, if any, is the one of the unbalanced-partition branch. -/
theorem pdqSort_budget_invariant (L : Leaves) (hL : Contracts L) (nums : List Int)
    (a b maxDepth badAllowed : Int) (ha : 0 ≤ a) (hab : a ≤ b) (hb : b ≤ nums.length)
    (hlen : (nums.length : Int) < 2 ^ 63) (hk : 1 ≤ badAllowed) (fuel : Nat)
    (hf : b - a < fuel) :
    ∃ r t, pdqSortTrace L fuel nums a b maxDepth badAllowed = .ok (r, t) ∧
      pdqSort L fuel nums a b maxDepth badAllowed = .ok r ∧
      (∀ x y k, Event.pdqSort x y k ∈ t → 1 ≤ k) ∧
      (∀ x y k, Event.loopBody x y k ∈ t → 1 ≤ k) ∧
      (∀ x y, Event.heapSortTop x y ∉ t) := by
  obtain ⟨r, t, e, _, _, hbud⟩ :=
    pdqSortTrace_spec hL fuel nums a b maxDepth badAllowed ha hab hb hlen hf
  refine ⟨r, t, e, ?_, fun x y k h => hbud hk _ h, fun x y k h => hbud hk _ h,
    fun x y h => hbud hk _ h⟩
  rw [← pdqSortTrace_fst L fuel nums a b maxDepth badAllowed, e]
  rfl

/-- Witness of C17: sixteen identical values with a budget of two bad partitions. The first
partition is unbalanced and leaves a budget of one for the recursive call and the next round;
the second one is unbalanced too and ends in the `heapSort` of the unbalanced branch. -/
theorem pdqSort_budget_invariant_witness :
    pdqSortTrace refLeaves 17 (List.replicate 16 7) 0 16 8 2 =
        .ok (List.replicate 16 7,
          [.loopBody 0 16 2, .doPdqPivot 0 16, .breakPatterns 0 14, .breakPatterns 15 16,
            .pdqSort 15 16 1, .loopBody 0 14 1, .doPdqPivot 0 14, .heapSortBad 0 14]) ∧
      ∃ r t, pdqSortTrace refLeaves 17 (List.replicate 16 7) 0 16 8 2 = .ok (r, t) ∧
        pdqSort refLeaves 17 (List.replicate 16 7) 0 16 8 2 = .ok r ∧
        (∀ x y k, Event.pdqSort x y k ∈ t → 1 ≤ k) ∧
        (∀ x y k, Event.loopBody x y k ∈ t → 1 ≤ k) ∧
        (∀ x y, Event.heapSortTop x y ∉ t) :=
  ⟨rfl, pdqSort_budget_invariant refLeaves refLeaves_contracts (List.replicate 16 7) 0 16 8 2
    (by decide) (by decide) (by decide) (by decide) (by decide) 17 (by decide)⟩

/-- Claim C18: for every slice, of length `n`, every index `breakPatterns` reads or writes
(`0, n/2, n-1, n-n/2` from length 4 on and `1, 2, n/2+1, n/2+2, n-2, n-3, n-n/2-1, n-n/2-2`
from length 8 on) lies in `[0, n)`, so that indexing a slice of this length there succeeds;
`breakPatterns` returns without an index out of range, and it touches no other position. -/
theorem breakPatterns_indices_in_range (nums : List Int) :
    (∀ i ∈ breakPatternsIndices nums.length, 0 ≤ i ∧ i < nums.length ∧
        ∀ s : List Int, s.length = nums.length → idx s i = .ok (val s i)) ∧
      ∃ r, breakPatterns nums = .ok r ∧ r.length = nums.length ∧
        ∀ k : Int, 0 ≤ k → k ∉ breakPatternsIndices nums.length → val r k = val nums k := by
  refine ⟨fun i hi => ?_, breakPatternsSpec nums, breakPatterns_eq_spec nums, ?_,
    fun k hk hn => breakPatterns_frame nums k hk hn⟩
  · obtain ⟨h0, h1⟩ := breakPatternsIndices_bounds _ i hi
    exact ⟨h0, h1, fun s hs => idx_eq s i h0 (by rw [hs]; exact h1)⟩
  · obtain ⟨r, e, hp⟩ := breakPatterns_perm nums
    rw [breakPatterns_eq_spec] at e
    cases e
    exact hp.length_eq

/-- Claim C19, the code against its own comment: at the end of the scanning phase of
`doPdqPivot` the zones written above the loop (lines 28-34) do not hold. On thirteen equal
values the scan ends with `a = b = c = 12` and `(lo, a)` full of values equal to the pivot,
not less than it; on a slice of sixteen values, range `[2, 16)`, it ends with `a = 4`,
`b = c = 5` and the pivot value 3 at index 9 inside `[c, hi-1)`, not greater than it. -/
theorem scanPhase_breaks_documented_zones :
    (scanPhase refLeaves (List.replicate 13 7) 0 13 = .ok (List.replicate 13 7, 12, 12, 12) ∧
        val (List.replicate 13 7) 1 = val (List.replicate 13 7) 0 ∧
        ¬ DocumentedZones (List.replicate 13 7) 0 13 12 12 12) ∧
      (scanPhase refLeaves [3, 1, 4, 1, 5, 9, 2, 6, 5, 3, 5, 8, 9, 7, 9, 3] 2 16 =
          .ok ([3, 1, 3, 1, 2, 9, 5, 6, 5, 3, 5, 8, 9, 7, 9, 4], 4, 5, 5) ∧
        val [3, 1, 3, 1, 2, 9, 5, 6, 5, 3, 5, 8, 9, 7, 9, 4] 9 =
          val [3, 1, 3, 1, 2, 9, 5, 6, 5, 3, 5, 8, 9, 7, 9, 4] 2 ∧
        ¬ DocumentedZones [3, 1, 3, 1, 2, 9, 5, 6, 5, 3, 5, 8, 9, 7, 9, 4] 2 16 4 5 5) := by
  refine ⟨⟨rfl, rfl, fun h => ?_⟩, rfl, rfl, fun h => ?_⟩
  · exact absurd (h.1 1 (by decide) (by decide)) (by decide)
  · exact absurd (h.2.2.1 9 (by decide) (by decide)) (by decide)

/-- Claim C20: on a range `[a, b)` with `1 < b - a <= 12` inside the slice, the single
compare-and-exchange pass of `pdqSort` before `insertionSort` returns a slice in which
`nums[i-6] <= nums[i]` for every `i` in `[a+6, b)`, the range being a permutation of its
previous contents and the rest of the slice unchanged; `pdqSort` is this pass followed by
`insertionSort`. -/
theorem shellPass_gap6 (nums : List Int) (a b : Int) (ha : 0 ≤ a) (hb : b ≤ nums.length)
    (h1 : 1 < b - a) (h12 : b - a ≤ 12) :
    ∃ r, shellPass b (b - a).toNat nums (a + 6) = .ok r ∧
      (∀ i, a + 6 ≤ i → i < b → val r (i - 6) ≤ val r i) ∧
      (slice r a b).Perm (slice nums a b) ∧ RangePerm nums r a b ∧
      ∀ (L : Leaves) (fuel : Nat) (d k : Int),
        pdqSort L (fuel + 1) nums a b d k = L.insertionSort r a b := by
  obtain ⟨r, e, hr, hg⟩ := shellPass_gap a b ha h12 (b - a).toNat nums (a + 6) (le_refl _) hb
    (by omega) (by omega) (fun j hj1 hj2 => by omega)
  refine ⟨r, e, hg, hr.2.2, hr, fun L fuel d k => ?_⟩
  have h12n : ¬ b - a > 12 := by omega
  simp [pdqSort, h12n, h1, e, bind, Except.bind]

/-- Witness of C20: eight values in descending order; the pass exchanges the pairs `(0, 6)`
and `(1, 7)`. -/
theorem shellPass_gap6_witness :
    shellPass 8 ((8 : Int) - 0).toNat [9, 8, 7, 6, 5, 4, 3, 2] (0 + 6) =
        .ok [3, 2, 7, 6, 5, 4, 9, 8] ∧
      ∃ r, shellPass 8 ((8 : Int) - 0).toNat [9, 8, 7, 6, 5, 4, 3, 2] (0 + 6) = .ok r ∧
        (∀ i, 0 + 6 ≤ i → i < 8 → val r (i - 6) ≤ val r i) ∧
        (slice r 0 8).Perm (slice [9, 8, 7, 6, 5, 4, 3, 2] 0 8) ∧
        RangePerm [9, 8, 7, 6, 5, 4, 3, 2] r 0 8 ∧
        ∀ (L : Leaves) (fuel : Nat) (d k : Int),
          pdqSort L (fuel + 1) [9, 8, 7, 6, 5, 4, 3, 2] 0 8 d k = L.insertionSort r 0 8 :=
  ⟨rfl, shellPass_gap6 [9, 8, 7, 6, 5, 4, 3, 2] 0 8 (by decide) (by decide) (by decide)
    (by decide)⟩

end PdqSort
